import Mathlib

/-!
# SmartCache (MLOS example): a shallow embedding of `SmartCacheImpl.h`

The C++ classes `LFUSmartCacheImpl<TKey, TValue>` and `SmartCacheImpl<TKey, TValue>`
are embedded at the instantiation the repository uses, `<int32_t, int32_t>`
(`Workloads.cpp`); keys and values are `Int` (no arithmetic is done on them).

* A `std::list<T>` is a list of cells, front first.  A cell is a node identity
  together with its payload; an iterator is a node identity.  Node identities
  are issued by a counter (`nodes`) and never reused, so an iterator whose node
  has been erased designates nothing (using it is undefined behaviour).
* A `std::unordered_map<K, V>` is an association list with at most one entry per
  key (`mapSet`, `mapErase` and `mapEmplace` keep it so); `size()` is its length.
* `m_config` is a reference to an object outside the cache: every operation takes
  the current `ComponentConfig` as an argument, and the operations that send
  telemetry return it with the message appended.
* `int` counters (`m_cacheSize`, frequencies) are unbounded integers: the model
  does not follow a frequency past `INT_MAX`.
-/

namespace SmartCache

/-! ## Containers -/

/-- A `std::list<T>`: cells `(node, payload)`, front first. -/
abbrev StdList (α : Type) := List (Nat × α)

/-- The payload an iterator designates (`*it`); `none` when the node is not in the list. -/
def listDeref {α : Type} : StdList α → Nat → Option α
  | [], _ => none
  | c :: l, it => if c.1 = it then some c.2 else listDeref l it

/-- The `std::list::erase(it)` call; `none` when the iterator designates no element of the list. -/
def listErase {α : Type} (l : StdList α) (it : Nat) : Option (StdList α) :=
  if it ∈ l.map Prod.fst then some (l.filter (fun c => decide (c.1 ≠ it))) else none

/-- The `std::unordered_map::find(key)` call: the mapped value, `none` for `end()`. -/
def mapFind {ν : Type} : List (Int × ν) → Int → Option ν
  | [], _ => none
  | e :: m, k => if e.1 = k then some e.2 else mapFind m k

/-- The `std::unordered_map::erase(key)` call. -/
def mapErase {ν : Type} (m : List (Int × ν)) (k : Int) : List (Int × ν) :=
  m.filter (fun e => decide (e.1 ≠ k))

/-- Assignment through `operator[]` (or through a found iterator's `->second`). -/
def mapSet {ν : Type} (m : List (Int × ν)) (k : Int) (v : ν) : List (Int × ν) :=
  (k, v) :: mapErase m k

/-- The `std::unordered_map::emplace(key, value)` call: no effect when the key is present. -/
def mapEmplace {ν : Type} (m : List (Int × ν)) (k : Int) (v : ν) : List (Int × ν) :=
  match mapFind m k with
  | some _ => m
  | none => (k, v) :: m

/-- Reading through `operator[]`: a value-initialised element when the key is absent. -/
def mapAt {ν : Type} (m : List (Int × ν)) (k : Int) (dflt : ν) : ν :=
  (mapFind m k).getD dflt

/-! ## Configuration and telemetry -/

/-- Modelled from the spec: the enum `SmartCache::CacheEvictionPolicy` is declared outside
the two source files; it has the three policies the code names, and `Unrecognized` stands
for any other value the shared-memory field may hold. -/
inductive CacheEvictionPolicy where
  | LeastRecentlyUsed
  | MostRecentlyUsed
  | LeastFrequentlyUsed
  | Unrecognized (raw : Nat)
deriving DecidableEq, Repr

/-- The telemetry message `SmartCache::CacheRequestEventMessage`. -/
structure CacheRequestEventMessage where
  ConfigId : Nat
  Key : Int
  IsInCache : Bool
deriving DecidableEq, Repr

/-- The object `m_config` refers to: the settings read by the cache and the telemetry
channel, kept as the sequence of messages sent so far. -/
structure ComponentConfig where
  ConfigId : Nat
  CacheSize : Int
  EvictionPolicy : CacheEvictionPolicy
  telemetry : List CacheRequestEventMessage
deriving DecidableEq, Repr

/-- The `m_config.SendTelemetryMessage(msg)` call. -/
def ComponentConfig.SendTelemetryMessage (cfg : ComponentConfig)
    (msg : CacheRequestEventMessage) : ComponentConfig :=
  { cfg with telemetry := cfg.telemetry ++ [msg] }

/-! ## `LFUSmartCacheImpl` -/

/-- The fields of `LFUSmartCacheImpl<int32_t, int32_t>`; `nodes` is the next unused node
identity of its lists. -/
structure LFUSmartCacheImpl where
  m_KeySequence : List (Int × StdList Int)
  m_elementSequence : List (Int × (Int × Int))
  m_lookupTable : List (Int × Nat)
  m_cacheSize : Int
  min_frequency : Int
  nodes : Nat
deriving DecidableEq, Repr

/-- The value of `x + 1` for an `int` variable `x`.  At `INT_MAX` the addition overflows:
the language leaves the result undefined, and the two's complement arithmetic of the
machine gives `INT_MIN`. -/
def int32Succ (x : Int) : Int :=
  if x = 2147483647 then -2147483648 else x + 1

namespace LFUSmartCacheImpl

/-- The list `m_KeySequence[f]` (empty when the frequency has no list yet). -/
def bucket (s : LFUSmartCacheImpl) (f : Int) : StdList Int :=
  mapAt s.m_KeySequence f []

/-- `LFUSmartCacheImpl::Contains` (lines 62-75). -/
def Contains (cfg : ComponentConfig) (s : LFUSmartCacheImpl) (key : Int) :
    Bool × ComponentConfig :=
  let isInCache := (mapFind s.m_lookupTable key).isSome
  let msg : CacheRequestEventMessage :=
    { ConfigId := cfg.ConfigId, Key := key, IsInCache := isInCache }
  (isInCache, cfg.SendTelemetryMessage msg)

/-- `LFUSmartCacheImpl::Update` (lines 122-138); `none` is undefined behaviour (erasing
through an iterator that designates no element of `m_KeySequence[frequency]`).  The
frequency and `min_frequency` are `int`: `frequency+1` and `min_frequency++` are
`int32Succ`. -/
def Update (s : LFUSmartCacheImpl) (key : Int) : Option LFUSmartCacheImpl :=
  match mapFind s.m_lookupTable key with
  | none => none
  | some lookupItr =>
    let element := mapAt s.m_elementSequence key (0, 0)
    let frequency := element.2
    match listErase (s.bucket frequency) lookupItr with
    | none => none
    | some erased =>
      let ks1 := mapSet s.m_KeySequence frequency erased
      let ks2 :=
        mapSet ks1 (int32Succ frequency) ((s.nodes, key) :: mapAt ks1 (int32Succ frequency) [])
      some
        { m_KeySequence := ks2
          m_elementSequence := mapSet s.m_elementSequence key (element.1, int32Succ frequency)
          m_lookupTable := mapSet s.m_lookupTable key s.nodes
          m_cacheSize := s.m_cacheSize
          min_frequency :=
            if frequency = s.min_frequency ∧ (mapAt ks2 frequency []).length = 0
            then int32Succ s.min_frequency else s.min_frequency
          nodes := s.nodes + 1 }

/-- The eviction block of `LFUSmartCacheImpl::Push` (lines 98-106); `none` is undefined
behaviour (`back()` of an empty list). -/
def evict (s : LFUSmartCacheImpl) : Option LFUSmartCacheImpl :=
  if (s.m_lookupTable.length : Int) = s.m_cacheSize then
    match (s.bucket s.min_frequency).getLast? with
    | none => none
    | some cell =>
      let evict_key := cell.2
      some
        { s with
          m_KeySequence :=
            mapSet s.m_KeySequence s.min_frequency (s.bucket s.min_frequency).dropLast
          m_lookupTable := mapErase s.m_lookupTable evict_key
          m_elementSequence := mapErase s.m_elementSequence evict_key }
  else some s

/-- `LFUSmartCacheImpl::Push` (lines 89-120). -/
def Push (s : LFUSmartCacheImpl) (key value : Int) : Option LFUSmartCacheImpl :=
  match mapFind s.m_lookupTable key with
  | none =>
    match evict s with
    | none => none
    | some s1 =>
      some
        { m_KeySequence := mapSet s1.m_KeySequence 1 ((s1.nodes, key) :: s1.bucket 1)
          m_elementSequence := mapSet s1.m_elementSequence key (value, 1)
          m_lookupTable := mapSet s1.m_lookupTable key s1.nodes
          m_cacheSize := s1.m_cacheSize
          min_frequency := 1
          nodes := s1.nodes + 1 }
  | some _ =>
    match Update s key with
    | none => none
    | some s1 =>
      some
        { s1 with
          m_elementSequence :=
            mapSet s1.m_elementSequence key (value, (mapAt s1.m_elementSequence key (0, 0)).2) }

/-- `LFUSmartCacheImpl::Get` (lines 77-87); the returned pointer is modelled by the value
it points to, `nullptr` by `none`. -/
def Get (cfg : ComponentConfig) (s : LFUSmartCacheImpl) (key : Int) :
    Option (Option Int × LFUSmartCacheImpl × ComponentConfig) :=
  let probe := Contains cfg s key
  if probe.1 = false then some (none, s, probe.2)
  else
    match Update s key with
    | none => none
    | some s1 => some (some (mapAt s1.m_elementSequence key (0, 0)).1, s1, probe.2)

/-- `LFUSmartCacheImpl::Reconfigure` (lines 140-158); `min_frequency` is not assigned. -/
def Reconfigure (cfg : ComponentConfig) (s : LFUSmartCacheImpl) : LFUSmartCacheImpl :=
  { s with
    m_cacheSize := cfg.CacheSize
    m_elementSequence := []
    m_KeySequence := []
    m_lookupTable := [] }

/-- The constructor (lines 47-55); `garbage` is the indeterminate initial value of
`min_frequency`, which the constructor does not assign. -/
def construct (cfg : ComponentConfig) (garbage : Int) : LFUSmartCacheImpl :=
  Reconfigure cfg
    { m_KeySequence := [], m_elementSequence := [], m_lookupTable := [],
      m_cacheSize := 0, min_frequency := garbage, nodes := 0 }

end LFUSmartCacheImpl

/-! ## `SmartCacheImpl` -/

/-- The fields of `SmartCacheImpl<int32_t, int32_t>`; `m_elementSequence` holds values only.
`nodes` is the next unused node identity of `m_elementSequence`. -/
structure SmartCacheImpl where
  m_cacheSize : Int
  m_elementSequence : StdList Int
  m_lookupTable : List (Int × Nat)
  lfu : LFUSmartCacheImpl
  nodes : Nat
deriving DecidableEq, Repr

/-- How a call ends: it returns, it leaves through `throw std::exception()` with the
object in state `s`, or its behaviour is undefined by the C++ standard. -/
inductive Outcome (α : Type) where
  | ok (a : α)
  | thrown (s : SmartCacheImpl)
  | undefined
deriving DecidableEq, Repr

namespace SmartCacheImpl

/-- `SmartCacheImpl::Contains` (lines 203-220). -/
def Contains (cfg : ComponentConfig) (s : SmartCacheImpl) (key : Int) :
    Bool × ComponentConfig :=
  if cfg.EvictionPolicy = CacheEvictionPolicy.LeastFrequentlyUsed then
    LFUSmartCacheImpl.Contains cfg s.lfu key
  else
    let isInCache := (mapFind s.m_lookupTable key).isSome
    let msg : CacheRequestEventMessage :=
      { ConfigId := cfg.ConfigId, Key := key, IsInCache := isInCache }
    (isInCache, cfg.SendTelemetryMessage msg)

/-- `SmartCacheImpl::Get` (lines 222-248); the returned pointer is modelled by the value
it points to, `nullptr` by `none`. -/
def Get (cfg : ComponentConfig) (s : SmartCacheImpl) (key : Int) :
    Outcome (Option Int × SmartCacheImpl × ComponentConfig) :=
  if cfg.EvictionPolicy = CacheEvictionPolicy.LeastFrequentlyUsed then
    match LFUSmartCacheImpl.Get cfg s.lfu key with
    | none => Outcome.undefined
    | some (r, l, cfg1) => Outcome.ok (r, { s with lfu := l }, cfg1)
  else
    let probe := Contains cfg s key
    if probe.1 = false then Outcome.ok (none, s, probe.2)
    else
      match mapFind s.m_lookupTable key with
      | none => Outcome.undefined
      | some lookupItr =>
        match listDeref s.m_elementSequence lookupItr with
        | none => Outcome.undefined
        | some v =>
          match listErase ((s.nodes, v) :: s.m_elementSequence) lookupItr with
          | none => Outcome.undefined
          | some seq =>
            Outcome.ok
              (some v,
               { s with
                 m_elementSequence := seq
                 m_lookupTable := mapSet s.m_lookupTable key s.nodes
                 nodes := s.nodes + 1 },
               probe.2)

/-- `SmartCacheImpl::Push` (lines 250-307).  On eviction the value read from the list
(`back()` or `front()`) is the argument of `m_lookupTable.erase`. -/
def Push (cfg : ComponentConfig) (s : SmartCacheImpl) (key value : Int) :
    Outcome SmartCacheImpl :=
  if cfg.EvictionPolicy = CacheEvictionPolicy.LeastFrequentlyUsed then
    match LFUSmartCacheImpl.Push s.lfu key value with
    | none => Outcome.undefined
    | some l => Outcome.ok { s with lfu := l }
  else
    match mapFind s.m_lookupTable key with
    | none =>
      let insert (s1 : SmartCacheImpl) : SmartCacheImpl :=
        { s1 with
          m_elementSequence := (s1.nodes, value) :: s1.m_elementSequence
          m_lookupTable := mapEmplace s1.m_lookupTable key s1.nodes
          nodes := s1.nodes + 1 }
      if (s.m_elementSequence.length : Int) = s.m_cacheSize then
        if cfg.EvictionPolicy = CacheEvictionPolicy.LeastRecentlyUsed then
          match s.m_elementSequence.getLast? with
          | none => Outcome.undefined
          | some cell =>
            let evictedLookupItr := cell.2
            Outcome.ok (insert
              { s with
                m_elementSequence := s.m_elementSequence.dropLast
                m_lookupTable := mapErase s.m_lookupTable evictedLookupItr })
        else if cfg.EvictionPolicy = CacheEvictionPolicy.MostRecentlyUsed then
          match s.m_elementSequence with
          | [] => Outcome.undefined
          | cell :: rest =>
            let evictedLookupItr := cell.2
            Outcome.ok (insert
              { s with
                m_elementSequence := rest
                m_lookupTable := mapErase s.m_lookupTable evictedLookupItr })
        else Outcome.thrown s
      else Outcome.ok (insert s)
    | some lookupItr =>
      match listErase ((s.nodes, value) :: s.m_elementSequence) lookupItr with
      | none => Outcome.undefined
      | some seq =>
        Outcome.ok
          { s with
            m_elementSequence := seq
            m_lookupTable := mapSet s.m_lookupTable key s.nodes
            nodes := s.nodes + 1 }

/-- `SmartCacheImpl::Reconfigure` (lines 309-330). -/
def Reconfigure (cfg : ComponentConfig) (s : SmartCacheImpl) : SmartCacheImpl :=
  if cfg.EvictionPolicy = CacheEvictionPolicy.LeastFrequentlyUsed then
    { s with lfu := LFUSmartCacheImpl.Reconfigure cfg s.lfu }
  else
    { s with
      m_cacheSize := cfg.CacheSize
      m_elementSequence := []
      m_lookupTable := [] }

/-- The constructor (lines 187-196): the member `lfu` is constructed from the same
configuration, then `Reconfigure` runs. -/
def construct (cfg : ComponentConfig) (garbage : Int) : SmartCacheImpl :=
  Reconfigure cfg
    { m_cacheSize := 0, m_elementSequence := [], m_lookupTable := [],
      lfu := LFUSmartCacheImpl.construct cfg garbage, nodes := 0 }

end SmartCacheImpl

/-! ## Call sequences -/

/-- A call of the public interface other than `Reconfigure`. -/
inductive Call where
  | contains (key : Int)
  | get (key : Int)
  | push (key value : Int)
deriving DecidableEq, Repr

/-- What a call hands back to its caller. -/
inductive Reply where
  | isInCache (b : Bool)
  | element (v : Option Int)
  | done
deriving DecidableEq, Repr

/-- One call on the cache `sys.1` under the configuration object `sys.2`. -/
def step (sys : SmartCacheImpl × ComponentConfig) :
    Call → Outcome (Reply × SmartCacheImpl × ComponentConfig)
  | Call.contains key =>
    let probe := SmartCacheImpl.Contains sys.2 sys.1 key
    Outcome.ok (Reply.isInCache probe.1, sys.1, probe.2)
  | Call.get key =>
    match SmartCacheImpl.Get sys.2 sys.1 key with
    | Outcome.ok (r, s, cfg) => Outcome.ok (Reply.element r, s, cfg)
    | Outcome.thrown s => Outcome.thrown s
    | Outcome.undefined => Outcome.undefined
  | Call.push key value =>
    match SmartCacheImpl.Push sys.2 sys.1 key value with
    | Outcome.ok s => Outcome.ok (Reply.done, s, sys.2)
    | Outcome.thrown s => Outcome.thrown s
    | Outcome.undefined => Outcome.undefined

/-- A sequence of calls, stopping at the first call that does not return; the result is
the cache and the configuration object after the last call. -/
def run (sys : SmartCacheImpl × ComponentConfig) :
    List Call → Outcome (SmartCacheImpl × ComponentConfig)
  | [] => Outcome.ok sys
  | c :: cs =>
    match step sys c with
    | Outcome.ok r => run r.2 cs
    | Outcome.thrown s => Outcome.thrown s
    | Outcome.undefined => Outcome.undefined

/-- Whether a call is `get key` or `push key _`: the calls that move `key` when it is
resident (or insert it). -/
def Call.touches (key : Int) : Call → Bool
  | Call.contains _ => false
  | Call.get k => decide (k = key)
  | Call.push k _ => decide (k = key)

/-- The position, counted from 1, of the last call of `hist` that touches `key`; 0 when
no call does.  For a resident key this is the call at which it arrived at its current
frequency: a `push` that inserted it, or the last `get` hit or `push` update, each of
which moves it to the next frequency. -/
def lastTouch (key : Int) : List Call → Nat
  | [] => 0
  | c :: cs =>
    if lastTouch key cs ≠ 0 then lastTouch key cs + 1
    else if c.touches key then 1 else 0

/-- The keys `Contains` answers true for: the keys of the lookup table of the store the
policy selects. -/
def SmartCacheImpl.resident (cfg : ComponentConfig) (s : SmartCacheImpl) (key : Int) : Bool :=
  (SmartCacheImpl.Contains cfg s key).1

/-- The frequency recorded for a key in `m_elementSequence`, when it has an entry. -/
def LFUSmartCacheImpl.frequency (s : LFUSmartCacheImpl) (key : Int) : Option Int :=
  (mapFind s.m_elementSequence key).map Prod.snd

/-- The consistency of the three LFU indices after the calls `hist`: the two key maps have
the same keys, each once; the iterator of a key designates the cell of that key in the list
of its frequency; every cell of every list belongs to a resident key; each list is ordered
by arrival, the latest at the front. -/
structure LFUCore (hist : List Call) (s : LFUSmartCacheImpl) : Prop where
  nodupL : (s.m_lookupTable.map Prod.fst).Nodup
  nodupE : (s.m_elementSequence.map Prod.fst).Nodup
  keysEq : ∀ k, mapFind s.m_lookupTable k = none ↔ mapFind s.m_elementSequence k = none
  cellOf : ∀ k it, mapFind s.m_lookupTable k = some it →
    ∃ v f, mapFind s.m_elementSequence k = some (v, f) ∧ (it, k) ∈ s.bucket f
  ofCell : ∀ f it k, (it, k) ∈ s.bucket f →
    mapFind s.m_lookupTable k = some it ∧ (∃ v, mapFind s.m_elementSequence k = some (v, f))
  inj : ∀ k k2 it, mapFind s.m_lookupTable k = some it →
    mapFind s.m_lookupTable k2 = some it → k = k2
  fresh : ∀ k it, mapFind s.m_lookupTable k = some it → it < s.nodes
  sorted : ∀ f, (s.bucket f).Pairwise (fun a b => lastTouch b.2 hist < lastTouch a.2 hist)
  sizeEq : s.m_elementSequence.length = s.m_lookupTable.length

/-- What holds of the frequencies while no counter has overflowed: every frequency in use
lies between 1 and the number of calls made, and no list below `min_frequency` holds a
key. -/
structure LFUExact (hist : List Call) (s : LFUSmartCacheImpl) : Prop where
  range : ∀ f it k, (it, k) ∈ s.bucket f → 1 ≤ f ∧ f ≤ (hist.length : Int)
  lower : s.m_lookupTable ≠ [] → ∀ f, f < s.min_frequency → s.bucket f = []

/-- The invariant of `LFUSmartCacheImpl` between calls: the indices are consistent, at
most `m_cacheSize` keys are held, the list at `min_frequency` holds a key whenever a key
is held, and after at most `INT_MAX` calls the frequencies are exact. -/
structure LFUInv (hist : List Call) (s : LFUSmartCacheImpl) : Prop where
  core : LFUCore hist s
  sizeLe : (s.m_lookupTable.length : Int) ≤ s.m_cacheSize
  minOk : s.m_lookupTable ≠ [] → s.bucket s.min_frequency ≠ []
  exact : (hist.length : Int) ≤ 2147483647 → LFUExact hist s

/-- The state of the whole cache under policy LFU with capacity `C` after the calls `hist`. -/
structure LFUSys (C : Int) (hist : List Call) (sys : SmartCacheImpl × ComponentConfig) :
    Prop where
  policy : sys.2.EvictionPolicy = CacheEvictionPolicy.LeastFrequentlyUsed
  size : sys.2.CacheSize = C
  cap : sys.1.lfu.m_cacheSize = C
  inv : LFUInv hist sys.1.lfu

/-! ## Concrete scenarios -/

/-- A configuration object with the given policy and capacity, no telemetry sent yet. -/
def demoConfig (policy : CacheEvictionPolicy) (capacity : Int) : ComponentConfig :=
  { ConfigId := 0, CacheSize := capacity, EvictionPolicy := policy, telemetry := [] }

/-- A cache freshly constructed under `demoConfig policy capacity`. -/
def demoCache (policy : CacheEvictionPolicy) (capacity : Int) : SmartCacheImpl :=
  SmartCacheImpl.construct (demoConfig policy capacity) 0

/-- A freshly constructed cache together with its configuration object. -/
def demoStart (policy : CacheEvictionPolicy) (capacity : Int) :
    SmartCacheImpl × ComponentConfig :=
  (demoCache policy capacity, demoConfig policy capacity)

/-- The cache and the configuration object after `calls`, when every call returns
(`sys` itself otherwise). -/
def stateAfter (sys : SmartCacheImpl × ComponentConfig) (calls : List Call) :
    SmartCacheImpl × ComponentConfig :=
  match run sys calls with
  | Outcome.ok r => r
  | _ => sys

/-- The keys among `candidates` for which `Contains` answers true. -/
def residentKeys (sys : SmartCacheImpl × ComponentConfig) (candidates : List Int) : List Int :=
  candidates.filter (fun x => sys.1.resident sys.2 x)

/-- Scenario 1 and 2 of the specification with values different from the keys. -/
def recencyScenario : List Call :=
  [Call.push 1 10, Call.push 2 20, Call.push 3 30, Call.get 1, Call.push 4 40]

/-- Scenario 3 of the specification up to the evicting push. -/
def lfuScenario : List Call :=
  [Call.push 1 10, Call.push 2 20, Call.push 3 30, Call.get 1, Call.get 1, Call.get 2]

/-- Scenario 4 of the specification up to the evicting push. -/
def lfuTieScenario : List Call :=
  [Call.push 1 10, Call.push 2 20, Call.push 3 30]

/-- The `Reconfigure` call on the cache `sys.1` under the configuration object `sys.2`. -/
def reconfigure (sys : SmartCacheImpl × ComponentConfig) : SmartCacheImpl × ComponentConfig :=
  (SmartCacheImpl.Reconfigure sys.2 sys.1, sys.2)

/-- Scenario 6 of the specification. -/
def telemetryScenario : List Call :=
  [Call.push 1 10, Call.contains 1, Call.contains 2, Call.get 1, Call.get 2]

/-- The node identities the recency store uses are below its counter `nodes`: the
iterators its index holds and the nodes of its list were all issued earlier. -/
structure RecFresh (s : SmartCacheImpl) : Prop where
  index : ∀ k it, mapFind s.m_lookupTable k = some it → it < s.nodes
  order : ∀ c, c ∈ s.m_elementSequence → c.1 < s.nodes

/-- The consistency of the recency store when every stored value equals its key: the
index has each key once, the nodes of the list are distinct, the iterator of a key
designates the cell holding that key, every cell of the list is designated by the index
entry of the key it holds, index and list have the same size, at most `m_cacheSize`. -/
structure RecInv (s : SmartCacheImpl) : Prop where
  fresh : RecFresh s
  nodupL : (s.m_lookupTable.map Prod.fst).Nodup
  nodupI : (s.m_elementSequence.map Prod.fst).Nodup
  cellOf : ∀ k it, mapFind s.m_lookupTable k = some it → (it, k) ∈ s.m_elementSequence
  ofCell : ∀ it v, (it, v) ∈ s.m_elementSequence → mapFind s.m_lookupTable v = some it
  sizeEq : s.m_lookupTable.length = s.m_elementSequence.length
  sizeLe : (s.m_elementSequence.length : Int) ≤ s.m_cacheSize

/-- The values the list of the recency store holds, front first. -/
def SmartCacheImpl.values (s : SmartCacheImpl) : List Int :=
  s.m_elementSequence.map Prod.snd

/-- A call whose pushed value, if any, equals its key (`Push(i, i)` of the workloads). -/
def Call.keyed : Call → Prop
  | Call.push k v => v = k
  | _ => True

/-- Following the spec's words for the LFU frequency: the number of `get key` hits and
`push key _` updates since the most recent insertion of `key`, along the calls run from
`sys`; `none` while `key` is not resident.  `acc` is the count before the calls.  A call
that touches `key` is a hit or an update when `key` is resident before it, an insertion
when `key` is resident only after it; a key found not resident after a call has been
evicted (or was never inserted). -/
def hitsSinceInsertion (key : Int) :
    SmartCacheImpl × ComponentConfig → List Call → Option Nat → Option Nat
  | _, [], acc => acc
  | sys, c :: cs, acc =>
    match step sys c with
    | Outcome.ok r =>
      hitsSinceInsertion key r.2 cs
        (if c.touches key then
          (if sys.1.resident sys.2 key then acc.map (fun n => n + 1)
           else if r.2.1.resident r.2.2 key then some 0
           else none)
         else if r.2.1.resident r.2.2 key then acc
         else none)
    | _ => acc

/-- The sum of the sizes of the lists of a frequency map. -/
def listsTotal (m : List (Int × StdList Int)) : Nat :=
  (m.map (fun e => e.2.length)).sum

/-- The frequency map `m_KeySequence` has each frequency once, and its lists hold as many
cells together as `m_elementSequence` has entries. -/
structure LFUTotal (s : LFUSmartCacheImpl) : Prop where
  nodupK : (s.m_KeySequence.map Prod.fst).Nodup
  total : listsTotal s.m_KeySequence = s.m_elementSequence.length

/-- The state of the whole cache under policy LRU or MRU with capacity `C`, when every
stored value equals its key. -/
structure RecSys (C : Int) (sys : SmartCacheImpl × ComponentConfig) : Prop where
  policy : sys.2.EvictionPolicy = CacheEvictionPolicy.LeastRecentlyUsed ∨
    sys.2.EvictionPolicy = CacheEvictionPolicy.MostRecentlyUsed
  cap : sys.1.m_cacheSize = C
  inv : RecInv sys.1

/-! ## `Workloads.cpp` -/

/-- The body of the loops of `Workloads.cpp` for the key `i` (lines 25-29): a `Get`, and a
`Push(i, i)` when it returned `nullptr`. -/
def workloadBody (sys : SmartCacheImpl × ComponentConfig) (i : Int) :
    Outcome (SmartCacheImpl × ComponentConfig) :=
  match SmartCacheImpl.Get sys.2 sys.1 i with
  | Outcome.ok (element, s, cfg) =>
    match element with
    | none =>
      match SmartCacheImpl.Push cfg s i i with
      | Outcome.ok s1 => Outcome.ok (s1, cfg)
      | Outcome.thrown s1 => Outcome.thrown s1
      | Outcome.undefined => Outcome.undefined
    | some _ => Outcome.ok (s, cfg)
  | Outcome.thrown s => Outcome.thrown s
  | Outcome.undefined => Outcome.undefined

/-- The loop body run for the keys of `keys` in turn, stopping at the first call that does
not return. -/
def workloadLoop (sys : SmartCacheImpl × ComponentConfig) :
    List Int → Outcome (SmartCacheImpl × ComponentConfig)
  | [] => Outcome.ok sys
  | i :: rest =>
    match workloadBody sys i with
    | Outcome.ok sys1 => workloadLoop sys1 rest
    | Outcome.thrown s => Outcome.thrown s
    | Outcome.undefined => Outcome.undefined

/-- The values `i` takes in `for (int32_t i = 1; i < sequenceNumber; i++)`. -/
def cyclicalKeys (sequenceNumber : Nat) : List Int :=
  (List.range (sequenceNumber - 1)).map (fun (j : Nat) => (j : Int) + 1)

/-- `CyclicalWorkload` (`Workloads.cpp` lines 21-33); the result is the returned number
and the cache with its configuration object.  For a `sequenceNumber` above `INT32_MAX`
the counter `i` overflows before the loop condition fails: undefined behaviour. -/
def CyclicalWorkload (sequenceNumber : Nat) (sys : SmartCacheImpl × ComponentConfig) :
    Outcome (Nat × SmartCacheImpl × ComponentConfig) :=
  if 2147483647 < sequenceNumber then Outcome.undefined
  else
    match workloadLoop sys (cyclicalKeys sequenceNumber) with
    | Outcome.ok sys1 => Outcome.ok (1, sys1)
    | Outcome.thrown s => Outcome.thrown s
    | Outcome.undefined => Outcome.undefined

/-- Consecutive calls of `CyclicalWorkload` on the same cache, `runs` of them; the result
is the list of the numbers returned and the final cache and configuration object. -/
def consecutiveRuns (sequenceNumber : Nat) :
    Nat → SmartCacheImpl × ComponentConfig → Outcome (List Nat × SmartCacheImpl × ComponentConfig)
  | 0, sys => Outcome.ok ([], sys)
  | runs + 1, sys =>
    match CyclicalWorkload sequenceNumber sys with
    | Outcome.ok (ret, sys1) =>
      match consecutiveRuns sequenceNumber runs sys1 with
      | Outcome.ok (rets, sys2) => Outcome.ok (ret :: rets, sys2)
      | Outcome.thrown s => Outcome.thrown s
      | Outcome.undefined => Outcome.undefined
    | Outcome.thrown s => Outcome.thrown s
    | Outcome.undefined => Outcome.undefined

/-- The telemetry message of a probe for `key` that missed. -/
def missMessage (cfg : ComponentConfig) (key : Int) : CacheRequestEventMessage :=
  { ConfigId := cfg.ConfigId, Key := key, IsInCache := false }

/-- The key of iteration `m` (counted from 0 across consecutive runs) of a cyclical
workload whose runs have `period` iterations each. -/
def cycKey (period m : Nat) : Int :=
  ((m % period : Nat) : Int) + 1

/-- The returned numbers, the cache and the configuration object after `runs` consecutive
runs of `CyclicalWorkload`, when every run returns (nothing and `sys` itself otherwise). -/
def afterRuns (sequenceNumber runs : Nat) (sys : SmartCacheImpl × ComponentConfig) :
    List Nat × SmartCacheImpl × ComponentConfig :=
  match consecutiveRuns sequenceNumber runs sys with
  | Outcome.ok r => r
  | _ => ([], sys)

/-! ## Traces of the Frequency Store -/

/-- The `evict_key` of `LFUSmartCacheImpl::Push` (lines 98-106) for the call `c` on `s`:
the key at the back of `m_KeySequence[min_frequency]` when `c` pushes an absent key into a
store that holds `m_cacheSize` keys; `none` for a call that does not enter that block. -/
def LFUSmartCacheImpl.evictedBy (s : LFUSmartCacheImpl) : Call → Option Int
  | Call.push key _ =>
    match mapFind s.m_lookupTable key with
    | none =>
      if (s.m_lookupTable.length : Int) = s.m_cacheSize then
        ((s.bucket s.min_frequency).getLast?).map Prod.snd
      else none
    | some _ => none
  | _ => none

/-- One call made directly on the Frequency Store `st.1` under the configuration object
`st.2`; `none` is undefined behaviour. -/
def lfuStep (st : LFUSmartCacheImpl × ComponentConfig) :
    Call → Option (Reply × LFUSmartCacheImpl × ComponentConfig)
  | Call.contains key =>
    let probe := LFUSmartCacheImpl.Contains st.2 st.1 key
    some (Reply.isInCache probe.1, st.1, probe.2)
  | Call.get key =>
    match LFUSmartCacheImpl.Get st.2 st.1 key with
    | none => none
    | some (r, s, cfg) => some (Reply.element r, s, cfg)
  | Call.push key value =>
    match LFUSmartCacheImpl.Push st.1 key value with
    | none => none
    | some s => some (Reply.done, s, st.2)

/-- What one call on the Frequency Store leaves behind: its return value, the key it
evicted, and the store and the configuration object after it. -/
structure LFUEvent where
  reply : Reply
  evicted : Option Int
  store : LFUSmartCacheImpl
  config : ComponentConfig
deriving DecidableEq, Repr

/-- The events of a sequence of calls on the Frequency Store, one per call; `none` when
some call is undefined behaviour. -/
def lfuTrace (st : LFUSmartCacheImpl × ComponentConfig) : List Call → Option (List LFUEvent)
  | [] => some []
  | c :: cs =>
    match lfuStep st c with
    | none => none
    | some r =>
      match lfuTrace r.2 cs with
      | none => none
      | some t =>
        some ({ reply := r.1, evicted := st.1.evictedBy c, store := r.2.1, config := r.2.2 } :: t)

/-- Two stores that agree, or that hold nothing, have room for a key and agree in every
field but `min_frequency`. -/
def StaleMin (a b : LFUSmartCacheImpl) : Prop :=
  a = b ∨ (b.m_lookupTable = [] ∧ 1 ≤ b.m_cacheSize ∧ ∃ m, a = { b with min_frequency := m })

/-- What two events have in common when the stale `min_frequency` is never observed: the
return value, the evicted key, the resident keys, their values and frequencies, the
frequency lists and the configuration object with its telemetry. -/
def LFUEvent.agrees (x y : LFUEvent) : Prop :=
  x.reply = y.reply ∧ x.evicted = y.evicted ∧
  x.store.m_lookupTable = y.store.m_lookupTable ∧
  x.store.m_elementSequence = y.store.m_elementSequence ∧
  x.store.m_KeySequence = y.store.m_KeySequence ∧
  x.config = y.config

/-- The events of `calls` on a store emptied by `Reconfigure` whose `min_frequency` was
`m` before; `[]` when some call is undefined behaviour. -/
def eventsAfterReconfigure (cfg : ComponentConfig) (s : LFUSmartCacheImpl) (m : Int)
    (calls : List Call) : List LFUEvent :=
  match lfuTrace (LFUSmartCacheImpl.Reconfigure cfg { s with min_frequency := m }, cfg) calls with
  | some t => t
  | none => []

/-- A probe and a miss on the empty store, two insertions, a hit on key 1 and a third
insertion, which evicts at capacity 2. -/
def staleScenario : List Call :=
  [Call.contains 1, Call.get 1, Call.push 1 10, Call.push 2 20, Call.get 1, Call.push 3 30]

/-! ## A frequency at `INT_MAX` -/

/-- A frequency store of capacity 2 that holds key 1 with value 10 at frequency `f`, alone
in its list under the iterator `it`, and key 2 with value 20 at frequency 1, with
`min_frequency` 1. -/
structure HotState (f : Int) (it : Nat) (s : LFUSmartCacheImpl) : Prop where
  lookup : s.m_lookupTable = [(1, it), (2, 1)]
  entries : s.m_elementSequence = [(1, (10, f)), (2, (20, 1))]
  hotList : s.bucket f = [(it, 1)]
  coldList : s.bucket 1 = [(1, 2)]
  others : ∀ g, g ≠ 1 → g ≠ f → s.bucket g = []
  min : s.min_frequency = 1
  cap : s.m_cacheSize = 2
  hot : f ≠ 1

/-- Two insertions at capacity 2 followed by `INT_MAX` hits on key 1. -/
def overflowScenario : List Call :=
  Call.push 1 10 :: Call.push 2 20 :: List.replicate 2147483647 (Call.get 1)

/-! ## The Recency Store of the specification -/

/-- Following the spec's words (section 4.2): one call on the Recency Store, held as the
ordered sequence of its entries `(key, value)`, front first.  `get` on a hit moves the
entry to the front; `push` of a present key promotes it and overwrites its value; `push`
of an absent key inserts at the front, after dropping the back entry (LRU, `lru` true) or
the front entry (MRU) when `capacity` entries are held. -/
def specRecencyStep (lru : Bool) (capacity : Nat) (order : List (Int × Int)) :
    Call → List (Int × Int)
  | Call.contains _ => order
  | Call.get k =>
    match order.find? (fun e => e.1 == k) with
    | some e => e :: order.filter (fun e => e.1 != k)
    | none => order
  | Call.push k v =>
    if order.any (fun e => e.1 == k) then (k, v) :: order.filter (fun e => e.1 != k)
    else if order.length < capacity then (k, v) :: order
    else (k, v) :: (if lru then order.dropLast else order.tail)

/-- Following the spec's words: the entries of the Recency Store after a sequence of
calls. -/
def specRecencyRun (lru : Bool) (capacity : Nat) :
    List (Int × Int) → List Call → List (Int × Int)
  | order, [] => order
  | order, c :: cs => specRecencyRun lru capacity (specRecencyStep lru capacity order c) cs

/-- Following the spec's words: a key resides in the store when the store holds an entry
of that key. -/
def specResident (order : List (Int × Int)) (k : Int) : Bool :=
  order.any (fun e => e.1 == k)

/-- Three insertions whose first value, 2, is the key of the second. -/
def crossScenario : List Call :=
  [Call.push 1 2, Call.push 2 5, Call.push 3 9]

/-! ## Container lemmas -/

theorem mapFind_cons {ν : Type} (e : Int × ν) (m : List (Int × ν)) (k : Int) :
    mapFind (e :: m) k = if e.1 = k then some e.2 else mapFind m k := rfl

theorem mapFind_erase {ν : Type} (m : List (Int × ν)) (k x : Int) :
    mapFind (mapErase m k) x = if x = k then none else mapFind m x := by
  induction m with
  | nil => simp [mapErase, mapFind]
  | cons e m ih =>
    unfold mapErase at ih ⊢
    by_cases h : e.1 = k
    · rw [List.filter_cons_of_neg (by simpa using h), ih, mapFind_cons]
      by_cases hx : x = k
      · simp [hx]
      · have : e.1 ≠ x := fun h2 => hx (h2 ▸ h)
        simp [hx, this]
    · rw [List.filter_cons_of_pos (by simpa using h), mapFind_cons, mapFind_cons, ih]
      by_cases hx : x = k
      · have : e.1 ≠ x := fun h2 => h (h2.trans hx)
        simp [hx, this, h]
      · simp [hx]

theorem mapFind_set {ν : Type} (m : List (Int × ν)) (k : Int) (v : ν) (x : Int) :
    mapFind (mapSet m k v) x = if x = k then some v else mapFind m x := by
  unfold mapSet
  rw [mapFind_cons, mapFind_erase]
  by_cases hx : x = k
  · simp [hx]
  · have : k ≠ x := fun h => hx h.symm
    simp [hx, this]

theorem mapFind_eq_none {ν : Type} (m : List (Int × ν)) (k : Int) :
    mapFind m k = none ↔ k ∉ m.map Prod.fst := by
  induction m with
  | nil => simp [mapFind]
  | cons e m ih =>
    rw [mapFind_cons]
    by_cases h : e.1 = k
    · simp [h]
    · have h2 : k ≠ e.1 := fun h3 => h h3.symm
      simp only [h, if_false, ih, List.map_cons, List.mem_cons, not_or]
      exact ⟨fun h3 => ⟨h2, h3⟩, fun h3 => h3.2⟩

theorem mapFind_mem {ν : Type} (m : List (Int × ν)) (k : Int) (v : ν)
    (h : mapFind m k = some v) : (k, v) ∈ m := by
  induction m with
  | nil => simp [mapFind] at h
  | cons e m ih =>
    rw [mapFind_cons] at h
    by_cases h1 : e.1 = k
    · simp only [h1, if_true, Option.some.injEq] at h
      have : e = (k, v) := Prod.ext h1 h
      simp [this]
    · simp only [h1, if_false] at h
      exact List.mem_cons_of_mem _ (ih h)

theorem mapErase_of_none {ν : Type} (m : List (Int × ν)) (k : Int)
    (h : mapFind m k = none) : mapErase m k = m := by
  rw [mapFind_eq_none] at h
  unfold mapErase
  rw [List.filter_eq_self]
  intro e he
  have : e.1 ≠ k := fun h2 => h (h2 ▸ List.mem_map_of_mem Prod.fst he)
  simpa using this

theorem nodup_mapErase {ν : Type} (m : List (Int × ν)) (k : Int)
    (h : (m.map Prod.fst).Nodup) : ((mapErase m k).map Prod.fst).Nodup :=
  h.sublist ((List.filter_sublist m).map Prod.fst)

theorem nodup_mapSet {ν : Type} (m : List (Int × ν)) (k : Int) (v : ν)
    (h : (m.map Prod.fst).Nodup) : ((mapSet m k v).map Prod.fst).Nodup := by
  unfold mapSet
  rw [List.map_cons, List.nodup_cons]
  refine ⟨?_, nodup_mapErase m k h⟩
  rw [← mapFind_eq_none, mapFind_erase]
  simp

theorem length_mapErase_of_some {ν : Type} (m : List (Int × ν)) (k : Int) (v : ν)
    (hn : (m.map Prod.fst).Nodup) (h : mapFind m k = some v) :
    (mapErase m k).length + 1 = m.length := by
  induction m with
  | nil => simp [mapFind] at h
  | cons e m ih =>
    rw [List.map_cons, List.nodup_cons] at hn
    rw [mapFind_cons] at h
    unfold mapErase at ih ⊢
    by_cases h1 : e.1 = k
    · rw [List.filter_cons_of_neg (by simpa using h1)]
      have h2 : mapFind m k = none := by
        rw [mapFind_eq_none]; rw [← h1]; exact hn.1
      have h3 := mapErase_of_none m k h2
      unfold mapErase at h3
      rw [h3]; simp
    · rw [List.filter_cons_of_pos (by simpa using h1)]
      simp only [h1, if_false] at h
      have := ih hn.2 h
      simp only [List.length_cons]
      omega

theorem length_mapSet_of_none {ν : Type} (m : List (Int × ν)) (k : Int) (v : ν)
    (h : mapFind m k = none) : (mapSet m k v).length = m.length + 1 := by
  unfold mapSet
  rw [mapErase_of_none m k h]; simp

theorem length_mapSet_of_some {ν : Type} (m : List (Int × ν)) (k : Int) (v w : ν)
    (hn : (m.map Prod.fst).Nodup) (h : mapFind m k = some w) :
    (mapSet m k v).length = m.length := by
  unfold mapSet
  rw [List.length_cons, length_mapErase_of_some m k w hn h]

theorem mapAt_set {ν : Type} (m : List (Int × ν)) (k : Int) (v : ν) (x : Int) (d : ν) :
    mapAt (mapSet m k v) x d = if x = k then v else mapAt m x d := by
  unfold mapAt
  rw [mapFind_set]
  by_cases hx : x = k <;> simp [hx]

theorem mapAt_of_some {ν : Type} (m : List (Int × ν)) (k : Int) (v d : ν)
    (h : mapFind m k = some v) : mapAt m k d = v := by
  simp [mapAt, h]

theorem listErase_of_mem {α : Type} (l : StdList α) (it : Nat) (a : α) (h : (it, a) ∈ l) :
    listErase l it = some (l.filter (fun c => decide (c.1 ≠ it))) := by
  unfold listErase
  rw [if_pos]
  exact List.mem_map_of_mem Prod.fst h

theorem listDeref_eq_none {α : Type} (l : StdList α) (it : Nat) :
    listDeref l it = none ↔ it ∉ l.map Prod.fst := by
  induction l with
  | nil => simp [listDeref]
  | cons c l ih =>
    unfold listDeref
    by_cases h : c.1 = it
    · simp [h]
    · have h2 : it ≠ c.1 := fun h3 => h h3.symm
      simp only [h, if_false, ih, List.map_cons, List.mem_cons, not_or]
      exact ⟨fun h3 => ⟨h2, h3⟩, fun h3 => h3.2⟩

/-! ## Touch history -/

theorem lastTouch_le (key : Int) (hist : List Call) : lastTouch key hist ≤ hist.length := by
  induction hist with
  | nil => simp [lastTouch]
  | cons c cs ih =>
    unfold lastTouch
    split_ifs
    · simp; omega
    · simp
    · simp

theorem lastTouch_append_single (key : Int) (hist : List Call) (c : Call) :
    lastTouch key (hist ++ [c]) = if c.touches key then hist.length + 1 else lastTouch key hist := by
  induction hist with
  | nil => simp [lastTouch]
  | cons d ds ih =>
    rw [List.cons_append]
    unfold lastTouch
    rw [ih]
    by_cases hc : c.touches key = true
    · simp [hc]
    · simp only [hc]
      simp

/-! ## The LFU store keeps its invariant -/

theorem touches_false_of_ne (c : Call) (k x : Int) (hc : ∀ y, c.touches y = true → y = k)
    (hx : x ≠ k) : c.touches x = false := by
  cases h : c.touches x with
  | false => rfl
  | true => exact absurd (hc x h) hx

theorem sorted_extend (hist : List Call) (c : Call) (l : StdList Int)
    (hl : ∀ a ∈ l, c.touches a.2 = false)
    (h : l.Pairwise (fun a b => lastTouch b.2 hist < lastTouch a.2 hist)) :
    l.Pairwise (fun a b => lastTouch b.2 (hist ++ [c]) < lastTouch a.2 (hist ++ [c])) := by
  refine List.Pairwise.imp_of_mem ?_ h
  intro a b ha hb hab
  rw [lastTouch_append_single, lastTouch_append_single, hl a ha, hl b hb]
  simpa using hab

theorem bucket_nil_state (s : LFUSmartCacheImpl) (h : s.m_KeySequence = []) (f : Int) :
    s.bucket f = [] := by
  simp [LFUSmartCacheImpl.bucket, mapAt, mapFind, h]

theorem LFUInv_Reconfigure (cfg : ComponentConfig) (s : LFUSmartCacheImpl)
    (h : 0 ≤ cfg.CacheSize) : LFUInv [] (LFUSmartCacheImpl.Reconfigure cfg s) := by
  have hb : ∀ f, (LFUSmartCacheImpl.Reconfigure cfg s).bucket f = [] :=
    fun f => bucket_nil_state _ rfl f
  refine ⟨⟨?_, ?_, ?_, ?_, ?_, ?_, ?_, ?_, ?_⟩, ?_, ?_, ?_⟩
  · simp [LFUSmartCacheImpl.Reconfigure]
  · simp [LFUSmartCacheImpl.Reconfigure]
  · intro k; simp [LFUSmartCacheImpl.Reconfigure, mapFind]
  · intro k it hk; simp [LFUSmartCacheImpl.Reconfigure, mapFind] at hk
  · intro f it k hm; rw [hb f] at hm; simp at hm
  · intro k k2 it hk; simp [LFUSmartCacheImpl.Reconfigure, mapFind] at hk
  · intro k it hk; simp [LFUSmartCacheImpl.Reconfigure, mapFind] at hk
  · intro f; rw [hb f]; exact List.Pairwise.nil
  · simp [LFUSmartCacheImpl.Reconfigure]
  · simpa [LFUSmartCacheImpl.Reconfigure] using h
  · intro hne; simp [LFUSmartCacheImpl.Reconfigure] at hne
  · intro _
    refine ⟨?_, ?_⟩
    · intro f it k hm; rw [hb f] at hm; simp at hm
    · intro hne; simp [LFUSmartCacheImpl.Reconfigure] at hne

theorem int32Succ_ne (x : Int) : int32Succ x ≠ x := by
  unfold int32Succ
  split <;> omega

theorem int32Succ_of_lt (x : Int) (h : x < 2147483647) : int32Succ x = x + 1 := by
  unfold int32Succ
  rw [if_neg (by omega)]

theorem lfuExact_extend {hist : List Call} {s : LFUSmartCacheImpl} (h : LFUExact hist s)
    (c : Call) : LFUExact (hist ++ [c]) s := by
  refine ⟨?_, h.lower⟩
  intro f it k hm
  have := h.range f it k hm
  rw [List.length_append]
  push_cast
  simp only [List.length_singleton, Nat.cast_one]
  omega

theorem lfuCore_extend {hist : List Call} {s : LFUSmartCacheImpl} (h : LFUCore hist s)
    (c : Call) (hc : ∀ x, c.touches x = true → mapFind s.m_lookupTable x = none) :
    LFUCore (hist ++ [c]) s := by
  refine ⟨h.nodupL, h.nodupE, h.keysEq, h.cellOf, h.ofCell, h.inj, h.fresh, ?_, h.sizeEq⟩
  intro f
  refine sorted_extend hist c _ ?_ (h.sorted f)
  intro a ha
  cases ht : c.touches a.2 with
  | false => rfl
  | true =>
    have h1 := (h.ofCell f a.1 a.2 ha).1
    rw [hc _ ht] at h1
    cases h1

theorem lfuInv_extend {hist : List Call} {s : LFUSmartCacheImpl} (h : LFUInv hist s)
    (c : Call) (hc : ∀ x, c.touches x = true → mapFind s.m_lookupTable x = none) :
    LFUInv (hist ++ [c]) s :=
  ⟨lfuCore_extend h.core c hc, h.sizeLe, h.minOk, fun hlen =>
    lfuExact_extend (h.exact (by rw [List.length_append] at hlen; push_cast at hlen; omega)) c⟩

theorem lfu_Update_spec (s : LFUSmartCacheImpl) (k : Int) (it : Nat) (v f : Int)
    (hk : mapFind s.m_lookupTable k = some it)
    (he : mapFind s.m_elementSequence k = some (v, f))
    (hm : (it, k) ∈ s.bucket f) :
    ∃ s1, LFUSmartCacheImpl.Update s k = some s1 ∧
      (∀ g, s1.bucket g =
        if g = int32Succ f then (s.nodes, k) :: s.bucket (int32Succ f)
        else if g = f then (s.bucket f).filter (fun c => decide (c.1 ≠ it))
        else s.bucket g) ∧
      s1.m_elementSequence = mapSet s.m_elementSequence k (v, int32Succ f) ∧
      s1.m_lookupTable = mapSet s.m_lookupTable k s.nodes ∧
      s1.m_cacheSize = s.m_cacheSize ∧
      s1.min_frequency =
        (if f = s.min_frequency ∧ (s.bucket f).filter (fun c => decide (c.1 ≠ it)) = []
         then int32Succ s.min_frequency else s.min_frequency) ∧
      s1.nodes = s.nodes + 1 := by
  have hne : int32Succ f ≠ f := int32Succ_ne f
  have hne2 : f ≠ int32Succ f := fun h => hne h.symm
  unfold LFUSmartCacheImpl.Update
  simp only [hk, mapAt_of_some _ _ _ _ he, listErase_of_mem _ _ _ hm]
  refine ⟨_, rfl, ?_, rfl, rfl, rfl, ?_, rfl⟩
  · intro g
    simp only [LFUSmartCacheImpl.bucket, mapAt_set]
    by_cases h1 : g = int32Succ f
    · simp [h1, hne]
    · simp [h1]
  · simp only [mapAt_set, hne2, if_false, if_true, List.length_eq_zero]

theorem lfuInv_update {hist : List Call} {s : LFUSmartCacheImpl} (h : LFUInv hist s)
    (c : Call) (k : Int) (it : Nat) (hk : mapFind s.m_lookupTable k = some it)
    (hc : ∀ x, c.touches x = true ↔ x = k) :
    ∃ s1 v f, mapFind s.m_elementSequence k = some (v, f) ∧
      LFUSmartCacheImpl.Update s k = some s1 ∧ LFUInv (hist ++ [c]) s1 ∧
      s1.m_elementSequence = mapSet s.m_elementSequence k (v, int32Succ f) ∧
      s1.m_lookupTable = mapSet s.m_lookupTable k s.nodes ∧
      s1.m_cacheSize = s.m_cacheSize := by
  obtain ⟨v, f, he, hm⟩ := h.core.cellOf k it hk
  obtain ⟨s1, hU, hb, hE, hL, hC, hM, hN⟩ :=
    lfu_Update_spec s k it v f hk he hm
  refine ⟨s1, v, f, he, hU, ?_, hE, hL, hC⟩
  have hne : int32Succ f ≠ f := int32Succ_ne f
  have htk : c.touches k = true := (hc k).2 rfl
  have hto : ∀ x, x ≠ k → c.touches x = false :=
    fun x hx => touches_false_of_ne c k x (fun y hy => (hc y).1 hy) hx
  have hfilt : ∀ a, a ∈ (s.bucket f).filter (fun c => decide (c.1 ≠ it)) ↔
      a ∈ s.bucket f ∧ a.2 ≠ k := by
    intro a
    simp only [List.mem_filter, decide_eq_true_eq]
    constructor
    · rintro ⟨ha, hn⟩
      refine ⟨ha, fun h2 => hn ?_⟩
      have h3 := (h.core.ofCell f a.1 a.2 ha).1
      rw [h2, hk] at h3
      exact (Option.some.inj h3).symm
    · rintro ⟨ha, hn⟩
      refine ⟨ha, fun h2 => hn ?_⟩
      have h3 := (h.core.ofCell f a.1 a.2 ha).1
      rw [h2] at h3
      exact h.core.inj a.2 k it h3 hk
  have hother : ∀ g a, a ∈ s.bucket g → g ≠ f → a.2 ≠ k := by
    intro g a ha hg h2
    obtain ⟨_, ⟨w, hw⟩⟩ := h.core.ofCell g a.1 a.2 ha
    rw [h2, he] at hw
    exact hg (congrArg Prod.snd (Option.some.inj hw)).symm
  have hb1 : s1.bucket (int32Succ f) = (s.nodes, k) :: s.bucket (int32Succ f) := by
    rw [hb, if_pos rfl]
  have hb2 : s1.bucket f = (s.bucket f).filter (fun c => decide (c.1 ≠ it)) := by
    rw [hb, if_neg (fun h => hne h.symm), if_pos rfl]
  have hb3 : ∀ g, g ≠ int32Succ f → g ≠ f → s1.bucket g = s.bucket g := by
    intro g h1 h2
    rw [hb, if_neg h1, if_neg h2]
  have hold : ∀ g a, a ∈ s.bucket g → a.2 ≠ k → a ∈ s1.bucket g := by
    intro g a ha hak
    by_cases h1 : g = int32Succ f
    · rw [h1, hb1]; exact List.mem_cons_of_mem _ (h1 ▸ ha)
    · by_cases h2 : g = f
      · rw [h2, hb2, hfilt]; exact ⟨h2 ▸ ha, hak⟩
      · rw [hb3 g h1 h2]; exact ha
  have hnew : ∀ g a, a ∈ s1.bucket g →
      (a = (s.nodes, k) ∧ g = int32Succ f) ∨ (a ∈ s.bucket g ∧ a.2 ≠ k) := by
    intro g a ha
    by_cases h1 : g = int32Succ f
    · rw [h1, hb1, List.mem_cons] at ha
      rcases ha with ha | ha
      · exact Or.inl ⟨ha, h1⟩
      · exact Or.inr ⟨h1 ▸ ha, hother (int32Succ f) a ha hne⟩
    · by_cases h2 : g = f
      · rw [h2, hb2, hfilt] at ha
        exact Or.inr ⟨h2 ▸ ha.1, ha.2⟩
      · rw [hb3 g h1 h2] at ha
        exact Or.inr ⟨ha, hother g a ha h2⟩
  have hltne : s.m_lookupTable ≠ [] := by
    intro h0; rw [h0] at hk; simp [mapFind] at hk
  refine ⟨⟨?_, ?_, ?_, ?_, ?_, ?_, ?_, ?_, ?_⟩, ?_, ?_, ?_⟩
  · rw [hL]; exact nodup_mapSet _ _ _ h.core.nodupL
  · rw [hE]; exact nodup_mapSet _ _ _ h.core.nodupE
  · intro x
    rw [hL, hE, mapFind_set, mapFind_set]
    by_cases hx : x = k
    · simp [hx]
    · simp only [hx, if_false]; exact h.core.keysEq x
  · intro x j hx
    rw [hL, mapFind_set] at hx
    rw [hE]
    by_cases hxk : x = k
    · simp only [hxk, if_true, Option.some.injEq] at hx
      refine ⟨v, int32Succ f, ?_, ?_⟩
      · rw [mapFind_set, hxk]; simp
      · rw [hb1, ← hx, hxk]; exact List.mem_cons_self _ _
    · simp only [hxk, if_false] at hx
      obtain ⟨w, g, hw, hmem⟩ := h.core.cellOf x j hx
      refine ⟨w, g, ?_, hold g _ hmem hxk⟩
      rw [mapFind_set]; simp only [hxk, if_false]; exact hw
  · intro g j x hx
    rw [hL, hE, mapFind_set, mapFind_set]
    rcases hnew g _ hx with ⟨h1, h2⟩ | ⟨h1, h2⟩
    · have hj : j = s.nodes := congrArg Prod.fst h1
      have hxk : x = k := congrArg Prod.snd h1
      rw [hxk, hj, h2, if_pos rfl, if_pos rfl]
      exact ⟨rfl, ⟨v, rfl⟩⟩
    · have hxk : x ≠ k := h2
      simp only [hxk, if_false]
      exact h.core.ofCell g j x h1
  · intro x y j hx hy
    rw [hL, mapFind_set] at hx hy
    by_cases hxk : x = k
    · by_cases hyk : y = k
      · rw [hxk, hyk]
      · simp only [hxk, if_true, Option.some.injEq] at hx
        simp only [hyk, if_false] at hy
        have := h.core.fresh y j hy
        omega
    · by_cases hyk : y = k
      · simp only [hyk, if_true, Option.some.injEq] at hy
        simp only [hxk, if_false] at hx
        have := h.core.fresh x j hx
        omega
      · simp only [hxk, if_false] at hx
        simp only [hyk, if_false] at hy
        exact h.core.inj x y j hx hy
  · intro x j hx
    rw [hL, mapFind_set] at hx
    rw [hN]
    by_cases hxk : x = k
    · simp only [hxk, if_true, Option.some.injEq] at hx
      omega
    · simp only [hxk, if_false] at hx
      have := h.core.fresh x j hx
      omega
  · intro g
    by_cases h1 : g = int32Succ f
    · rw [h1, hb1, List.pairwise_cons]
      refine ⟨?_, sorted_extend hist c _ (fun a ha => hto _ (hother _ a ha hne)) (h.core.sorted _)⟩
      intro b hb0
      have hbk : b.2 ≠ k := hother _ b hb0 hne
      show lastTouch b.2 (hist ++ [c]) < lastTouch k (hist ++ [c])
      rw [lastTouch_append_single, lastTouch_append_single, hto _ hbk, htk]
      have := lastTouch_le b.2 hist
      simp only [if_true]
      simp only [Bool.false_eq_true, if_false]
      omega
    · by_cases h2 : g = f
      · rw [h2, hb2]
        refine sorted_extend hist c _ (fun a ha => hto _ ((hfilt a).1 ha).2) ?_
        exact (h.core.sorted f).sublist (List.filter_sublist _)
      · rw [hb3 g h1 h2]
        exact sorted_extend hist c _ (fun a ha => hto _ (hother g a ha h2)) (h.core.sorted g)
  · rw [hE, hL, length_mapSet_of_some _ _ _ _ h.core.nodupE he,
      length_mapSet_of_some _ _ _ _ h.core.nodupL hk]
    exact h.core.sizeEq
  · rw [hL, hC, length_mapSet_of_some _ _ _ _ h.core.nodupL hk]
    exact h.sizeLe
  · intro _
    have hmin1 := h.minOk hltne
    rw [hM]
    by_cases hcond : f = s.min_frequency ∧
        (s.bucket f).filter (fun c => decide (c.1 ≠ it)) = []
    · rw [if_pos hcond, ← hcond.1, hb1]
      simp
    · rw [if_neg hcond]
      by_cases h1 : s.min_frequency = int32Succ f
      · rw [h1, hb1]; simp
      · by_cases h2 : s.min_frequency = f
        · rw [h2, hb2]
          intro h3
          exact hcond ⟨h2.symm, h3⟩
        · rw [hb3 _ h1 h2]; exact hmin1
  · intro hlen
    have hlen2 : (hist.length : Int) < 2147483647 := by
      rw [List.length_append] at hlen
      push_cast at hlen
      simp only [List.length_singleton, Nat.cast_one] at hlen
      omega
    have hex := h.exact (by omega)
    have hfr := hex.range f it k hm
    have hs : int32Succ f = f + 1 := int32Succ_of_lt f (by omega)
    have hmin2 := hex.lower hltne
    refine ⟨?_, ?_⟩
    · intro g j x hx
      rw [List.length_append]
      push_cast
      simp only [List.length_singleton, Nat.cast_one]
      rcases hnew g _ hx with ⟨_, h2⟩ | ⟨h1, _⟩
      · rw [h2, hs]; omega
      · have := hex.range g j x h1; omega
    · intro _
      have hfge : s.min_frequency ≤ f := by
        by_contra hlt
        have := hmin2 f (by omega)
        rw [this] at hm
        simp at hm
      rw [hM]
      by_cases hcond : f = s.min_frequency ∧
          (s.bucket f).filter (fun c => decide (c.1 ≠ it)) = []
      · rw [if_pos hcond, ← hcond.1, hs]
        intro g hg
        by_cases h2 : g = f
        · rw [h2, hb2]; exact hcond.2
        · rw [hb3 g (by rw [hs]; omega) h2]
          exact hmin2 g (by omega)
      · rw [if_neg hcond]
        intro g hg
        rw [hb3 g (by rw [hs]; omega) (by omega)]
        exact hmin2 g hg

theorem lfuInv_setValue {hist : List Call} {s : LFUSmartCacheImpl} (h : LFUInv hist s)
    (k v f w : Int) (he : mapFind s.m_elementSequence k = some (v, f)) :
    LFUInv hist { s with m_elementSequence := mapSet s.m_elementSequence k (w, f) } := by
  have hlk : mapFind s.m_lookupTable k ≠ none := by
    intro h0
    rw [(h.core.keysEq k).1 h0] at he
    cases he
  refine ⟨⟨h.core.nodupL, nodup_mapSet _ _ _ h.core.nodupE, ?_, ?_, ?_, h.core.inj,
    h.core.fresh, h.core.sorted, ?_⟩, h.sizeLe, h.minOk,
    fun hlen => ⟨(h.exact hlen).range, (h.exact hlen).lower⟩⟩
  · intro x
    show mapFind s.m_lookupTable x = none ↔ mapFind (mapSet s.m_elementSequence k (w, f)) x = none
    rw [mapFind_set]
    by_cases hx : x = k
    · simp [hx, hlk]
    · simp only [hx, if_false]; exact h.core.keysEq x
  · intro x j hx
    obtain ⟨v2, f2, h1, h2⟩ := h.core.cellOf x j hx
    show ∃ v f2, mapFind (mapSet s.m_elementSequence k (w, f)) x = some (v, f2) ∧
      (j, x) ∈ s.bucket f2
    rw [mapFind_set]
    by_cases hxk : x = k
    · rw [hxk, he] at h1
      have hf : f = f2 := congrArg Prod.snd (Option.some.inj h1)
      exact ⟨w, f2, by simp [hxk, hf], h2⟩
    · exact ⟨v2, f2, by simp only [hxk, if_false]; exact h1, h2⟩
  · intro g j x hx
    obtain ⟨h1, ⟨v2, h2⟩⟩ := h.core.ofCell g j x hx
    refine ⟨h1, ?_⟩
    show ∃ v, mapFind (mapSet s.m_elementSequence k (w, f)) x = some (v, g)
    rw [mapFind_set]
    by_cases hxk : x = k
    · rw [hxk, he] at h2
      have hf : f = g := congrArg Prod.snd (Option.some.inj h2)
      exact ⟨w, by simp [hxk, hf]⟩
    · exact ⟨v2, by simp only [hxk, if_false]; exact h2⟩
  · show (mapSet s.m_elementSequence k (w, f)).length = s.m_lookupTable.length
    rw [length_mapSet_of_some _ _ _ _ h.core.nodupE he]
    exact h.core.sizeEq

theorem lfu_evict_of_ne (s : LFUSmartCacheImpl)
    (h : (s.m_lookupTable.length : Int) ≠ s.m_cacheSize) :
    LFUSmartCacheImpl.evict s = some s := by
  unfold LFUSmartCacheImpl.evict
  rw [if_neg h]

theorem lfuInv_evict {hist : List Call} {s : LFUSmartCacheImpl} (h : LFUInv hist s)
    (hfull : (s.m_lookupTable.length : Int) = s.m_cacheSize) (hcap : 1 ≤ s.m_cacheSize) :
    ∃ cell s1, (s.bucket s.min_frequency).getLast? = some cell ∧
      LFUSmartCacheImpl.evict s = some s1 ∧ LFUCore hist s1 ∧
      s1.m_lookupTable = mapErase s.m_lookupTable cell.2 ∧
      s1.m_elementSequence = mapErase s.m_elementSequence cell.2 ∧
      s1.m_cacheSize = s.m_cacheSize ∧
      (s1.m_lookupTable.length : Int) < s1.m_cacheSize ∧
      cell ∈ s.bucket s.min_frequency ∧
      (∀ a, a ∈ s.bucket s.min_frequency → a.2 ≠ cell.2 →
        lastTouch cell.2 hist < lastTouch a.2 hist) ∧
      ((hist.length : Int) ≤ 2147483647 → LFUExact hist s1) := by
  have hne : s.m_lookupTable ≠ [] := by
    intro h0; rw [h0] at hfull; simp at hfull; omega
  have hmin1 := h.minOk hne
  cases hlast : (s.bucket s.min_frequency).getLast? with
  | none => exact absurd (List.getLast?_eq_none_iff.1 hlast) hmin1
  | some cell =>
    have hsplit : (s.bucket s.min_frequency).dropLast ++ [cell] = s.bucket s.min_frequency :=
      List.dropLast_append_getLast? cell hlast
    have hcell : cell ∈ s.bucket s.min_frequency := List.mem_of_getLast?_eq_some hlast
    have hsorted := h.core.sorted s.min_frequency
    rw [← hsplit, List.pairwise_append] at hsorted
    have hbefore : ∀ a, a ∈ (s.bucket s.min_frequency).dropLast →
        lastTouch cell.2 hist < lastTouch a.2 hist :=
      fun a ha => hsorted.2.2 a ha cell (List.mem_singleton_self _)
    have hdrop : ∀ a, a ∈ (s.bucket s.min_frequency).dropLast ↔
        a ∈ s.bucket s.min_frequency ∧ a.2 ≠ cell.2 := by
      intro a
      constructor
      · intro ha
        refine ⟨List.mem_of_mem_dropLast ha, fun h2 => ?_⟩
        have := hbefore a ha
        rw [h2] at this
        omega
      · rintro ⟨ha, hn⟩
        rw [← hsplit, List.mem_append, List.mem_singleton] at ha
        rcases ha with ha | ha
        · exact ha
        · exact absurd (congrArg Prod.snd ha) hn
    obtain ⟨hvl, ⟨vv, hve⟩⟩ := h.core.ofCell _ cell.1 cell.2 hcell
    have hother : ∀ g a, a ∈ s.bucket g → g ≠ s.min_frequency → a.2 ≠ cell.2 := by
      intro g a ha hg h2
      obtain ⟨_, ⟨w, hw⟩⟩ := h.core.ofCell g a.1 a.2 ha
      rw [h2, hve] at hw
      exact hg (congrArg Prod.snd (Option.some.inj hw)).symm
    have hev : LFUSmartCacheImpl.evict s = some
        { s with
          m_KeySequence :=
            mapSet s.m_KeySequence s.min_frequency (s.bucket s.min_frequency).dropLast
          m_lookupTable := mapErase s.m_lookupTable cell.2
          m_elementSequence := mapErase s.m_elementSequence cell.2 } := by
      unfold LFUSmartCacheImpl.evict
      rw [if_pos hfull, hlast]
    have hbk : ∀ g, LFUSmartCacheImpl.bucket
        { s with
          m_KeySequence :=
            mapSet s.m_KeySequence s.min_frequency (s.bucket s.min_frequency).dropLast
          m_lookupTable := mapErase s.m_lookupTable cell.2
          m_elementSequence := mapErase s.m_elementSequence cell.2 } g =
        if g = s.min_frequency then (s.bucket s.min_frequency).dropLast else s.bucket g := by
      intro g
      simp only [LFUSmartCacheImpl.bucket, mapAt_set]
    have hlen := length_mapErase_of_some _ _ _ h.core.nodupL hvl
    have hlenE := length_mapErase_of_some _ _ _ h.core.nodupE hve
    have hsz := h.core.sizeEq
    refine ⟨cell, _, rfl, hev, ⟨?_, ?_, ?_, ?_, ?_, ?_, ?_, ?_, ?_⟩, rfl, rfl, rfl, ?_, hcell, ?_,
      ?_⟩
    · exact nodup_mapErase _ _ h.core.nodupL
    · exact nodup_mapErase _ _ h.core.nodupE
    · intro x
      show mapFind (mapErase s.m_lookupTable cell.2) x = none ↔
        mapFind (mapErase s.m_elementSequence cell.2) x = none
      rw [mapFind_erase, mapFind_erase]
      by_cases hx : x = cell.2
      · simp [hx]
      · simp only [hx, if_false]; exact h.core.keysEq x
    · intro x j hx
      change mapFind (mapErase s.m_lookupTable cell.2) x = some j at hx
      rw [mapFind_erase] at hx
      by_cases hxc : x = cell.2
      · simp [hxc] at hx
      · simp only [hxc, if_false] at hx
        obtain ⟨w, g, hw, hmem⟩ := h.core.cellOf x j hx
        refine ⟨w, g, ?_, ?_⟩
        · show mapFind (mapErase s.m_elementSequence cell.2) x = some (w, g)
          rw [mapFind_erase]; simp only [hxc, if_false]; exact hw
        · rw [hbk]
          by_cases hg : g = s.min_frequency
          · rw [if_pos hg, hdrop]; exact ⟨hg ▸ hmem, hxc⟩
          · rw [if_neg hg]; exact hmem
    · intro g j x hx
      rw [hbk] at hx
      have hx2 : (j, x) ∈ s.bucket g ∧ x ≠ cell.2 := by
        by_cases hg : g = s.min_frequency
        · rw [if_pos hg, hdrop] at hx; exact ⟨hg ▸ hx.1, hx.2⟩
        · rw [if_neg hg] at hx; exact ⟨hx, hother g _ hx hg⟩
      obtain ⟨h1, ⟨w, h2⟩⟩ := h.core.ofCell g j x hx2.1
      refine ⟨?_, ⟨w, ?_⟩⟩
      · show mapFind (mapErase s.m_lookupTable cell.2) x = some j
        rw [mapFind_erase]; simp only [hx2.2, if_false]; exact h1
      · show mapFind (mapErase s.m_elementSequence cell.2) x = some (w, g)
        rw [mapFind_erase]; simp only [hx2.2, if_false]; exact h2
    · intro x y j hx hy
      change mapFind (mapErase s.m_lookupTable cell.2) x = some j at hx
      change mapFind (mapErase s.m_lookupTable cell.2) y = some j at hy
      rw [mapFind_erase] at hx hy
      by_cases hxc : x = cell.2
      · simp [hxc] at hx
      · by_cases hyc : y = cell.2
        · simp [hyc] at hy
        · simp only [hxc, if_false] at hx
          simp only [hyc, if_false] at hy
          exact h.core.inj x y j hx hy
    · intro x j hx
      change mapFind (mapErase s.m_lookupTable cell.2) x = some j at hx
      rw [mapFind_erase] at hx
      by_cases hxc : x = cell.2
      · simp [hxc] at hx
      · simp only [hxc, if_false] at hx
        exact h.core.fresh x j hx
    · intro g
      rw [hbk]
      by_cases hg : g = s.min_frequency
      · rw [if_pos hg]
        exact (h.core.sorted _).sublist (List.dropLast_sublist _)
      · rw [if_neg hg]; exact h.core.sorted g
    · show (mapErase s.m_elementSequence cell.2).length = (mapErase s.m_lookupTable cell.2).length
      omega
    · show ((mapErase s.m_lookupTable cell.2).length : Int) < s.m_cacheSize
      omega
    · intro a ha hn
      exact hbefore a ((hdrop a).2 ⟨ha, hn⟩)
    · intro hlen
      have hex := h.exact hlen
      refine ⟨?_, ?_⟩
      · intro g j x hx
        rw [hbk] at hx
        by_cases hg : g = s.min_frequency
        · rw [if_pos hg] at hx
          exact hex.range g j x (hg ▸ List.mem_of_mem_dropLast hx)
        · rw [if_neg hg] at hx
          exact hex.range g j x hx
      · intro _ g hg
        have hg2 : g < s.min_frequency := hg
        rw [hbk, if_neg (by omega)]
        exact hex.lower hne g hg2

theorem lfuCore_insert {hist : List Call} {s1 : LFUSmartCacheImpl} (h : LFUCore hist s1)
    (c : Call) (k v : Int) (hk : mapFind s1.m_lookupTable k = none)
    (hsz : (s1.m_lookupTable.length : Int) < s1.m_cacheSize)
    (hc : ∀ x, c.touches x = true ↔ x = k)
    (hex : (hist.length : Int) ≤ 2147483647 → LFUExact hist s1) :
    LFUInv (hist ++ [c])
      { m_KeySequence := mapSet s1.m_KeySequence 1 ((s1.nodes, k) :: s1.bucket 1)
        m_elementSequence := mapSet s1.m_elementSequence k (v, 1)
        m_lookupTable := mapSet s1.m_lookupTable k s1.nodes
        m_cacheSize := s1.m_cacheSize
        min_frequency := 1
        nodes := s1.nodes + 1 } := by
  have htk : c.touches k = true := (hc k).2 rfl
  have hto : ∀ x, x ≠ k → c.touches x = false :=
    fun x hx => touches_false_of_ne c k x (fun y hy => (hc y).1 hy) hx
  have hke : mapFind s1.m_elementSequence k = none := (h.keysEq k).1 hk
  have hold : ∀ g a, a ∈ s1.bucket g → a.2 ≠ k := by
    intro g a ha h2
    have := (h.ofCell g a.1 a.2 ha).1
    rw [h2, hk] at this
    cases this
  have hbk : ∀ g, LFUSmartCacheImpl.bucket
      { m_KeySequence := mapSet s1.m_KeySequence 1 ((s1.nodes, k) :: s1.bucket 1)
        m_elementSequence := mapSet s1.m_elementSequence k (v, 1)
        m_lookupTable := mapSet s1.m_lookupTable k s1.nodes
        m_cacheSize := s1.m_cacheSize
        min_frequency := 1
        nodes := s1.nodes + 1 } g =
      if g = 1 then (s1.nodes, k) :: s1.bucket 1 else s1.bucket g := by
    intro g
    simp only [LFUSmartCacheImpl.bucket, mapAt_set]
  refine ⟨⟨?_, ?_, ?_, ?_, ?_, ?_, ?_, ?_, ?_⟩, ?_, ?_, ?_⟩
  · exact nodup_mapSet _ _ _ h.nodupL
  · exact nodup_mapSet _ _ _ h.nodupE
  · intro x
    show mapFind (mapSet s1.m_lookupTable k s1.nodes) x = none ↔
      mapFind (mapSet s1.m_elementSequence k (v, 1)) x = none
    rw [mapFind_set, mapFind_set]
    by_cases hx : x = k
    · simp [hx]
    · simp only [hx, if_false]; exact h.keysEq x
  · intro x j hx
    change mapFind (mapSet s1.m_lookupTable k s1.nodes) x = some j at hx
    rw [mapFind_set] at hx
    by_cases hxk : x = k
    · simp only [hxk, if_true, Option.some.injEq] at hx
      refine ⟨v, 1, ?_, ?_⟩
      · show mapFind (mapSet s1.m_elementSequence k (v, 1)) x = some (v, 1)
        rw [mapFind_set, hxk]; simp
      · rw [hbk, if_pos rfl, ← hx, hxk]; exact List.mem_cons_self _ _
    · simp only [hxk, if_false] at hx
      obtain ⟨w, g, hw, hmem⟩ := h.cellOf x j hx
      refine ⟨w, g, ?_, ?_⟩
      · show mapFind (mapSet s1.m_elementSequence k (v, 1)) x = some (w, g)
        rw [mapFind_set]; simp only [hxk, if_false]; exact hw
      · rw [hbk]
        by_cases hg : g = 1
        · rw [if_pos hg]; exact List.mem_cons_of_mem _ (hg ▸ hmem)
        · rw [if_neg hg]; exact hmem
  · intro g j x hx
    rw [hbk] at hx
    show mapFind (mapSet s1.m_lookupTable k s1.nodes) x = some j ∧
      (∃ w, mapFind (mapSet s1.m_elementSequence k (v, 1)) x = some (w, g))
    rw [mapFind_set, mapFind_set]
    have hcase : ((j, x) = (s1.nodes, k) ∧ g = 1) ∨ ((j, x) ∈ s1.bucket g) := by
      by_cases hg : g = 1
      · rw [if_pos hg, List.mem_cons] at hx
        rcases hx with hx | hx
        · exact Or.inl ⟨hx, hg⟩
        · exact Or.inr (hg ▸ hx)
      · rw [if_neg hg] at hx; exact Or.inr hx
    rcases hcase with ⟨h1, h2⟩ | h1
    · have hj : j = s1.nodes := congrArg Prod.fst h1
      have hxk : x = k := congrArg Prod.snd h1
      rw [hxk, hj, h2, if_pos rfl, if_pos rfl]
      exact ⟨rfl, ⟨v, rfl⟩⟩
    · have hxk : x ≠ k := hold g _ h1
      simp only [hxk, if_false]
      exact h.ofCell g j x h1
  · intro x y j hx hy
    change mapFind (mapSet s1.m_lookupTable k s1.nodes) x = some j at hx
    change mapFind (mapSet s1.m_lookupTable k s1.nodes) y = some j at hy
    rw [mapFind_set] at hx hy
    by_cases hxk : x = k
    · by_cases hyk : y = k
      · rw [hxk, hyk]
      · simp only [hxk, if_true, Option.some.injEq] at hx
        simp only [hyk, if_false] at hy
        have := h.fresh y j hy
        omega
    · by_cases hyk : y = k
      · simp only [hyk, if_true, Option.some.injEq] at hy
        simp only [hxk, if_false] at hx
        have := h.fresh x j hx
        omega
      · simp only [hxk, if_false] at hx
        simp only [hyk, if_false] at hy
        exact h.inj x y j hx hy
  · intro x j hx
    change mapFind (mapSet s1.m_lookupTable k s1.nodes) x = some j at hx
    rw [mapFind_set] at hx
    show j < s1.nodes + 1
    by_cases hxk : x = k
    · simp only [hxk, if_true, Option.some.injEq] at hx
      omega
    · simp only [hxk, if_false] at hx
      have := h.fresh x j hx
      omega
  · intro g
    rw [hbk]
    by_cases hg : g = 1
    · rw [if_pos hg, List.pairwise_cons]
      refine ⟨?_, sorted_extend hist c _ (fun a ha => hto _ (hold _ a ha)) (h.sorted _)⟩
      intro b hb0
      have hbk2 : b.2 ≠ k := hold _ b hb0
      show lastTouch b.2 (hist ++ [c]) < lastTouch k (hist ++ [c])
      rw [lastTouch_append_single, lastTouch_append_single, hto _ hbk2, htk]
      have := lastTouch_le b.2 hist
      simp only [if_true]
      simp only [Bool.false_eq_true, if_false]
      omega
    · rw [if_neg hg]
      exact sorted_extend hist c _ (fun a ha => hto _ (hold g a ha)) (h.sorted g)
  · show (mapSet s1.m_elementSequence k (v, 1)).length = (mapSet s1.m_lookupTable k s1.nodes).length
    rw [length_mapSet_of_none _ _ _ hke, length_mapSet_of_none _ _ _ hk, h.sizeEq]
  · show ((mapSet s1.m_lookupTable k s1.nodes).length : Int) ≤ s1.m_cacheSize
    rw [length_mapSet_of_none _ _ _ hk]
    push_cast
    omega
  · intro _
    show LFUSmartCacheImpl.bucket _ 1 ≠ []
    rw [hbk, if_pos rfl]; simp
  · intro hlen
    have hlen2 : (hist.length : Int) < 2147483647 := by
      rw [List.length_append] at hlen
      push_cast at hlen
      simp only [List.length_singleton, Nat.cast_one] at hlen
      omega
    have hex1 := hex (by omega)
    have hrange : ∀ g j x, (j, x) ∈ LFUSmartCacheImpl.bucket
        { m_KeySequence := mapSet s1.m_KeySequence 1 ((s1.nodes, k) :: s1.bucket 1)
          m_elementSequence := mapSet s1.m_elementSequence k (v, 1)
          m_lookupTable := mapSet s1.m_lookupTable k s1.nodes
          m_cacheSize := s1.m_cacheSize
          min_frequency := 1
          nodes := s1.nodes + 1 } g → 1 ≤ g ∧ g ≤ (hist.length : Int) + 1 := by
      intro g j x hx
      rw [hbk] at hx
      by_cases hg : g = 1
      · rw [hg]; omega
      · rw [if_neg hg] at hx
        have := hex1.range g j x hx
        omega
    refine ⟨?_, ?_⟩
    · intro g j x hx
      rw [List.length_append]
      push_cast
      simp only [List.length_singleton, Nat.cast_one]
      exact hrange g j x hx
    · intro _ g hg
      rw [List.eq_nil_iff_forall_not_mem]
      intro a ha
      have := (hrange g a.1 a.2 ha).1
      have hg1 : g < 1 := hg
      omega

theorem touches_push (k v x : Int) : (Call.push k v).touches x = true ↔ x = k := by
  simp [Call.touches, eq_comm]

theorem touches_get (k x : Int) : (Call.get k).touches x = true ↔ x = k := by
  simp [Call.touches, eq_comm]

theorem lfuInv_push {hist : List Call} {s : LFUSmartCacheImpl} (h : LFUInv hist s)
    (hcap : 1 ≤ s.m_cacheSize) (k v : Int) :
    ∃ s1, LFUSmartCacheImpl.Push s k v = some s1 ∧ LFUInv (hist ++ [Call.push k v]) s1 ∧
      s1.m_cacheSize = s.m_cacheSize ∧
      (∃ f, mapFind s1.m_elementSequence k = some (v, f)) ∧
      (∃ it, mapFind s1.m_lookupTable k = some it) := by
  cases hk : mapFind s.m_lookupTable k with
  | none =>
    have hP : LFUSmartCacheImpl.Push s k v =
        match LFUSmartCacheImpl.evict s with
        | none => none
        | some s1 =>
          some
            { m_KeySequence := mapSet s1.m_KeySequence 1 ((s1.nodes, k) :: s1.bucket 1)
              m_elementSequence := mapSet s1.m_elementSequence k (v, 1)
              m_lookupTable := mapSet s1.m_lookupTable k s1.nodes
              m_cacheSize := s1.m_cacheSize
              min_frequency := 1
              nodes := s1.nodes + 1 } := by
      unfold LFUSmartCacheImpl.Push
      rw [hk]
    by_cases hfull : (s.m_lookupTable.length : Int) = s.m_cacheSize
    · obtain ⟨cell, s1, _, hev, hcore, hL, _, hC, hlt, _, _, hex⟩ := lfuInv_evict h hfull hcap
      have hk1 : mapFind s1.m_lookupTable k = none := by
        rw [hL, mapFind_erase, hk]; simp
      rw [hP, hev]
      refine ⟨_, rfl, lfuCore_insert hcore (Call.push k v) k v hk1 hlt (touches_push k v) hex, hC,
        ⟨1, ?_⟩, ⟨s1.nodes, ?_⟩⟩
      · show mapFind (mapSet s1.m_elementSequence k (v, 1)) k = some (v, 1)
        rw [mapFind_set]; simp
      · show mapFind (mapSet s1.m_lookupTable k s1.nodes) k = some s1.nodes
        rw [mapFind_set]; simp
    · have hlt : (s.m_lookupTable.length : Int) < s.m_cacheSize :=
        lt_of_le_of_ne h.sizeLe hfull
      rw [hP, lfu_evict_of_ne s hfull]
      refine ⟨_, rfl,
        lfuCore_insert h.core (Call.push k v) k v hk hlt (touches_push k v) h.exact, rfl,
        ⟨1, ?_⟩, ⟨s.nodes, ?_⟩⟩
      · show mapFind (mapSet s.m_elementSequence k (v, 1)) k = some (v, 1)
        rw [mapFind_set]; simp
      · show mapFind (mapSet s.m_lookupTable k s.nodes) k = some s.nodes
        rw [mapFind_set]; simp
  | some it =>
    obtain ⟨s1, w, f, he, hU, hinv, hE, hL, hC⟩ :=
      lfuInv_update h (Call.push k v) k it hk (touches_push k v)
    have he1 : mapFind s1.m_elementSequence k = some (w, int32Succ f) := by
      rw [hE, mapFind_set]; simp
    have hP : LFUSmartCacheImpl.Push s k v = some
        { s1 with m_elementSequence := mapSet s1.m_elementSequence k (v, int32Succ f) } := by
      unfold LFUSmartCacheImpl.Push
      simp only [hk, hU, mapAt_of_some _ _ _ _ he1]
    refine ⟨_, hP, lfuInv_setValue hinv k w (int32Succ f) v he1, hC, ⟨int32Succ f, ?_⟩, ⟨s.nodes, ?_⟩⟩
    · show mapFind (mapSet s1.m_elementSequence k (v, int32Succ f)) k = some (v, int32Succ f)
      rw [mapFind_set]; simp
    · show mapFind s1.m_lookupTable k = some s.nodes
      rw [hL, mapFind_set]; simp

theorem lfuInv_get {hist : List Call} {s : LFUSmartCacheImpl} (h : LFUInv hist s)
    (cfg : ComponentConfig) (k : Int) :
    ∃ r s1 cfg1, LFUSmartCacheImpl.Get cfg s k = some (r, s1, cfg1) ∧
      LFUInv (hist ++ [Call.get k]) s1 ∧ s1.m_cacheSize = s.m_cacheSize ∧
      cfg1.EvictionPolicy = cfg.EvictionPolicy ∧ cfg1.CacheSize = cfg.CacheSize ∧
      (∀ v f, mapFind s.m_elementSequence k = some (v, f) → r = some v) := by
  cases hk : mapFind s.m_lookupTable k with
  | none =>
    have hG : LFUSmartCacheImpl.Get cfg s k =
        some (none, s, (LFUSmartCacheImpl.Contains cfg s k).2) := by
      unfold LFUSmartCacheImpl.Get
      simp [LFUSmartCacheImpl.Contains, hk]
    refine ⟨_, _, _, hG, ?_, rfl, rfl, rfl, ?_⟩
    · refine lfuInv_extend h (Call.get k) ?_
      intro x hx
      rw [(touches_get k x).1 hx]; exact hk
    · intro v f he
      rw [(h.core.keysEq k).1 hk] at he
      cases he
  | some it =>
    obtain ⟨s1, w, f, he, hU, hinv, hE, _, hC⟩ :=
      lfuInv_update h (Call.get k) k it hk (touches_get k)
    have he1 : mapFind s1.m_elementSequence k = some (w, int32Succ f) := by
      rw [hE, mapFind_set]; simp
    have hG : LFUSmartCacheImpl.Get cfg s k =
        some (some w, s1, (LFUSmartCacheImpl.Contains cfg s k).2) := by
      unfold LFUSmartCacheImpl.Get
      simp [LFUSmartCacheImpl.Contains, hk, hU, mapAt_of_some _ _ _ _ he1]
    refine ⟨_, _, _, hG, hinv, hC, rfl, rfl, ?_⟩
    intro v2 f2 he2
    rw [he] at he2
    have hw : w = v2 := congrArg Prod.fst (Option.some.inj he2)
    rw [hw]

theorem lfuSys_reconfigure (cfg : ComponentConfig) (s0 : SmartCacheImpl)
    (hpol : cfg.EvictionPolicy = CacheEvictionPolicy.LeastFrequentlyUsed)
    (hC : 0 ≤ cfg.CacheSize) :
    LFUSys cfg.CacheSize [] (SmartCacheImpl.Reconfigure cfg s0, cfg) := by
  refine ⟨hpol, rfl, ?_, ?_⟩
  · simp [SmartCacheImpl.Reconfigure, hpol, LFUSmartCacheImpl.Reconfigure]
  · simp only [SmartCacheImpl.Reconfigure, hpol, if_true]
    exact LFUInv_Reconfigure cfg s0.lfu hC

theorem lfuSys_step {C : Int} {hist : List Call} {sys : SmartCacheImpl × ComponentConfig}
    (h : LFUSys C hist sys) (hC : 1 ≤ C) (c : Call) :
    ∃ r, SmartCache.step sys c = Outcome.ok r ∧ LFUSys C (hist ++ [c]) r.2 := by
  have hpol := h.policy
  cases c with
  | contains key =>
    refine ⟨_, rfl, ?_, ?_, h.cap, ?_⟩
    · simp [SmartCacheImpl.Contains, hpol, LFUSmartCacheImpl.Contains,
        ComponentConfig.SendTelemetryMessage]
    · simp [SmartCacheImpl.Contains, hpol, LFUSmartCacheImpl.Contains,
        ComponentConfig.SendTelemetryMessage, h.size]
    · exact lfuInv_extend h.inv (Call.contains key) (fun x hx => by simp [Call.touches] at hx)
  | get key =>
    obtain ⟨r, s1, cfg1, hG, hinv, hcs, hp1, hc1, _⟩ := lfuInv_get h.inv sys.2 key
    have hS : SmartCache.step sys (Call.get key) =
        Outcome.ok (Reply.element r, { sys.1 with lfu := s1 }, cfg1) := by
      simp [SmartCache.step, SmartCacheImpl.Get, hpol, hG]
    exact ⟨_, hS, hp1.trans hpol, hc1.trans h.size, hcs.trans h.cap, hinv⟩
  | push key value =>
    obtain ⟨s1, hP, hinv, hcs, _, _⟩ := lfuInv_push h.inv (by rw [h.cap]; exact hC) key value
    have hS : SmartCache.step sys (Call.push key value) =
        Outcome.ok (Reply.done, { sys.1 with lfu := s1 }, sys.2) := by
      simp [SmartCache.step, SmartCacheImpl.Push, hpol, hP]
    exact ⟨_, hS, hpol, h.size, hcs.trans h.cap, hinv⟩

theorem lfuSys_run {C : Int} (hC : 1 ≤ C) (calls : List Call) :
    ∀ (hist : List Call) (sys : SmartCacheImpl × ComponentConfig), LFUSys C hist sys →
      ∃ sys1, SmartCache.run sys calls = Outcome.ok sys1 ∧ LFUSys C (hist ++ calls) sys1 := by
  induction calls with
  | nil =>
    intro hist sys h
    exact ⟨sys, rfl, by simpa using h⟩
  | cons c cs ih =>
    intro hist sys h
    obtain ⟨r, hr, hsys⟩ := lfuSys_step h hC c
    obtain ⟨sys1, hrun, hinv⟩ := ih (hist ++ [c]) r.2 hsys
    refine ⟨sys1, ?_, by simpa using hinv⟩
    simp only [SmartCache.run, hr]
    exact hrun

theorem lfuSys_of_run (cfg : ComponentConfig) (s0 : SmartCacheImpl) (hist : List Call)
    (sys : SmartCacheImpl × ComponentConfig)
    (hpol : cfg.EvictionPolicy = CacheEvictionPolicy.LeastFrequentlyUsed)
    (hcap : 1 ≤ cfg.CacheSize)
    (hrun : SmartCache.run (SmartCacheImpl.Reconfigure cfg s0, cfg) hist = Outcome.ok sys) :
    LFUSys cfg.CacheSize hist sys := by
  obtain ⟨sys1, h1, h2⟩ :=
    lfuSys_run hcap hist [] _ (lfuSys_reconfigure cfg s0 hpol (by omega))
  rw [hrun] at h1
  have : sys = sys1 := by injection h1
  rw [this]
  simpa using h2

theorem resident_lfu (cfg : ComponentConfig) (s : SmartCacheImpl) (x : Int)
    (hpol : cfg.EvictionPolicy = CacheEvictionPolicy.LeastFrequentlyUsed) :
    s.resident cfg x = (mapFind s.lfu.m_lookupTable x).isSome := by
  simp [SmartCacheImpl.resident, SmartCacheImpl.Contains, hpol, LFUSmartCacheImpl.Contains]

/-! ## Frequencies and arrival -/

theorem frequency_of_entries (s : LFUSmartCacheImpl) (x : Int) :
    s.frequency x = (mapFind s.m_elementSequence x).map Prod.snd := rfl

theorem lfu_push_frequency {hist : List Call} {s : LFUSmartCacheImpl} (h : LFUInv hist s)
    (hcap : 1 ≤ s.m_cacheSize) (k v : Int) (s1 : LFUSmartCacheImpl)
    (hP : LFUSmartCacheImpl.Push s k v = some s1) (x : Int) :
    (x ≠ k → s1.frequency x = s.frequency x ∨ s1.frequency x = none) ∧
    (x = k → (s.frequency k = none ∧ s1.frequency k = some 1) ∨
      ∃ f, s.frequency k = some f ∧ s1.frequency k = some (int32Succ f)) := by
  cases hk : mapFind s.m_lookupTable k with
  | none =>
    have hke : s.frequency k = none := by
      rw [frequency_of_entries, (h.core.keysEq k).1 hk]; rfl
    have hP2 : LFUSmartCacheImpl.Push s k v =
        match LFUSmartCacheImpl.evict s with
        | none => none
        | some s1 =>
          some
            { m_KeySequence := mapSet s1.m_KeySequence 1 ((s1.nodes, k) :: s1.bucket 1)
              m_elementSequence := mapSet s1.m_elementSequence k (v, 1)
              m_lookupTable := mapSet s1.m_lookupTable k s1.nodes
              m_cacheSize := s1.m_cacheSize
              min_frequency := 1
              nodes := s1.nodes + 1 } := by
      unfold LFUSmartCacheImpl.Push
      rw [hk]
    have hmain : ∃ m, s1.m_elementSequence = mapSet m k (v, 1) ∧
        ∀ y, mapFind m y = mapFind s.m_elementSequence y ∨ mapFind m y = none := by
      by_cases hfull : (s.m_lookupTable.length : Int) = s.m_cacheSize
      · obtain ⟨cell, s2, _, hev, _, _, hE, _, _, _, _⟩ := lfuInv_evict h hfull hcap
        rw [hP2, hev] at hP
        refine ⟨s2.m_elementSequence, by rw [← Option.some.inj hP], ?_⟩
        intro y
        rw [hE, mapFind_erase]
        by_cases hy : y = cell.2
        · right; simp [hy]
        · left; simp [hy]
      · rw [hP2, lfu_evict_of_ne s hfull] at hP
        exact ⟨s.m_elementSequence, by rw [← Option.some.inj hP], fun y => Or.inl rfl⟩
    obtain ⟨m, hm, hmy⟩ := hmain
    refine ⟨?_, ?_⟩
    · intro hx
      rw [frequency_of_entries, frequency_of_entries, hm, mapFind_set, if_neg hx]
      rcases hmy x with h1 | h1
      · left; rw [h1]
      · right; rw [h1]; rfl
    · intro _
      left
      refine ⟨hke, ?_⟩
      rw [frequency_of_entries, hm, mapFind_set, if_pos rfl]; rfl
  | some it =>
    obtain ⟨s2, w, f, he, hU, _, hE, _, _⟩ :=
      lfuInv_update h (Call.push k v) k it hk (touches_push k v)
    have he1 : mapFind s2.m_elementSequence k = some (w, int32Succ f) := by
      rw [hE, mapFind_set]; simp
    have hP2 : LFUSmartCacheImpl.Push s k v = some
        { s2 with m_elementSequence := mapSet s2.m_elementSequence k (v, int32Succ f) } := by
      unfold LFUSmartCacheImpl.Push
      simp only [hk, hU, mapAt_of_some _ _ _ _ he1]
    rw [hP2] at hP
    have hm : s1.m_elementSequence =
        mapSet (mapSet s.m_elementSequence k (w, int32Succ f)) k (v, int32Succ f) := by
      rw [← Option.some.inj hP, ← hE]
    refine ⟨?_, ?_⟩
    · intro hx
      left
      rw [frequency_of_entries, frequency_of_entries, hm, mapFind_set, if_neg hx,
        mapFind_set, if_neg hx]
    · intro _
      right
      refine ⟨f, ?_, ?_⟩
      · rw [frequency_of_entries, he]; rfl
      · rw [frequency_of_entries, hm, mapFind_set, if_pos rfl]; rfl

theorem lfu_get_frequency {hist : List Call} {s : LFUSmartCacheImpl} (h : LFUInv hist s)
    (cfg : ComponentConfig) (k : Int) (r : Option Int) (s1 : LFUSmartCacheImpl)
    (cfg1 : ComponentConfig) (hG : LFUSmartCacheImpl.Get cfg s k = some (r, s1, cfg1))
    (x : Int) :
    (x ≠ k → s1.frequency x = s.frequency x) ∧
    (x = k → (s.frequency k = none ∧ s1.frequency k = none) ∨
      ∃ f, s.frequency k = some f ∧ s1.frequency k = some (int32Succ f)) := by
  cases hk : mapFind s.m_lookupTable k with
  | none =>
    have hG2 : LFUSmartCacheImpl.Get cfg s k =
        some (none, s, (LFUSmartCacheImpl.Contains cfg s k).2) := by
      unfold LFUSmartCacheImpl.Get
      simp [LFUSmartCacheImpl.Contains, hk]
    rw [hG2] at hG
    have hs : s = s1 := congrArg (fun t => t.2.1) (Option.some.inj hG)
    have hke : s.frequency k = none := by
      rw [frequency_of_entries, (h.core.keysEq k).1 hk]; rfl
    rw [← hs]
    exact ⟨fun _ => rfl, fun _ => Or.inl ⟨hke, hke⟩⟩
  | some it =>
    obtain ⟨s2, w, f, he, hU, _, hE, _, _⟩ :=
      lfuInv_update h (Call.get k) k it hk (touches_get k)
    have he1 : mapFind s2.m_elementSequence k = some (w, int32Succ f) := by
      rw [hE, mapFind_set]; simp
    have hG2 : LFUSmartCacheImpl.Get cfg s k =
        some (some w, s2, (LFUSmartCacheImpl.Contains cfg s k).2) := by
      unfold LFUSmartCacheImpl.Get
      simp [LFUSmartCacheImpl.Contains, hk, hU, mapAt_of_some _ _ _ _ he1]
    rw [hG2] at hG
    have hs : s2 = s1 := congrArg (fun t => t.2.1) (Option.some.inj hG)
    rw [← hs]
    refine ⟨?_, ?_⟩
    · intro hx
      rw [frequency_of_entries, frequency_of_entries, hE, mapFind_set, if_neg hx]
    · intro _
      right
      refine ⟨f, ?_, ?_⟩
      · rw [frequency_of_entries, he]; rfl
      · rw [frequency_of_entries, he1]; rfl

/-- How one call changes the frequency recorded for a key under policy LFU: a call that
does not touch the key leaves its frequency or evicts it; a call that touches it raises
its frequency by one, inserts it with frequency 1, or (a `get` miss) leaves it absent. -/
theorem lfuSys_step_frequency {C : Int} {hist : List Call}
    {sys : SmartCacheImpl × ComponentConfig} (h : LFUSys C hist sys) (hC : 1 ≤ C) (c : Call)
    (r : Reply × SmartCacheImpl × ComponentConfig) (hr : step sys c = Outcome.ok r) (x : Int) :
    (c.touches x = false →
      r.2.1.lfu.frequency x = sys.1.lfu.frequency x ∨ r.2.1.lfu.frequency x = none) ∧
    (c.touches x = true →
      (sys.1.lfu.frequency x = none ∧ r.2.1.lfu.frequency x = none) ∨
      (sys.1.lfu.frequency x = none ∧ r.2.1.lfu.frequency x = some 1) ∨
      ∃ f, sys.1.lfu.frequency x = some f ∧ r.2.1.lfu.frequency x = some (int32Succ f)) := by
  have hpol := h.policy
  cases c with
  | contains key =>
    have : r = (Reply.isInCache (SmartCacheImpl.Contains sys.2 sys.1 key).1, sys.1,
        (SmartCacheImpl.Contains sys.2 sys.1 key).2) := by
      simp only [step] at hr
      injection hr with hr
      exact hr.symm
    rw [this]
    exact ⟨fun _ => Or.inl rfl, fun ht => by simp [Call.touches] at ht⟩
  | get key =>
    obtain ⟨r0, s1, cfg1, hG, _⟩ := lfuInv_get h.inv sys.2 key
    have hS : step sys (Call.get key) =
        Outcome.ok (Reply.element r0, { sys.1 with lfu := s1 }, cfg1) := by
      simp [step, SmartCacheImpl.Get, hpol, hG]
    rw [hS] at hr
    have hr2 : r = (Reply.element r0, { sys.1 with lfu := s1 }, cfg1) := by
      injection hr with hr; exact hr.symm
    rw [hr2]
    have hf := lfu_get_frequency h.inv sys.2 key r0 s1 cfg1 hG x
    refine ⟨?_, ?_⟩
    · intro ht
      have hx : x ≠ key := fun hxk => by
        rw [(touches_get key x).2 hxk] at ht; cases ht
      exact Or.inl (hf.1 hx)
    · intro ht
      have hx : x = key := (touches_get key x).1 ht
      rcases hf.2 hx with h1 | ⟨f, h1, h2⟩
      · exact Or.inl (by rw [hx]; exact h1)
      · exact Or.inr (Or.inr ⟨f, by rw [hx]; exact h1, by rw [hx]; exact h2⟩)
  | push key value =>
    obtain ⟨s1, hP, _⟩ := lfuInv_push h.inv (by rw [h.cap]; exact hC) key value
    have hS : step sys (Call.push key value) =
        Outcome.ok (Reply.done, { sys.1 with lfu := s1 }, sys.2) := by
      simp [step, SmartCacheImpl.Push, hpol, hP]
    rw [hS] at hr
    have hr2 : r = (Reply.done, { sys.1 with lfu := s1 }, sys.2) := by
      injection hr with hr; exact hr.symm
    rw [hr2]
    have hf := lfu_push_frequency h.inv (by rw [h.cap]; exact hC) key value s1 hP x
    refine ⟨?_, ?_⟩
    · intro ht
      have hx : x ≠ key := fun hxk => by
        rw [(touches_push key value x).2 hxk] at ht; cases ht
      exact hf.1 hx
    · intro ht
      have hx : x = key := (touches_push key value x).1 ht
      rcases hf.2 hx with h1 | ⟨f, h1, h2⟩
      · exact Or.inr (Or.inl (by rw [hx]; exact h1))
      · exact Or.inr (Or.inr ⟨f, by rw [hx]; exact h1, by rw [hx]; exact h2⟩)

theorem run_append (a b : List Call) : ∀ sys : SmartCacheImpl × ComponentConfig,
    run sys (a ++ b) =
      match run sys a with
      | Outcome.ok m => run m b
      | Outcome.thrown s => Outcome.thrown s
      | Outcome.undefined => Outcome.undefined := by
  induction a with
  | nil => intro sys; rfl
  | cons c cs ih =>
    intro sys
    simp only [List.cons_append, run]
    cases step sys c with
    | ok r => exact ih r.2
    | thrown s => rfl
    | undefined => rfl

theorem lastTouch_append_untouched (x : Int) (post : List Call)
    (hpost : ∀ d ∈ post, d.touches x = false) :
    ∀ a : List Call, lastTouch x (a ++ post) = lastTouch x a := by
  induction post with
  | nil => intro a; simp
  | cons d ds ih =>
    intro a
    have h1 : a ++ d :: ds = (a ++ [d]) ++ ds := by simp
    rw [h1, ih (fun e he => hpost e (List.mem_cons_of_mem _ he)), lastTouch_append_single,
      hpost d (List.mem_cons_self _ _)]
    simp

theorem lfuSys_run_untouched {C : Int} (hC : 1 ≤ C) (x : Int) (post : List Call)
    (hpost : ∀ d ∈ post, d.touches x = false) :
    ∀ (hist : List Call) (sys sysEnd : SmartCacheImpl × ComponentConfig), LFUSys C hist sys →
      run sys post = Outcome.ok sysEnd →
      sysEnd.1.lfu.frequency x = sys.1.lfu.frequency x ∨ sysEnd.1.lfu.frequency x = none := by
  induction post with
  | nil =>
    intro hist sys sysEnd _ hrun
    have : sys = sysEnd := by
      simp only [run] at hrun
      injection hrun
    rw [this]
    exact Or.inl rfl
  | cons d ds ih =>
    intro hist sys sysEnd h hrun
    obtain ⟨r, hr, hsys⟩ := lfuSys_step h hC d
    have hfr := (lfuSys_step_frequency h hC d r hr x).1 (hpost d (List.mem_cons_self _ _))
    simp only [run, hr] at hrun
    have hrest := ih (fun e he => hpost e (List.mem_cons_of_mem _ he)) _ r.2 sysEnd hsys hrun
    rcases hrest with h1 | h1
    · rcases hfr with h2 | h2
      · exact Or.inl (h1.trans h2)
      · exact Or.inr (h1.trans h2)
    · exact Or.inr h1

/-- Under policy LFU a resident key holds its current frequency since the last call that
touched it (the call at position `lastTouch`): if `c` is the last `get x` or `push x _`
of the history and `x` is resident with frequency `f` at the end, then `c` gave `x` the
frequency `f`, either by inserting it (`f = 1`) or by promoting it from the frequency it
had before. -/
theorem lfu_arrival_at_last_touch
    (cfg : ComponentConfig) (s0 : SmartCacheImpl) (pre : List Call) (c : Call)
    (post : List Call) (sysEnd : SmartCacheImpl × ComponentConfig) (x f : Int)
    (hpol : cfg.EvictionPolicy = CacheEvictionPolicy.LeastFrequentlyUsed)
    (hcap : 1 ≤ cfg.CacheSize)
    (hrun : run (SmartCacheImpl.Reconfigure cfg s0, cfg) (pre ++ c :: post) =
      Outcome.ok sysEnd)
    (hc : c.touches x = true) (hpost : ∀ d ∈ post, d.touches x = false)
    (hf : sysEnd.1.lfu.frequency x = some f) :
    lastTouch x (pre ++ c :: post) = pre.length + 1 ∧
    ∃ sysPre r, run (SmartCacheImpl.Reconfigure cfg s0, cfg) pre = Outcome.ok sysPre ∧
      step sysPre c = Outcome.ok r ∧
      r.2.1.lfu.frequency x = some f ∧
      ((sysPre.1.lfu.frequency x = none ∧ f = 1) ∨
        ∃ g, sysPre.1.lfu.frequency x = some g ∧ f = int32Succ g) := by
  refine ⟨?_, ?_⟩
  · have h1 : pre ++ c :: post = (pre ++ [c]) ++ post := by simp
    rw [h1, lastTouch_append_untouched x post hpost, lastTouch_append_single, hc]
    simp
  · obtain ⟨sysPre, hpre, hsysPre⟩ :=
      lfuSys_run hcap pre [] _ (lfuSys_reconfigure cfg s0 hpol (by omega))
    obtain ⟨r, hr, hsysMid⟩ := lfuSys_step hsysPre hcap c
    rw [run_append, hpre] at hrun
    simp only [run, hr] at hrun
    have hkeep := lfuSys_run_untouched hcap x post hpost _ r.2 sysEnd hsysMid hrun
    have hmid : r.2.1.lfu.frequency x = some f := by
      rcases hkeep with h1 | h1
      · rw [← h1]; exact hf
      · rw [h1] at hf; cases hf
    refine ⟨sysPre, r, hpre, hr, hmid, ?_⟩
    rcases (lfuSys_step_frequency hsysPre hcap c r hr x).2 hc with
      ⟨_, h2⟩ | ⟨h1, h2⟩ | ⟨g, h1, h2⟩
    · rw [h2] at hmid; cases hmid
    · rw [h2] at hmid
      exact Or.inl ⟨h1, (Option.some.inj hmid).symm⟩
    · rw [h2] at hmid
      exact Or.inr ⟨g, h1, (Option.some.inj hmid).symm⟩

/-! ## Claims -/

/-- C1, evaluated at the failing input: policy LRU, capacity 3, after
`push(1,10); push(2,20); push(3,30); get(1); push(4,40)`.  Every call returns and the
order holds the values 40, 10, 30 (the entry of key 2, the least recently touched, was
dropped), but the index still holds key 2, whose iterator designates no element any more:
the eviction erased the key 20 (the dropped value) from the index, not the key 2.
`Contains` answers true for the four keys 1, 2, 3, 4. -/
theorem lru_eviction_erases_value_not_key :
    run (demoStart .LeastRecentlyUsed 3) recencyScenario =
      Outcome.ok (stateAfter (demoStart .LeastRecentlyUsed 3) recencyScenario) ∧
    (stateAfter (demoStart .LeastRecentlyUsed 3) recencyScenario).1.m_elementSequence.map
      Prod.snd = [40, 10, 30] ∧
    residentKeys (stateAfter (demoStart .LeastRecentlyUsed 3) recencyScenario)
      [1, 2, 3, 4, 10, 20, 30, 40] = [1, 2, 3, 4] ∧
    mapFind (stateAfter (demoStart .LeastRecentlyUsed 3) recencyScenario).1.m_lookupTable 2 =
      some 1 ∧
    listDeref (stateAfter (demoStart .LeastRecentlyUsed 3) recencyScenario).1.m_elementSequence
      1 = none := by
  decide

/-- C2, evaluated at the failing input: policy MRU, capacity 3, after
`push(1,10); push(2,20); push(3,30); get(1); push(4,40)`.  Every call returns and the
order holds the values 40, 30, 20 (the entry of key 1, the most recently touched, was
dropped), but the index still holds key 1, whose iterator designates no element any more:
the eviction erased the key 10 (the dropped value) from the index, not the key 1.
`Contains` answers true for the four keys 1, 2, 3, 4. -/
theorem mru_eviction_erases_value_not_key :
    run (demoStart .MostRecentlyUsed 3) recencyScenario =
      Outcome.ok (stateAfter (demoStart .MostRecentlyUsed 3) recencyScenario) ∧
    (stateAfter (demoStart .MostRecentlyUsed 3) recencyScenario).1.m_elementSequence.map
      Prod.snd = [40, 30, 20] ∧
    residentKeys (stateAfter (demoStart .MostRecentlyUsed 3) recencyScenario)
      [1, 2, 3, 4, 10, 20, 30, 40] = [1, 2, 3, 4] ∧
    mapFind (stateAfter (demoStart .MostRecentlyUsed 3) recencyScenario).1.m_lookupTable 1 =
      some 3 ∧
    listDeref (stateAfter (demoStart .MostRecentlyUsed 3) recencyScenario).1.m_elementSequence
      3 = none := by
  decide

/-- The eviction rule while no frequency has overflowed: under policy LFU with capacity at
least 1, in every state reached from `Reconfigure` by a sequence `hist` of at most `INT_MAX`
contains/get/push calls that holds `CacheSize` entries, `Push` of a
key `k` that is not resident returns and evicts exactly one key `victim`: afterwards the
resident keys are the former ones without `victim`, plus `k`; `victim` had the smallest
frequency of all resident keys and, among the resident keys of that frequency, arrived at
it first (its last `get` or `push` in `hist` is the earliest; by `lfu_arrival_at_last_touch`
that call is the one that gave a resident key its current frequency); `k` is stored with
value `v` and frequency 1, and `min_frequency` is 1. -/
theorem lfu_push_evicts_least_frequent_oldest
    (cfg : ComponentConfig) (s0 : SmartCacheImpl) (hist : List Call)
    (sys : SmartCacheImpl × ComponentConfig) (k v : Int)
    (hpol : cfg.EvictionPolicy = CacheEvictionPolicy.LeastFrequentlyUsed)
    (hcap : 1 ≤ cfg.CacheSize)
    (hlen : (hist.length : Int) ≤ 2147483647)
    (hrun : run (SmartCacheImpl.Reconfigure cfg s0, cfg) hist = Outcome.ok sys)
    (hfull : (sys.1.lfu.m_elementSequence.length : Int) = cfg.CacheSize)
    (hk : sys.1.resident sys.2 k = false) :
    ∃ victim s1,
      SmartCacheImpl.Push sys.2 sys.1 k v = Outcome.ok s1 ∧
      sys.1.resident sys.2 victim = true ∧
      (∀ x, s1.resident sys.2 x = true ↔
        (sys.1.resident sys.2 x = true ∧ x ≠ victim) ∨ x = k) ∧
      (∃ fv, sys.1.lfu.frequency victim = some fv ∧
        ∀ x fx, sys.1.lfu.frequency x = some fx →
          fv ≤ fx ∧ (fx = fv → x ≠ victim → lastTouch victim hist < lastTouch x hist)) ∧
      mapFind s1.lfu.m_elementSequence k = some (v, 1) ∧
      s1.lfu.frequency k = some 1 ∧
      s1.lfu.min_frequency = 1 := by
  have hsys := lfuSys_of_run cfg s0 hist sys hpol hcap hrun
  have hp := hsys.policy
  have hinv := hsys.inv
  have hcs : 1 ≤ sys.1.lfu.m_cacheSize := by rw [hsys.cap]; exact hcap
  have hk0 : mapFind sys.1.lfu.m_lookupTable k = none := by
    rw [resident_lfu _ _ _ hp] at hk
    cases hm : mapFind sys.1.lfu.m_lookupTable k with
    | none => rfl
    | some j => rw [hm] at hk; cases hk
  have hfull2 : (sys.1.lfu.m_lookupTable.length : Int) = sys.1.lfu.m_cacheSize := by
    rw [← hinv.core.sizeEq, hsys.cap]; exact hfull
  obtain ⟨cell, s1, _, hev, _, hL, hE, _, _, hcell, hord, _⟩ := lfuInv_evict hinv hfull2 hcs
  obtain ⟨hvl, ⟨vv, hve⟩⟩ := hinv.core.ofCell _ cell.1 cell.2 hcell
  have hne : sys.1.lfu.m_lookupTable ≠ [] := by
    intro h0; rw [h0] at hvl; simp [mapFind] at hvl
  have hmin2 := (hinv.exact hlen).lower hne
  have hP : SmartCacheImpl.Push sys.2 sys.1 k v = Outcome.ok
      { sys.1 with lfu :=
        { m_KeySequence := mapSet s1.m_KeySequence 1 ((s1.nodes, k) :: s1.bucket 1)
          m_elementSequence := mapSet s1.m_elementSequence k (v, 1)
          m_lookupTable := mapSet s1.m_lookupTable k s1.nodes
          m_cacheSize := s1.m_cacheSize
          min_frequency := 1
          nodes := s1.nodes + 1 } } := by
    simp [SmartCacheImpl.Push, hp, LFUSmartCacheImpl.Push, hk0, hev]
  refine ⟨cell.2, _, hP, ?_, ?_, ⟨sys.1.lfu.min_frequency, ?_, ?_⟩, ?_, ?_, rfl⟩
  · rw [resident_lfu _ _ _ hp, hvl]; rfl
  · intro x
    rw [resident_lfu _ _ _ hp, resident_lfu _ _ _ hp]
    show (mapFind (mapSet s1.m_lookupTable k s1.nodes) x).isSome = true ↔ _
    rw [mapFind_set, hL, mapFind_erase]
    by_cases hxk : x = k
    · simp [hxk]
    · by_cases hxc : x = cell.2
      · simp [hxk, hxc]
      · simp [hxk, hxc]
  · simp [LFUSmartCacheImpl.frequency, hve]
  · intro x fx hx
    have hex : ∃ w, mapFind sys.1.lfu.m_elementSequence x = some (w, fx) := by
      unfold LFUSmartCacheImpl.frequency at hx
      cases hm : mapFind sys.1.lfu.m_elementSequence x with
      | none => rw [hm] at hx; cases hx
      | some e =>
        rw [hm] at hx
        exact ⟨e.1, by rw [← Option.some.inj hx]⟩
    obtain ⟨w, hw⟩ := hex
    have hlx : ∃ j, mapFind sys.1.lfu.m_lookupTable x = some j := by
      cases hm : mapFind sys.1.lfu.m_lookupTable x with
      | none => rw [(hinv.core.keysEq x).1 hm] at hw; cases hw
      | some j => exact ⟨j, rfl⟩
    obtain ⟨j, hj⟩ := hlx
    obtain ⟨w2, f2, hw2, hmem⟩ := hinv.core.cellOf x j hj
    rw [hw] at hw2
    have hf : fx = f2 := congrArg Prod.snd (Option.some.inj hw2)
    rw [← hf] at hmem
    refine ⟨?_, ?_⟩
    · by_contra hlt
      have := hmin2 fx (by omega)
      rw [this] at hmem
      simp at hmem
    · intro hfx hxv
      rw [hfx] at hmem
      exact hord (j, x) hmem hxv
  · show mapFind (mapSet s1.m_elementSequence k (v, 1)) k = some (v, 1)
    rw [mapFind_set]; simp
  · show (mapFind (mapSet s1.m_elementSequence k (v, 1)) k).map Prod.snd = some 1
    rw [mapFind_set]; simp

/-- The eviction rule at scenario 3 of the specification (capacity 3, then `push(4,40)`),
with the state the scenario reaches: the push evicts key 3 and leaves the keys 1, 2, 4;
in scenario 4 (`push(1); push(2); push(3); push(4)`) it evicts key 1 and leaves 2, 3, 4. -/
theorem lfu_push_evicts_witness :
    (run (SmartCacheImpl.Reconfigure (demoConfig .LeastFrequentlyUsed 3)
        (demoCache .LeastFrequentlyUsed 3), demoConfig .LeastFrequentlyUsed 3) lfuScenario =
      Outcome.ok (stateAfter (demoStart .LeastFrequentlyUsed 3) lfuScenario)) ∧
    (∃ victim s1,
      SmartCacheImpl.Push (stateAfter (demoStart .LeastFrequentlyUsed 3) lfuScenario).2
        (stateAfter (demoStart .LeastFrequentlyUsed 3) lfuScenario).1 4 40 = Outcome.ok s1 ∧
      (stateAfter (demoStart .LeastFrequentlyUsed 3) lfuScenario).1.resident
        (stateAfter (demoStart .LeastFrequentlyUsed 3) lfuScenario).2 victim = true ∧
      (∀ x, s1.resident (stateAfter (demoStart .LeastFrequentlyUsed 3) lfuScenario).2 x = true ↔
        ((stateAfter (demoStart .LeastFrequentlyUsed 3) lfuScenario).1.resident
          (stateAfter (demoStart .LeastFrequentlyUsed 3) lfuScenario).2 x = true ∧
            x ≠ victim) ∨ x = 4) ∧
      (∃ fv, (stateAfter (demoStart .LeastFrequentlyUsed 3) lfuScenario).1.lfu.frequency victim =
          some fv ∧
        ∀ x fx, (stateAfter (demoStart .LeastFrequentlyUsed 3) lfuScenario).1.lfu.frequency x =
            some fx →
          fv ≤ fx ∧
            (fx = fv → x ≠ victim → lastTouch victim lfuScenario < lastTouch x lfuScenario)) ∧
      mapFind s1.lfu.m_elementSequence 4 = some (40, 1) ∧
      s1.lfu.frequency 4 = some 1 ∧
      s1.lfu.min_frequency = 1) ∧
    residentKeys (stateAfter (demoStart .LeastFrequentlyUsed 3) (lfuScenario ++ [Call.push 4 40]))
      [1, 2, 3, 4, 10, 20, 30, 40] = [1, 2, 4] ∧
    residentKeys (stateAfter (demoStart .LeastFrequentlyUsed 3)
      (lfuTieScenario ++ [Call.push 4 40])) [1, 2, 3, 4, 10, 20, 30, 40] = [2, 3, 4] :=
  ⟨by decide,
   lfu_push_evicts_least_frequent_oldest (demoConfig .LeastFrequentlyUsed 3)
     (demoCache .LeastFrequentlyUsed 3) lfuScenario
     (stateAfter (demoStart .LeastFrequentlyUsed 3) lfuScenario) 4 40
     rfl (by decide) (by decide) (by decide) (by decide) (by decide),
   by decide, by decide⟩

/-- C4, evaluated at the failing input: policy LRU, capacity 1, after
`push(1,10); push(2,20)`.  Both calls return; the order holds one entry and the index two;
the iterator the index holds for key 1 designates no element of the order; `Contains`
answers true for two keys, more than the capacity. -/
theorem recency_index_outgrows_order :
    run (demoStart .LeastRecentlyUsed 1) [Call.push 1 10, Call.push 2 20] =
      Outcome.ok (stateAfter (demoStart .LeastRecentlyUsed 1) [Call.push 1 10, Call.push 2 20]) ∧
    (stateAfter (demoStart .LeastRecentlyUsed 1)
      [Call.push 1 10, Call.push 2 20]).1.m_elementSequence.length = 1 ∧
    (stateAfter (demoStart .LeastRecentlyUsed 1)
      [Call.push 1 10, Call.push 2 20]).1.m_lookupTable.length = 2 ∧
    mapFind (stateAfter (demoStart .LeastRecentlyUsed 1)
      [Call.push 1 10, Call.push 2 20]).1.m_lookupTable 1 = some 0 ∧
    listDeref (stateAfter (demoStart .LeastRecentlyUsed 1)
      [Call.push 1 10, Call.push 2 20]).1.m_elementSequence 0 = none ∧
    residentKeys (stateAfter (demoStart .LeastRecentlyUsed 1) [Call.push 1 10, Call.push 2 20])
      [1, 2, 10, 20] = [1, 2] := by
  decide

/-- C5: under policy LFU with capacity at least 1, after every call of every sequence of
contains/get/push calls that follows `Reconfigure` (every call returns), `m_elementSequence`
and `m_lookupTable` hold the same number of keys, that number is at most the capacity, and
no more than that many distinct keys answer `Contains` with true. -/
theorem lfu_size_at_most_capacity
    (cfg : ComponentConfig) (s0 : SmartCacheImpl) (calls : List Call) (n : Nat)
    (hpol : cfg.EvictionPolicy = CacheEvictionPolicy.LeastFrequentlyUsed)
    (hcap : 1 ≤ cfg.CacheSize) :
    ∃ sys, run (SmartCacheImpl.Reconfigure cfg s0, cfg) (calls.take n) = Outcome.ok sys ∧
      sys.1.lfu.m_elementSequence.length = sys.1.lfu.m_lookupTable.length ∧
      (sys.1.lfu.m_lookupTable.length : Int) ≤ cfg.CacheSize ∧
      ∀ keys : List Int, keys.Nodup → (∀ x ∈ keys, sys.1.resident sys.2 x = true) →
        (keys.length : Int) ≤ cfg.CacheSize := by
  obtain ⟨sys, hrun, hsys⟩ :=
    lfuSys_run hcap (calls.take n) [] _ (lfuSys_reconfigure cfg s0 hpol (by omega))
  have hle : (sys.1.lfu.m_lookupTable.length : Int) ≤ cfg.CacheSize := by
    have := hsys.inv.sizeLe
    rw [hsys.cap] at this
    exact this
  refine ⟨sys, hrun, hsys.inv.core.sizeEq, hle, ?_⟩
  intro keys hnd hres
  have hsub : keys ⊆ sys.1.lfu.m_lookupTable.map Prod.fst := by
    intro x hx
    have h1 := hres x hx
    rw [resident_lfu _ _ _ hsys.policy] at h1
    by_contra h2
    rw [(mapFind_eq_none _ _).2 h2] at h1
    cases h1
  have h3 := (List.subperm_of_subset hnd hsub).length_le
  rw [List.length_map] at h3
  omega

/-- The theorem of C5 at capacity 3, after the four pushes of scenario 4. -/
theorem lfu_size_at_most_capacity_witness :
    ∃ sys, run (SmartCacheImpl.Reconfigure (demoConfig .LeastFrequentlyUsed 3)
        (demoCache .LeastFrequentlyUsed 3), demoConfig .LeastFrequentlyUsed 3)
        ((lfuTieScenario ++ [Call.push 4 40]).take 4) = Outcome.ok sys ∧
      sys.1.lfu.m_elementSequence.length = sys.1.lfu.m_lookupTable.length ∧
      (sys.1.lfu.m_lookupTable.length : Int) ≤ (demoConfig .LeastFrequentlyUsed 3).CacheSize ∧
      ∀ keys : List Int, keys.Nodup → (∀ x ∈ keys, sys.1.resident sys.2 x = true) →
        (keys.length : Int) ≤ (demoConfig .LeastFrequentlyUsed 3).CacheSize :=
  lfu_size_at_most_capacity (demoConfig .LeastFrequentlyUsed 3)
    (demoCache .LeastFrequentlyUsed 3) (lfuTieScenario ++ [Call.push 4 40]) 4 rfl (by decide)

/-- Under policy LFU with capacity at least 1, in every state reached from `Reconfigure`
by contains/get/push calls, `Push` of `(k, v)` returns and the `Get` of `k` that follows
returns a pointer to `v`. -/
theorem lfu_get_after_push
    (cfg : ComponentConfig) (s0 : SmartCacheImpl) (hist : List Call)
    (sys : SmartCacheImpl × ComponentConfig) (k v : Int)
    (hpol : cfg.EvictionPolicy = CacheEvictionPolicy.LeastFrequentlyUsed)
    (hcap : 1 ≤ cfg.CacheSize)
    (hrun : run (SmartCacheImpl.Reconfigure cfg s0, cfg) hist = Outcome.ok sys) :
    ∃ s1 s2 cfg2, SmartCacheImpl.Push sys.2 sys.1 k v = Outcome.ok s1 ∧
      SmartCacheImpl.Get sys.2 s1 k = Outcome.ok (some v, s2, cfg2) := by
  have hsys := lfuSys_of_run cfg s0 hist sys hpol hcap hrun
  have hp := hsys.policy
  obtain ⟨l1, hP, hinv1, _, ⟨f, he⟩, _⟩ :=
    lfuInv_push hsys.inv (by rw [hsys.cap]; exact hcap) k v
  obtain ⟨r, l2, cfg2, hG, _, _, _, _, hr⟩ := lfuInv_get hinv1 sys.2 k
  have hrv : r = some v := hr v f he
  refine ⟨{ sys.1 with lfu := l1 }, { sys.1 with lfu := l2 }, cfg2, ?_, ?_⟩
  · simp [SmartCacheImpl.Push, hp, hP]
  · simp [SmartCacheImpl.Get, hp, hG, hrv]

/-- C6, evaluated at the failing input: policy LRU, capacity 1, in the state reached by
`push(1,10); push(2,20)` the call `push(1,30)` finds key 1 in the index with an iterator
whose element is gone and erases through it: the behaviour is undefined, and so is that
of the sequence ending with `push(1,30); get(1)`. -/
theorem push_then_get_through_dead_iterator :
    run (demoStart .LeastRecentlyUsed 1) [Call.push 1 10, Call.push 2 20] =
      Outcome.ok (stateAfter (demoStart .LeastRecentlyUsed 1) [Call.push 1 10, Call.push 2 20]) ∧
    SmartCacheImpl.Push (stateAfter (demoStart .LeastRecentlyUsed 1)
        [Call.push 1 10, Call.push 2 20]).2
      (stateAfter (demoStart .LeastRecentlyUsed 1) [Call.push 1 10, Call.push 2 20]).1 1 30 =
      Outcome.undefined ∧
    run (demoStart .LeastRecentlyUsed 1)
      [Call.push 1 10, Call.push 2 20, Call.push 1 30, Call.get 1] = Outcome.undefined := by
  decide

/-- C7: for every prior state and every policy the configuration holds, `Contains`
answers false for every key right after `Reconfigure` under the same configuration. -/
theorem contains_false_after_reconfigure (cfg : ComponentConfig) (s : SmartCacheImpl)
    (k : Int) : (SmartCacheImpl.Contains cfg (SmartCacheImpl.Reconfigure cfg s) k).1 = false := by
  by_cases hpol : cfg.EvictionPolicy = CacheEvictionPolicy.LeastFrequentlyUsed
  · simp [SmartCacheImpl.Contains, SmartCacheImpl.Reconfigure, hpol,
      LFUSmartCacheImpl.Contains, LFUSmartCacheImpl.Reconfigure, mapFind]
  · simp [SmartCacheImpl.Contains, SmartCacheImpl.Reconfigure, hpol, mapFind]

/-- C8 fails as stated: after `push(1,10)` under policy LRU, a `Reconfigure` called while
the configuration holds policy LFU leaves the entry in `m_elementSequence` and key 1 in
`m_lookupTable` of the recency store, so the stores are not both empty. -/
theorem reconfigure_lfu_keeps_recency_entries :
    (SmartCacheImpl.Reconfigure (demoConfig .LeastFrequentlyUsed 3)
      (stateAfter (demoStart .LeastRecentlyUsed 3) [Call.push 1 10]).1).m_elementSequence =
        [(0, 10)] ∧
    (SmartCacheImpl.Reconfigure (demoConfig .LeastFrequentlyUsed 3)
      (stateAfter (demoStart .LeastRecentlyUsed 3) [Call.push 1 10]).1).m_lookupTable =
        [(1, 0)] ∧
    ¬ ((SmartCacheImpl.Reconfigure (demoConfig .LeastFrequentlyUsed 3)
        (stateAfter (demoStart .LeastRecentlyUsed 3) [Call.push 1 10]).1).m_elementSequence = [] ∧
      (SmartCacheImpl.Reconfigure (demoConfig .LeastFrequentlyUsed 3)
        (stateAfter (demoStart .LeastRecentlyUsed 3) [Call.push 1 10]).1).m_lookupTable = [] ∧
      (SmartCacheImpl.Reconfigure (demoConfig .LeastFrequentlyUsed 3)
        (stateAfter (demoStart .LeastRecentlyUsed 3) [Call.push 1 10]).1).lfu.m_KeySequence = [] ∧
      (SmartCacheImpl.Reconfigure (demoConfig .LeastFrequentlyUsed 3)
        (stateAfter (demoStart .LeastRecentlyUsed 3)
          [Call.push 1 10]).1).lfu.m_elementSequence = [] ∧
      (SmartCacheImpl.Reconfigure (demoConfig .LeastFrequentlyUsed 3)
        (stateAfter (demoStart .LeastRecentlyUsed 3)
          [Call.push 1 10]).1).lfu.m_lookupTable = []) := by
  decide

/-- C8 as amended: `Reconfigure` clears the store the policy selects and leaves the other
one as it was.  Under policy LFU the three maps of the frequency store are empty afterwards
and the recency store is unchanged; under any other policy the list and the index of the
recency store are empty afterwards and the frequency store is unchanged. -/
theorem reconfigure_clears_selected_store (cfg : ComponentConfig) (s : SmartCacheImpl) :
    if cfg.EvictionPolicy = CacheEvictionPolicy.LeastFrequentlyUsed then
      (SmartCacheImpl.Reconfigure cfg s).lfu.m_KeySequence = [] ∧
      (SmartCacheImpl.Reconfigure cfg s).lfu.m_elementSequence = [] ∧
      (SmartCacheImpl.Reconfigure cfg s).lfu.m_lookupTable = [] ∧
      (SmartCacheImpl.Reconfigure cfg s).m_elementSequence = s.m_elementSequence ∧
      (SmartCacheImpl.Reconfigure cfg s).m_lookupTable = s.m_lookupTable
    else
      (SmartCacheImpl.Reconfigure cfg s).m_elementSequence = [] ∧
      (SmartCacheImpl.Reconfigure cfg s).m_lookupTable = [] ∧
      (SmartCacheImpl.Reconfigure cfg s).lfu = s.lfu := by
  by_cases hpol : cfg.EvictionPolicy = CacheEvictionPolicy.LeastFrequentlyUsed
  · simp [SmartCacheImpl.Reconfigure, hpol, LFUSmartCacheImpl.Reconfigure]
  · simp [SmartCacheImpl.Reconfigure, hpol]

/-- C9, evaluated at the failing input: with capacity 0, right after `Reconfigure`, the
first `push` finds the store "full" (0 entries, capacity 0) and reads `back()` (LRU, LFU)
or `front()` (MRU) of an empty list: the behaviour is undefined under each of the three
policies, for every prior state, key and value; no insertion is rejected. -/
theorem push_at_capacity_zero_undefined (s0 : SmartCacheImpl) (k v : Int) :
    SmartCacheImpl.Push (demoConfig .LeastRecentlyUsed 0)
      (SmartCacheImpl.Reconfigure (demoConfig .LeastRecentlyUsed 0) s0) k v =
        Outcome.undefined ∧
    SmartCacheImpl.Push (demoConfig .MostRecentlyUsed 0)
      (SmartCacheImpl.Reconfigure (demoConfig .MostRecentlyUsed 0) s0) k v =
        Outcome.undefined ∧
    SmartCacheImpl.Push (demoConfig .LeastFrequentlyUsed 0)
      (SmartCacheImpl.Reconfigure (demoConfig .LeastFrequentlyUsed 0) s0) k v =
        Outcome.undefined := by
  refine ⟨?_, ?_, ?_⟩
  · simp [SmartCacheImpl.Push, SmartCacheImpl.Reconfigure, demoConfig, mapFind]
  · simp [SmartCacheImpl.Push, SmartCacheImpl.Reconfigure, demoConfig, mapFind]
  · simp [SmartCacheImpl.Push, SmartCacheImpl.Reconfigure, demoConfig, mapFind,
      LFUSmartCacheImpl.Push, LFUSmartCacheImpl.Reconfigure, LFUSmartCacheImpl.evict,
      LFUSmartCacheImpl.bucket, mapAt]

/-- C10 fails as stated: with a policy value outside {LRU, MRU, LFU} and capacity 3, the
first `push(1,10)` on the empty cache returns and inserts the entry; no error is raised. -/
theorem push_unknown_policy_inserts :
    SmartCacheImpl.Push (demoConfig (.Unrecognized 7) 3) (demoCache (.Unrecognized 7) 3) 1 10 =
      Outcome.ok (stateAfter (demoStart (.Unrecognized 7) 3) [Call.push 1 10]).1 ∧
    (stateAfter (demoStart (.Unrecognized 7) 3) [Call.push 1 10]).1.m_elementSequence =
      [(0, 10)] ∧
    residentKeys (stateAfter (demoStart (.Unrecognized 7) 3) [Call.push 1 10]) [1, 10] = [1] ∧
    ¬ ∃ s, SmartCacheImpl.Push (demoConfig (.Unrecognized 7) 3)
      (demoCache (.Unrecognized 7) 3) 1 10 = Outcome.thrown s := by
  refine ⟨by decide, by decide, by decide, ?_⟩
  rintro ⟨s, hs⟩
  have h : SmartCacheImpl.Push (demoConfig (.Unrecognized 7) 3)
      (demoCache (.Unrecognized 7) 3) 1 10 =
      Outcome.ok (stateAfter (demoStart (.Unrecognized 7) 3) [Call.push 1 10]).1 := by decide
  rw [h] at hs
  cases hs

/-- C10 as amended: when the policy is a value outside {LRU, MRU, LFU}, `Push` leaves
through the exception exactly when the key is not in the index and the list holds
`m_cacheSize` entries, and then the state at the throw is the state before the call; in
every other case no exception is raised. -/
theorem push_unknown_policy_throws_when_full (cfg : ComponentConfig) (s : SmartCacheImpl)
    (k v : Int) (raw : Nat) (hpol : cfg.EvictionPolicy = CacheEvictionPolicy.Unrecognized raw) :
    if mapFind s.m_lookupTable k = none ∧ (s.m_elementSequence.length : Int) = s.m_cacheSize
    then SmartCacheImpl.Push cfg s k v = Outcome.thrown s
    else ∀ s1, SmartCacheImpl.Push cfg s k v ≠ Outcome.thrown s1 := by
  by_cases hc : mapFind s.m_lookupTable k = none ∧
      (s.m_elementSequence.length : Int) = s.m_cacheSize
  · rw [if_pos hc]
    simp [SmartCacheImpl.Push, hpol, hc.1, hc.2]
  · rw [if_neg hc]
    intro s1
    cases hk : mapFind s.m_lookupTable k with
    | none =>
      have hlen : ¬ (s.m_elementSequence.length : Int) = s.m_cacheSize := fun h => hc ⟨hk, h⟩
      simp [SmartCacheImpl.Push, hpol, hk, hlen]
    | some it =>
      have hP : SmartCacheImpl.Push cfg s k v =
          match listErase ((s.nodes, v) :: s.m_elementSequence) it with
          | none => Outcome.undefined
          | some seq =>
            Outcome.ok
              { s with
                m_elementSequence := seq
                m_lookupTable := mapSet s.m_lookupTable k s.nodes
                nodes := s.nodes + 1 } := by
        simp [SmartCacheImpl.Push, hpol, hk]
      rw [hP]
      cases listErase ((s.nodes, v) :: s.m_elementSequence) it <;> simp

/-- The theorem of C10 as amended at capacity 1: after `push(1,10)` the call `push(2,20)`
under an unrecognised policy throws and leaves the state as it was. -/
theorem push_unknown_policy_throws_witness :
    SmartCacheImpl.Push (demoConfig (.Unrecognized 7) 1)
      (stateAfter (demoStart (.Unrecognized 7) 1) [Call.push 1 10]).1 2 20 =
      Outcome.thrown (stateAfter (demoStart (.Unrecognized 7) 1) [Call.push 1 10]).1 := by
  have h := push_unknown_policy_throws_when_full (demoConfig (.Unrecognized 7) 1)
    (stateAfter (demoStart (.Unrecognized 7) 1) [Call.push 1 10]).1 2 20 7 rfl
  rw [if_pos (by decide)] at h
  exact h

/-- C11: with the telemetry channel kept as the list of messages sent, for every policy
and every cache state: `Contains` appends exactly one message `{ConfigId, key, hit}` whose
`hit` is the boolean it returns; a `Get` that returns has appended exactly one message,
whose `hit` is true exactly when the result is not `nullptr`; `Push` and `Reconfigure`
append nothing. -/
theorem telemetry_one_event_per_probe (cfg : ComponentConfig) (s : SmartCacheImpl)
    (k v : Int) :
    (SmartCacheImpl.Contains cfg s k).2.telemetry =
      cfg.telemetry ++
        [{ ConfigId := cfg.ConfigId, Key := k,
           IsInCache := (SmartCacheImpl.Contains cfg s k).1 }] ∧
    (∀ r s1 cfg1, SmartCacheImpl.Get cfg s k = Outcome.ok (r, s1, cfg1) →
      cfg1.telemetry =
        cfg.telemetry ++ [{ ConfigId := cfg.ConfigId, Key := k, IsInCache := r.isSome }]) ∧
    (∀ r, step (s, cfg) (Call.push k v) = Outcome.ok r → r.2.2.telemetry = cfg.telemetry) ∧
    (reconfigure (s, cfg)).2.telemetry = cfg.telemetry := by
  refine ⟨?_, ?_, ?_, rfl⟩
  · by_cases hpol : cfg.EvictionPolicy = CacheEvictionPolicy.LeastFrequentlyUsed
    · simp [SmartCacheImpl.Contains, hpol, LFUSmartCacheImpl.Contains,
        ComponentConfig.SendTelemetryMessage]
    · simp [SmartCacheImpl.Contains, hpol, ComponentConfig.SendTelemetryMessage]
  · intro r s1 cfg1 hG
    by_cases hpol : cfg.EvictionPolicy = CacheEvictionPolicy.LeastFrequentlyUsed
    · simp only [SmartCacheImpl.Get, hpol, if_true, LFUSmartCacheImpl.Get,
        LFUSmartCacheImpl.Contains] at hG
      cases hk : mapFind s.lfu.m_lookupTable k with
      | none =>
        simp [hk] at hG
        obtain ⟨h1, _, h3⟩ := hG
        rw [← h1, ← h3]
        simp [ComponentConfig.SendTelemetryMessage]
      | some it =>
        simp only [hk, Option.isSome_some, Bool.true_eq_false, if_false] at hG
        cases hU : LFUSmartCacheImpl.Update s.lfu k with
        | none => simp [hU] at hG
        | some l =>
          simp [hU] at hG
          obtain ⟨h1, _, h3⟩ := hG
          rw [← h1, ← h3]
          simp [ComponentConfig.SendTelemetryMessage]
    · simp only [SmartCacheImpl.Get, hpol, if_false, SmartCacheImpl.Contains] at hG
      cases hk : mapFind s.m_lookupTable k with
      | none =>
        simp [hk] at hG
        obtain ⟨h1, _, h3⟩ := hG
        rw [← h1, ← h3]
        simp [ComponentConfig.SendTelemetryMessage]
      | some it =>
        simp only [hk, Option.isSome_some, Bool.true_eq_false, if_false] at hG
        cases hd : listDeref s.m_elementSequence it with
        | none => simp [hd] at hG
        | some w =>
          simp only [hd] at hG
          cases he : listErase ((s.nodes, w) :: s.m_elementSequence) it with
          | none => simp [he] at hG
          | some seq =>
            simp [he] at hG
            obtain ⟨h1, _, h3⟩ := hG
            rw [← h1, ← h3]
            simp [ComponentConfig.SendTelemetryMessage]
  · intro r hr
    simp only [step] at hr
    cases hP : SmartCacheImpl.Push cfg s k v with
    | ok s1 =>
      rw [hP] at hr
      injection hr with hr
      rw [← hr]
    | thrown s1 => rw [hP] at hr; cases hr
    | undefined => rw [hP] at hr; cases hr

/-- The theorem of C11 at scenario 6 of the specification: under each of the three
policies `push(1,10); contains(1); contains(2); get(1); get(2)` sends four messages, with
hits true, false, true, false in that order, and the `Get` of key 1 in the state after
the push appends the message `{0, 1, true}` to the empty channel. -/
theorem telemetry_scenario_witness :
    SmartCacheImpl.Get (demoConfig .LeastRecentlyUsed 3)
        (stateAfter (demoStart .LeastRecentlyUsed 3) [Call.push 1 10]).1 1 =
      Outcome.ok (some 10, (stateAfter (demoStart .LeastRecentlyUsed 3)
        [Call.push 1 10, Call.get 1]).1, (stateAfter (demoStart .LeastRecentlyUsed 3)
        [Call.push 1 10, Call.get 1]).2) ∧
    (stateAfter (demoStart .LeastRecentlyUsed 3) [Call.push 1 10, Call.get 1]).2.telemetry =
      (demoConfig .LeastRecentlyUsed 3).telemetry ++
        [{ ConfigId := (demoConfig .LeastRecentlyUsed 3).ConfigId, Key := 1,
           IsInCache := (some (10 : Int)).isSome }] ∧
    (stateAfter (demoStart .LeastRecentlyUsed 3) telemetryScenario).2.telemetry.map
      (fun m => (m.Key, m.IsInCache)) = [(1, true), (2, false), (1, true), (2, false)] ∧
    (stateAfter (demoStart .MostRecentlyUsed 3) telemetryScenario).2.telemetry.map
      (fun m => (m.Key, m.IsInCache)) = [(1, true), (2, false), (1, true), (2, false)] ∧
    (stateAfter (demoStart .LeastFrequentlyUsed 3) telemetryScenario).2.telemetry.map
      (fun m => (m.Key, m.IsInCache)) = [(1, true), (2, false), (1, true), (2, false)] :=
  ⟨by decide,
   (telemetry_one_event_per_probe (demoConfig .LeastRecentlyUsed 3)
     (stateAfter (demoStart .LeastRecentlyUsed 3) [Call.push 1 10]).1 1 0).2.1 (some 10)
     (stateAfter (demoStart .LeastRecentlyUsed 3) [Call.push 1 10, Call.get 1]).1
     (stateAfter (demoStart .LeastRecentlyUsed 3) [Call.push 1 10, Call.get 1]).2
     (by decide),
   by decide, by decide, by decide⟩

/-! ## Pushing the same pair twice -/

theorem mapErase_mapErase {ν : Type} (m : List (Int × ν)) (k : Int) :
    mapErase (mapErase m k) k = mapErase m k := by
  unfold mapErase
  rw [List.filter_filter]
  simp

theorem mapSet_mapSet {ν : Type} (m : List (Int × ν)) (k : Int) (x y : ν) :
    mapSet (mapSet m k x) k y = mapSet m k y := by
  have h : mapErase ((k, x) :: mapErase m k) k = mapErase m k := by
    have h2 : mapErase ((k, x) :: mapErase m k) k = mapErase (mapErase m k) k := by
      unfold mapErase
      rw [List.filter_cons_of_neg (by simp)]
    rw [h2, mapErase_mapErase]
  unfold mapSet
  rw [h]

/-- What `Update` leaves for the key it moved, read off its definition. -/
theorem lfu_Update_shape (s s2 : LFUSmartCacheImpl) (k : Int)
    (h : LFUSmartCacheImpl.Update s k = some s2) :
    mapFind s2.m_lookupTable k = some s.nodes ∧
    mapFind s2.m_elementSequence k =
      some ((mapAt s.m_elementSequence k (0, 0)).1,
        int32Succ (mapAt s.m_elementSequence k (0, 0)).2) ∧
    (s.nodes, k) ∈ s2.bucket (int32Succ (mapAt s.m_elementSequence k (0, 0)).2) := by
  unfold LFUSmartCacheImpl.Update at h
  generalize mapAt s.m_elementSequence k (0, 0) = e at h ⊢
  cases hk : mapFind s.m_lookupTable k with
  | none => rw [hk] at h; cases h
  | some it =>
    rw [hk] at h
    dsimp only at h
    cases he : listErase (s.bucket e.2) it with
    | none => rw [he] at h; cases h
    | some erased =>
      rw [he] at h
      dsimp only at h
      have h2 := Option.some.inj h
      rw [← h2]
      refine ⟨?_, ?_, ?_⟩
      · show mapFind (mapSet s.m_lookupTable k s.nodes) k = some s.nodes
        rw [mapFind_set]; simp
      · show mapFind (mapSet s.m_elementSequence k _) k = _
        rw [mapFind_set]; simp
      · simp only [LFUSmartCacheImpl.bucket, mapAt_set]
        simp

/-- What `Push` leaves for the key it was given, read off its definition. -/
theorem lfu_Push_shape (s l1 : LFUSmartCacheImpl) (k v : Int)
    (h : LFUSmartCacheImpl.Push s k v = some l1) :
    ∃ it f, mapFind l1.m_lookupTable k = some it ∧
      mapFind l1.m_elementSequence k = some (v, f) ∧ (it, k) ∈ l1.bucket f := by
  unfold LFUSmartCacheImpl.Push at h
  cases hk : mapFind s.m_lookupTable k with
  | none =>
    simp only [hk] at h
    cases hev : LFUSmartCacheImpl.evict s with
    | none => simp [hev] at h
    | some s1 =>
      simp only [hev, Option.some.injEq] at h
      rw [← h]
      refine ⟨s1.nodes, 1, ?_, ?_, ?_⟩
      · show mapFind (mapSet s1.m_lookupTable k s1.nodes) k = some s1.nodes
        rw [mapFind_set]; simp
      · show mapFind (mapSet s1.m_elementSequence k (v, 1)) k = some (v, 1)
        rw [mapFind_set]; simp
      · simp only [LFUSmartCacheImpl.bucket, mapAt_set]
        simp
  | some it0 =>
    simp only [hk] at h
    cases hU : LFUSmartCacheImpl.Update s k with
    | none => simp [hU] at h
    | some s2 =>
      simp only [hU, Option.some.injEq] at h
      obtain ⟨h1, h2, h3⟩ := lfu_Update_shape s s2 k hU
      rw [← h]
      refine ⟨s.nodes, int32Succ (mapAt s.m_elementSequence k (0, 0)).2, h1, ?_, h3⟩
      show mapFind (mapSet s2.m_elementSequence k _) k = _
      rw [mapFind_set, mapAt_of_some _ _ _ _ h2]
      simp

/-- On a frequency store that holds `(k, v)`, a second `Push` of `(k, v)` and a `Get` of
`k` both return and leave the same store: the one `Update` leaves. -/
theorem lfu_second_push_is_get (cfg : ComponentConfig) (l1 : LFUSmartCacheImpl) (k v : Int)
    (it : Nat) (f : Int) (hk : mapFind l1.m_lookupTable k = some it)
    (he : mapFind l1.m_elementSequence k = some (v, f)) (hm : (it, k) ∈ l1.bucket f) :
    ∃ u, LFUSmartCacheImpl.Update l1 k = some u ∧
      LFUSmartCacheImpl.Push l1 k v = some u ∧
      LFUSmartCacheImpl.Get cfg l1 k =
        some (some v, u, (LFUSmartCacheImpl.Contains cfg l1 k).2) := by
  obtain ⟨u, hU, _, hE, _, _, _, _⟩ := lfu_Update_spec l1 k it v f hk he hm
  have he1 : mapFind u.m_elementSequence k = some (v, int32Succ f) := by
    rw [hE, mapFind_set]; simp
  have hfix : mapSet u.m_elementSequence k (v, int32Succ f) = u.m_elementSequence := by
    rw [hE, mapSet_mapSet]
  refine ⟨u, hU, ?_, ?_⟩
  · unfold LFUSmartCacheImpl.Push
    simp only [hk, hU, mapAt_of_some _ _ _ _ he1, hfix]
  · unfold LFUSmartCacheImpl.Get
    simp [LFUSmartCacheImpl.Contains, hk, hU, mapAt_of_some _ _ _ _ he1]
theorem mapEmplace_of_none {ν : Type} (m : List (Int × ν)) (k : Int) (v : ν)
    (h : mapFind m k = none) : mapEmplace m k v = (k, v) :: m := by
  unfold mapEmplace
  rw [h]

theorem filter_ne_of_fresh {α : Type} (l : StdList α) (n : Nat) (h : ∀ c, c ∈ l → c.1 < n) :
    l.filter (fun c => decide (c.1 ≠ n)) = l := by
  rw [List.filter_eq_self]
  intro c hc
  have := h c hc
  simp
  omega

theorem recFresh_reconfigure (cfg : ComponentConfig) (s : SmartCacheImpl)
    (hpol : cfg.EvictionPolicy ≠ CacheEvictionPolicy.LeastFrequentlyUsed) :
    RecFresh (SmartCacheImpl.Reconfigure cfg s) := by
  constructor
  · intro k it h
    simp [SmartCacheImpl.Reconfigure, hpol, mapFind] at h
  · intro c h
    simp [SmartCacheImpl.Reconfigure, hpol] at h

/-- The insertion at the end of the miss branch of `SmartCacheImpl::Push`. -/
theorem rec_insert_shape (s : SmartCacheImpl) (k v : Int) (order : StdList Int)
    (table : List (Int × Nat)) (hk : mapFind table k = none)
    (h1 : ∀ x it, mapFind table x = some it → it < s.nodes)
    (h2 : ∀ c, c ∈ order → c.1 < s.nodes) :
    RecFresh
      { s with
        m_elementSequence := (s.nodes, v) :: order
        m_lookupTable := mapEmplace table k s.nodes
        nodes := s.nodes + 1 } ∧
    mapFind (mapEmplace table k s.nodes) k = some s.nodes := by
  rw [mapEmplace_of_none _ _ _ hk]
  refine ⟨⟨?_, ?_⟩, ?_⟩
  · intro x it hx
    show it < s.nodes + 1
    change mapFind ((k, s.nodes) :: table) x = some it at hx
    rw [mapFind_cons] at hx
    by_cases hxk : k = x
    · simp [hxk] at hx; omega
    · simp only [hxk, if_false] at hx
      have := h1 x it hx
      omega
  · intro c hc
    show c.1 < s.nodes + 1
    change c ∈ (s.nodes, v) :: order at hc
    rw [List.mem_cons] at hc
    rcases hc with hc | hc
    · rw [hc]; simp
    · have := h2 c hc
      omega
  · rw [mapFind_cons]; simp

/-- What `SmartCacheImpl::Push` leaves under a policy other than LFU, when it returns:
the new entry is at the front of the list in a fresh node, and the index sends the key to
that node. -/
theorem rec_Push_shape (cfg : ComponentConfig) (s s1 : SmartCacheImpl) (k v : Int)
    (hpol : cfg.EvictionPolicy ≠ CacheEvictionPolicy.LeastFrequentlyUsed) (hf : RecFresh s)
    (h : SmartCacheImpl.Push cfg s k v = Outcome.ok s1) :
    RecFresh s1 ∧ mapFind s1.m_lookupTable k = some s.nodes ∧ s1.nodes = s.nodes + 1 ∧
      ∃ rest, s1.m_elementSequence = (s.nodes, v) :: rest ∧ ∀ c, c ∈ rest → c.1 < s.nodes := by
  unfold SmartCacheImpl.Push at h
  rw [if_neg hpol] at h
  cases hk : mapFind s.m_lookupTable k with
  | none =>
    rw [hk] at h
    dsimp only at h
    have herase : ∀ y, mapFind (mapErase s.m_lookupTable y) k = none := by
      intro y
      rw [mapFind_erase, hk]; simp
    have hfr : ∀ y x it, mapFind (mapErase s.m_lookupTable y) x = some it → it < s.nodes := by
      intro y x it hx
      rw [mapFind_erase] at hx
      by_cases hxy : x = y
      · simp [hxy] at hx
      · simp only [hxy, if_false] at hx
        exact hf.index x it hx
    by_cases hfull : (s.m_elementSequence.length : Int) = s.m_cacheSize
    · rw [if_pos hfull] at h
      by_cases hlru : cfg.EvictionPolicy = CacheEvictionPolicy.LeastRecentlyUsed
      · rw [if_pos hlru] at h
        cases hl : s.m_elementSequence.getLast? with
        | none => rw [hl] at h; cases h
        | some cell =>
          rw [hl] at h
          dsimp only at h
          have h2 := Outcome.ok.inj h
          have hsh := rec_insert_shape s k v s.m_elementSequence.dropLast
            (mapErase s.m_lookupTable cell.2) (herase _) (hfr _)
            (fun c hc => hf.order c (List.mem_of_mem_dropLast hc))
          rw [← h2]
          exact ⟨hsh.1, hsh.2, rfl, _, rfl,
            fun c hc => hf.order c (List.mem_of_mem_dropLast hc)⟩
      · rw [if_neg hlru] at h
        by_cases hmru : cfg.EvictionPolicy = CacheEvictionPolicy.MostRecentlyUsed
        · rw [if_pos hmru] at h
          cases hl : s.m_elementSequence with
          | nil => rw [hl] at h; cases h
          | cons cell rest =>
            rw [hl] at h
            dsimp only at h
            have h2 := Outcome.ok.inj h
            have hrest : ∀ c, c ∈ rest → c.1 < s.nodes := fun c hc =>
              hf.order c (by rw [hl]; exact List.mem_cons_of_mem _ hc)
            have hsh := rec_insert_shape s k v rest
              (mapErase s.m_lookupTable cell.2) (herase _) (hfr _) hrest
            rw [← h2]
            exact ⟨hsh.1, hsh.2, rfl, _, rfl, hrest⟩
        · rw [if_neg hmru] at h
          cases h
    · rw [if_neg hfull] at h
      have h2 := Outcome.ok.inj h
      have hsh := rec_insert_shape s k v s.m_elementSequence s.m_lookupTable hk hf.index
        hf.order
      rw [← h2]
      exact ⟨hsh.1, hsh.2, rfl, _, rfl, hf.order⟩
  | some it =>
    rw [hk] at h
    dsimp only at h
    have hit : it < s.nodes := hf.index k it hk
    cases he : listErase ((s.nodes, v) :: s.m_elementSequence) it with
    | none => rw [he] at h; cases h
    | some seq =>
      rw [he] at h
      dsimp only at h
      have h2 := Outcome.ok.inj h
      have hseq : seq = (s.nodes, v) ::
          s.m_elementSequence.filter (fun c => decide (c.1 ≠ it)) := by
        unfold listErase at he
        split_ifs at he with hmem
        have h3 := Option.some.inj he
        rw [← h3, List.filter_cons_of_pos]
        simp
        omega
      have hrest : ∀ c, c ∈ s.m_elementSequence.filter (fun c => decide (c.1 ≠ it)) →
          c.1 < s.nodes := fun c hc => hf.order c (List.mem_of_mem_filter hc)
      rw [← h2]
      refine ⟨⟨?_, ?_⟩, ?_, rfl, _, hseq, hrest⟩
      · intro x j hx
        show j < s.nodes + 1
        change mapFind (mapSet s.m_lookupTable k s.nodes) x = some j at hx
        rw [mapFind_set] at hx
        by_cases hxk : x = k
        · simp [hxk] at hx; omega
        · simp only [hxk, if_false] at hx
          have := hf.index x j hx
          omega
      · intro c hc
        show c.1 < s.nodes + 1
        change c ∈ seq at hc
        rw [hseq, List.mem_cons] at hc
        rcases hc with hc | hc
        · rw [hc]; simp
        · have := hrest c hc
          omega
      · show mapFind (mapSet s.m_lookupTable k s.nodes) k = some s.nodes
        rw [mapFind_set]; simp

/-- On a recency store whose front entry is `(k, v)` in node `n`, a second `Push` of
`(k, v)` and a `Get` of `k` both return and leave the same store. -/
theorem rec_second_push_is_get (cfg : ComponentConfig) (s1 : SmartCacheImpl) (k v : Int)
    (n : Nat) (rest : StdList Int)
    (hpol : cfg.EvictionPolicy ≠ CacheEvictionPolicy.LeastFrequentlyUsed)
    (hk : mapFind s1.m_lookupTable k = some n) (hn : s1.nodes = n + 1)
    (ho : s1.m_elementSequence = (n, v) :: rest) (hr : ∀ c, c ∈ rest → c.1 < n) :
    ∃ s2, SmartCacheImpl.Push cfg s1 k v = Outcome.ok s2 ∧
      SmartCacheImpl.Get cfg s1 k =
        Outcome.ok (some v, s2, (SmartCacheImpl.Contains cfg s1 k).2) := by
  have herase : listErase ((s1.nodes, v) :: s1.m_elementSequence) n =
      some ((s1.nodes, v) :: rest) := by
    rw [ho, listErase_of_mem _ n v (List.mem_cons_of_mem _ (List.mem_cons_self _ _))]
    rw [List.filter_cons_of_pos (by simp; omega), List.filter_cons_of_neg (by simp),
      filter_ne_of_fresh rest n hr]
  have hderef : listDeref s1.m_elementSequence n = some v := by
    rw [ho]; simp [listDeref]
  refine ⟨{ s1 with
      m_elementSequence := (s1.nodes, v) :: rest
      m_lookupTable := mapSet s1.m_lookupTable k s1.nodes
      nodes := s1.nodes + 1 }, ?_, ?_⟩
  · unfold SmartCacheImpl.Push
    rw [if_neg hpol, hk]
    dsimp only
    rw [herase]
  · unfold SmartCacheImpl.Get
    rw [if_neg hpol]
    simp [SmartCacheImpl.Contains, hpol, hk, hderef, herase]
theorem Contains_config (cfg : ComponentConfig) (s : SmartCacheImpl) (k : Int) :
    (SmartCacheImpl.Contains cfg s k).2 =
      cfg.SendTelemetryMessage
        { ConfigId := cfg.ConfigId, Key := k,
          IsInCache := (SmartCacheImpl.Contains cfg s k).1 } := by
  by_cases hpol : cfg.EvictionPolicy = CacheEvictionPolicy.LeastFrequentlyUsed
  · simp [SmartCacheImpl.Contains, hpol, LFUSmartCacheImpl.Contains]
  · simp [SmartCacheImpl.Contains, hpol]

theorem Get_config (cfg : ComponentConfig) (s : SmartCacheImpl) (k : Int) (r : Option Int)
    (s1 : SmartCacheImpl) (cfg1 : ComponentConfig)
    (hG : SmartCacheImpl.Get cfg s k = Outcome.ok (r, s1, cfg1)) :
    cfg1 = (SmartCacheImpl.Contains cfg s k).2 ∧
      r.isSome = (SmartCacheImpl.Contains cfg s k).1 := by
  by_cases hpol : cfg.EvictionPolicy = CacheEvictionPolicy.LeastFrequentlyUsed
  · simp only [SmartCacheImpl.Get, hpol, if_true, LFUSmartCacheImpl.Get] at hG
    simp only [SmartCacheImpl.Contains, hpol, if_true]
    cases hc : (LFUSmartCacheImpl.Contains cfg s.lfu k).1 with
    | false =>
      simp [hc] at hG
      obtain ⟨h1, _, h3⟩ := hG
      rw [← h1, ← h3]; simp
    | true =>
      simp only [hc, Bool.true_eq_false, if_false] at hG
      cases hU : LFUSmartCacheImpl.Update s.lfu k with
      | none => simp [hU] at hG
      | some l =>
        simp [hU] at hG
        obtain ⟨h1, _, h3⟩ := hG
        rw [← h1, ← h3]; simp
  · simp only [SmartCacheImpl.Get, hpol, if_false] at hG
    cases hc : (SmartCacheImpl.Contains cfg s k).1 with
    | false =>
      simp [hc] at hG
      obtain ⟨h1, _, h3⟩ := hG
      rw [← h1, ← h3]; simp
    | true =>
      simp only [hc, Bool.true_eq_false, if_false] at hG
      cases hk : mapFind s.m_lookupTable k with
      | none => simp [hk] at hG
      | some it =>
        simp only [hk] at hG
        cases hd : listDeref s.m_elementSequence it with
        | none => simp [hd] at hG
        | some w =>
          simp only [hd] at hG
          cases he : listErase ((s.nodes, w) :: s.m_elementSequence) it with
          | none => simp [he] at hG
          | some seq =>
            simp [he] at hG
            obtain ⟨h1, _, h3⟩ := hG
            rw [← h1, ← h3]; simp

/-- A call leaves the settings of the configuration object as they were. -/
theorem step_keeps_settings (sys : SmartCacheImpl × ComponentConfig) (c : Call)
    (r : Reply × SmartCacheImpl × ComponentConfig) (h : step sys c = Outcome.ok r) :
    r.2.2.EvictionPolicy = sys.2.EvictionPolicy ∧ r.2.2.CacheSize = sys.2.CacheSize ∧
      r.2.2.ConfigId = sys.2.ConfigId := by
  cases c with
  | contains key =>
    simp only [step] at h
    have h2 := Outcome.ok.inj h
    rw [← h2]
    show (SmartCacheImpl.Contains sys.2 sys.1 key).2.EvictionPolicy = _ ∧ _
    rw [Contains_config]
    exact ⟨rfl, rfl, rfl⟩
  | get key =>
    simp only [step] at h
    cases hG : SmartCacheImpl.Get sys.2 sys.1 key with
    | ok res =>
      obtain ⟨e, s1, cfg1⟩ := res
      rw [hG] at h
      have h2 := Outcome.ok.inj h
      rw [← h2]
      show cfg1.EvictionPolicy = _ ∧ _
      rw [(Get_config _ _ _ _ _ _ hG).1, Contains_config]
      exact ⟨rfl, rfl, rfl⟩
    | thrown s1 => rw [hG] at h; cases h
    | undefined => rw [hG] at h; cases h
  | push key value =>
    simp only [step] at h
    cases hP : SmartCacheImpl.Push sys.2 sys.1 key value with
    | ok s1 =>
      rw [hP] at h
      have h2 := Outcome.ok.inj h
      rw [← h2]
      exact ⟨rfl, rfl, rfl⟩
    | thrown s1 => rw [hP] at h; cases h
    | undefined => rw [hP] at h; cases h

theorem run_keeps_settings (calls : List Call) :
    ∀ (sys sys1 : SmartCacheImpl × ComponentConfig), run sys calls = Outcome.ok sys1 →
      sys1.2.EvictionPolicy = sys.2.EvictionPolicy ∧ sys1.2.CacheSize = sys.2.CacheSize ∧
        sys1.2.ConfigId = sys.2.ConfigId := by
  induction calls with
  | nil =>
    intro sys sys1 h
    simp only [run] at h
    rw [← Outcome.ok.inj h]
    exact ⟨rfl, rfl, rfl⟩
  | cons c cs ih =>
    intro sys sys1 h
    simp only [run] at h
    cases hs : step sys c with
    | ok r =>
      rw [hs] at h
      obtain ⟨a1, a2, a3⟩ := step_keeps_settings sys c r hs
      obtain ⟨b1, b2, b3⟩ := ih r.2 sys1 h
      exact ⟨b1.trans a1, b2.trans a2, b3.trans a3⟩
    | thrown s1 => rw [hs] at h; cases h
    | undefined => rw [hs] at h; cases h

theorem rec_Get_fresh (cfg : ComponentConfig) (s s1 : SmartCacheImpl) (k : Int)
    (r : Option Int) (cfg1 : ComponentConfig)
    (hpol : cfg.EvictionPolicy ≠ CacheEvictionPolicy.LeastFrequentlyUsed) (hf : RecFresh s)
    (hG : SmartCacheImpl.Get cfg s k = Outcome.ok (r, s1, cfg1)) : RecFresh s1 := by
  simp only [SmartCacheImpl.Get, hpol, if_false] at hG
  cases hc : (SmartCacheImpl.Contains cfg s k).1 with
  | false =>
    simp [hc] at hG
    rw [← hG.2.1]; exact hf
  | true =>
    simp only [hc, Bool.true_eq_false, if_false] at hG
    cases hk : mapFind s.m_lookupTable k with
    | none => simp [hk] at hG
    | some it =>
      simp only [hk] at hG
      cases hd : listDeref s.m_elementSequence it with
      | none => simp [hd] at hG
      | some w =>
        simp only [hd] at hG
        cases he : listErase ((s.nodes, w) :: s.m_elementSequence) it with
        | none => simp [he] at hG
        | some seq =>
          simp only [he, Outcome.ok.injEq, Prod.mk.injEq] at hG
          have hseq : ∀ c, c ∈ seq → c.1 < s.nodes + 1 := by
            intro c hc2
            unfold listErase at he
            split_ifs at he with hmem
            rw [← Option.some.inj he] at hc2
            have hc3 := List.mem_of_mem_filter hc2
            rw [List.mem_cons] at hc3
            rcases hc3 with hc3 | hc3
            · rw [hc3]; simp
            · have := hf.order c hc3
              omega
          rw [← hG.2.1]
          constructor
          · intro x j hx
            show j < s.nodes + 1
            change mapFind (mapSet s.m_lookupTable k s.nodes) x = some j at hx
            rw [mapFind_set] at hx
            by_cases hxk : x = k
            · simp [hxk] at hx; omega
            · simp only [hxk, if_false] at hx
              have := hf.index x j hx
              omega
          · exact hseq

theorem recFresh_step (sys : SmartCacheImpl × ComponentConfig) (c : Call)
    (r : Reply × SmartCacheImpl × ComponentConfig)
    (hpol : sys.2.EvictionPolicy ≠ CacheEvictionPolicy.LeastFrequentlyUsed)
    (hf : RecFresh sys.1) (h : step sys c = Outcome.ok r) : RecFresh r.2.1 := by
  cases c with
  | contains key =>
    simp only [step] at h
    rw [← Outcome.ok.inj h]
    exact hf
  | get key =>
    simp only [step] at h
    cases hG : SmartCacheImpl.Get sys.2 sys.1 key with
    | ok res =>
      obtain ⟨e, s1, cfg1⟩ := res
      rw [hG] at h
      rw [← Outcome.ok.inj h]
      exact rec_Get_fresh _ _ _ _ _ _ hpol hf hG
    | thrown s1 => rw [hG] at h; cases h
    | undefined => rw [hG] at h; cases h
  | push key value =>
    simp only [step] at h
    cases hP : SmartCacheImpl.Push sys.2 sys.1 key value with
    | ok s1 =>
      rw [hP] at h
      rw [← Outcome.ok.inj h]
      exact (rec_Push_shape _ _ _ _ _ hpol hf hP).1
    | thrown s1 => rw [hP] at h; cases h
    | undefined => rw [hP] at h; cases h

theorem recFresh_run (calls : List Call) :
    ∀ (sys sys1 : SmartCacheImpl × ComponentConfig),
      sys.2.EvictionPolicy ≠ CacheEvictionPolicy.LeastFrequentlyUsed → RecFresh sys.1 →
      run sys calls = Outcome.ok sys1 → RecFresh sys1.1 := by
  induction calls with
  | nil =>
    intro sys sys1 _ hf h
    simp only [run] at h
    rw [← Outcome.ok.inj h]
    exact hf
  | cons c cs ih =>
    intro sys sys1 hpol hf h
    simp only [run] at h
    cases hs : step sys c with
    | ok r =>
      rw [hs] at h
      have hp2 : r.2.2.EvictionPolicy ≠ CacheEvictionPolicy.LeastFrequentlyUsed := by
        rw [(step_keeps_settings sys c r hs).1]; exact hpol
      exact ih r.2 sys1 hp2 (recFresh_step sys c r hpol hf hs) h
    | thrown s1 => rw [hs] at h; cases h
    | undefined => rw [hs] at h; cases h

/-- A second push is a promotion wherever the first push returns: in every state reached
from `Reconfigure` by contains/get/push calls, under
every policy, when `Push` of `(k, v)` returns, a second `Push` of `(k, v)` returns as
well and leaves exactly the cache that a `Get` of `k` (a hit, which returns `v`) leaves
after the first `Push`: the same list order, index, values and, under LFU, the same
frequency lists, frequencies and `min_frequency`. -/
theorem push_twice_is_push_then_promotion
    (cfg : ComponentConfig) (s0 : SmartCacheImpl) (hist : List Call)
    (sys : SmartCacheImpl × ComponentConfig) (k v : Int) (s1 : SmartCacheImpl)
    (hrun : run (SmartCacheImpl.Reconfigure cfg s0, cfg) hist = Outcome.ok sys)
    (h1 : SmartCacheImpl.Push sys.2 sys.1 k v = Outcome.ok s1) :
    ∃ s2 cfg2, SmartCacheImpl.Push sys.2 s1 k v = Outcome.ok s2 ∧
      SmartCacheImpl.Get sys.2 s1 k = Outcome.ok (some v, s2, cfg2) := by
  have hset := (run_keeps_settings hist _ sys hrun).1
  by_cases hpol : sys.2.EvictionPolicy = CacheEvictionPolicy.LeastFrequentlyUsed
  · simp only [SmartCacheImpl.Push, hpol, if_true] at h1
    cases hP : LFUSmartCacheImpl.Push sys.1.lfu k v with
    | none => rw [hP] at h1; cases h1
    | some l1 =>
      rw [hP] at h1
      have hs1 := Outcome.ok.inj h1
      obtain ⟨it, f, hk, he, hm⟩ := lfu_Push_shape _ _ _ _ hP
      obtain ⟨u, _, hP2, hG2⟩ := lfu_second_push_is_get sys.2 l1 k v it f hk he hm
      have hl : s1.lfu = l1 := by rw [← hs1]
      refine ⟨{ s1 with lfu := u }, (LFUSmartCacheImpl.Contains sys.2 l1 k).2, ?_, ?_⟩
      · simp [SmartCacheImpl.Push, hpol, hl, hP2]
      · simp [SmartCacheImpl.Get, hpol, hl, hG2]
  · have hpol0 : cfg.EvictionPolicy ≠ CacheEvictionPolicy.LeastFrequentlyUsed := by
      intro h0
      exact hpol (hset.trans h0)
    have hf : RecFresh sys.1 :=
      recFresh_run hist _ sys hpol0 (recFresh_reconfigure cfg s0 hpol0) hrun
    obtain ⟨_, hk, hn, rest, ho, hr⟩ := rec_Push_shape _ _ _ _ _ hpol hf h1
    obtain ⟨s2, hP2, hG2⟩ := rec_second_push_is_get sys.2 s1 k v _ rest hpol hk hn ho hr
    exact ⟨s2, _, hP2, hG2⟩

/-- The second push at capacity 3 under LRU, MRU and LFU: after
`push(1,10); push(2,20)` (and `get(2)` under LFU), pushing `(1, 11)` twice leaves the
cache that pushing it once and getting key 1 leaves. -/
theorem push_twice_witness :
    (∃ s2 cfg2,
      SmartCacheImpl.Push (demoConfig .LeastRecentlyUsed 3)
        (stateAfter (demoStart .LeastRecentlyUsed 3)
          [Call.push 1 10, Call.push 2 20, Call.push 1 11]).1 1 11 = Outcome.ok s2 ∧
      SmartCacheImpl.Get (demoConfig .LeastRecentlyUsed 3)
        (stateAfter (demoStart .LeastRecentlyUsed 3)
          [Call.push 1 10, Call.push 2 20, Call.push 1 11]).1 1 =
        Outcome.ok (some 11, s2, cfg2)) ∧
    (∃ s2 cfg2,
      SmartCacheImpl.Push (demoConfig .MostRecentlyUsed 3)
        (stateAfter (demoStart .MostRecentlyUsed 3)
          [Call.push 1 10, Call.push 2 20, Call.push 1 11]).1 1 11 = Outcome.ok s2 ∧
      SmartCacheImpl.Get (demoConfig .MostRecentlyUsed 3)
        (stateAfter (demoStart .MostRecentlyUsed 3)
          [Call.push 1 10, Call.push 2 20, Call.push 1 11]).1 1 =
        Outcome.ok (some 11, s2, cfg2)) ∧
    (∃ s2 cfg2,
      SmartCacheImpl.Push (stateAfter (demoStart .LeastFrequentlyUsed 3)
          [Call.push 1 10, Call.push 2 20, Call.get 2]).2
        (stateAfter (demoStart .LeastFrequentlyUsed 3)
          [Call.push 1 10, Call.push 2 20, Call.get 2, Call.push 1 11]).1 1 11 =
        Outcome.ok s2 ∧
      SmartCacheImpl.Get (stateAfter (demoStart .LeastFrequentlyUsed 3)
          [Call.push 1 10, Call.push 2 20, Call.get 2]).2
        (stateAfter (demoStart .LeastFrequentlyUsed 3)
          [Call.push 1 10, Call.push 2 20, Call.get 2, Call.push 1 11]).1 1 =
        Outcome.ok (some 11, s2, cfg2)) :=
  ⟨push_twice_is_push_then_promotion (demoConfig .LeastRecentlyUsed 3)
     (demoCache .LeastRecentlyUsed 3) [Call.push 1 10, Call.push 2 20]
     (stateAfter (demoStart .LeastRecentlyUsed 3) [Call.push 1 10, Call.push 2 20]) 1 11
     (stateAfter (demoStart .LeastRecentlyUsed 3)
       [Call.push 1 10, Call.push 2 20, Call.push 1 11]).1 (by decide) (by decide),
   push_twice_is_push_then_promotion (demoConfig .MostRecentlyUsed 3)
     (demoCache .MostRecentlyUsed 3) [Call.push 1 10, Call.push 2 20]
     (stateAfter (demoStart .MostRecentlyUsed 3) [Call.push 1 10, Call.push 2 20]) 1 11
     (stateAfter (demoStart .MostRecentlyUsed 3)
       [Call.push 1 10, Call.push 2 20, Call.push 1 11]).1 (by decide) (by decide),
   push_twice_is_push_then_promotion (demoConfig .LeastFrequentlyUsed 3)
     (demoCache .LeastFrequentlyUsed 3) [Call.push 1 10, Call.push 2 20, Call.get 2]
     (stateAfter (demoStart .LeastFrequentlyUsed 3)
       [Call.push 1 10, Call.push 2 20, Call.get 2]) 1 11
     (stateAfter (demoStart .LeastFrequentlyUsed 3)
       [Call.push 1 10, Call.push 2 20, Call.get 2, Call.push 1 11]).1
     (by decide) (by decide)⟩

/-! ## The recency store when values equal keys -/

theorem cell_unique {α : Type} (l : StdList α) (h : (l.map Prod.fst).Nodup) (j : Nat)
    (x y : α) (hx : (j, x) ∈ l) (hy : (j, y) ∈ l) : x = y := by
  induction l with
  | nil => simp at hx
  | cons c l ih =>
    rw [List.map_cons, List.nodup_cons] at h
    rw [List.mem_cons] at hx hy
    rcases hx with hx | hx
    · rcases hy with hy | hy
      · have := hx.trans hy.symm
        exact congrArg Prod.snd this
      · exfalso
        apply h.1
        have hj : c.1 = j := (congrArg Prod.fst hx).symm
        rw [hj]
        exact List.mem_map_of_mem Prod.fst hy
    · rcases hy with hy | hy
      · exfalso
        apply h.1
        have hj : c.1 = j := (congrArg Prod.fst hy).symm
        rw [hj]
        exact List.mem_map_of_mem Prod.fst hx
      · exact ih h.2 hx hy

theorem length_filter_node {α : Type} (l : StdList α) (h : (l.map Prod.fst).Nodup) (it : Nat)
    (a : α) (hm : (it, a) ∈ l) :
    (l.filter (fun c => decide (c.1 ≠ it))).length + 1 = l.length := by
  induction l with
  | nil => simp at hm
  | cons c l ih =>
    rw [List.map_cons, List.nodup_cons] at h
    by_cases hc : c.1 = it
    · rw [List.filter_cons_of_neg (by simpa using hc)]
      have hrest : ∀ d, d ∈ l → d.1 < it ∨ it < d.1 := by
        intro d hd
        have : d.1 ≠ it := by
          intro h2
          apply h.1
          rw [hc, ← h2]
          exact List.mem_map_of_mem Prod.fst hd
        omega
      have : l.filter (fun c => decide (c.1 ≠ it)) = l := by
        rw [List.filter_eq_self]
        intro d hd
        have := hrest d hd
        simp
        omega
      rw [this]; simp
    · rw [List.filter_cons_of_pos (by simpa using hc)]
      rw [List.mem_cons] at hm
      rcases hm with hm | hm
      · exact absurd (congrArg Prod.fst hm).symm hc
      · have := ih h.2 hm
        simp only [List.length_cons]
        omega

theorem recInv_reconfigure (cfg : ComponentConfig) (s : SmartCacheImpl)
    (hpol : cfg.EvictionPolicy ≠ CacheEvictionPolicy.LeastFrequentlyUsed)
    (hC : 0 ≤ cfg.CacheSize) : RecInv (SmartCacheImpl.Reconfigure cfg s) := by
  refine ⟨recFresh_reconfigure cfg s hpol, ?_, ?_, ?_, ?_, ?_, ?_⟩
  · simp [SmartCacheImpl.Reconfigure, hpol]
  · simp [SmartCacheImpl.Reconfigure, hpol]
  · intro k it h
    simp [SmartCacheImpl.Reconfigure, hpol, mapFind] at h
  · intro it v h
    simp [SmartCacheImpl.Reconfigure, hpol] at h
  · simp [SmartCacheImpl.Reconfigure, hpol]
  · simpa [SmartCacheImpl.Reconfigure, hpol] using hC

theorem recInv_resident (s : SmartCacheImpl) (h : RecInv s) (x : Int) :
    mapFind s.m_lookupTable x ≠ none ↔ x ∈ s.values := by
  constructor
  · intro hx
    cases hm : mapFind s.m_lookupTable x with
    | none => exact absurd hm hx
    | some it =>
      exact List.mem_map_of_mem Prod.snd (h.cellOf x it hm)
  · intro hx hn
    obtain ⟨c, hc, hcx⟩ := List.mem_map.1 hx
    have := h.ofCell c.1 c.2 hc
    rw [hcx, hn] at this
    cases this

theorem recInv_values_nodup (s : SmartCacheImpl) (h : RecInv s) : s.values.Nodup := by
  unfold SmartCacheImpl.values
  refine List.Nodup.map_on ?_ (List.Nodup.of_map Prod.fst h.nodupI)
  intro a ha b hb hab
  have h1 := h.ofCell a.1 a.2 ha
  have h2 := h.ofCell b.1 b.2 hb
  rw [hab, h2] at h1
  exact Prod.ext (Option.some.inj h1).symm hab

/-- The move to the front that a `Get` hit and a `Push` of a resident key perform. -/
theorem recInv_promote (s : SmartCacheImpl) (h : RecInv s) (k : Int) (it : Nat)
    (hk : mapFind s.m_lookupTable k = some it) :
    RecInv
      { s with
        m_elementSequence :=
          (s.nodes, k) :: s.m_elementSequence.filter (fun c => decide (c.1 ≠ it))
        m_lookupTable := mapSet s.m_lookupTable k s.nodes
        nodes := s.nodes + 1 } := by
  have hcell := h.cellOf k it hk
  have hfilt : ∀ c, c ∈ s.m_elementSequence.filter (fun c => decide (c.1 ≠ it)) ↔
      c ∈ s.m_elementSequence ∧ c.2 ≠ k := by
    intro c
    simp only [List.mem_filter, decide_eq_true_eq]
    constructor
    · rintro ⟨hc, hn⟩
      refine ⟨hc, fun h2 => hn ?_⟩
      have h3 := h.ofCell c.1 c.2 hc
      rw [h2, hk] at h3
      exact (Option.some.inj h3).symm
    · rintro ⟨hc, hn⟩
      refine ⟨hc, fun h2 => hn ?_⟩
      have hc2 : (it, c.2) ∈ s.m_elementSequence := by rw [← h2]; exact hc
      exact cell_unique _ h.nodupI it c.2 k hc2 hcell
  refine ⟨⟨?_, ?_⟩, ?_, ?_, ?_, ?_, ?_, ?_⟩
  · intro x j hx
    show j < s.nodes + 1
    change mapFind (mapSet s.m_lookupTable k s.nodes) x = some j at hx
    rw [mapFind_set] at hx
    by_cases hxk : x = k
    · simp [hxk] at hx; omega
    · simp only [hxk, if_false] at hx
      have := h.fresh.index x j hx
      omega
  · intro c hc
    show c.1 < s.nodes + 1
    change c ∈ (s.nodes, k) :: _ at hc
    rw [List.mem_cons] at hc
    rcases hc with hc | hc
    · rw [hc]; simp
    · have := h.fresh.order c ((hfilt c).1 hc).1
      omega
  · exact nodup_mapSet _ _ _ h.nodupL
  · show (((s.nodes, k) :: s.m_elementSequence.filter (fun c => decide (c.1 ≠ it))).map
      Prod.fst).Nodup
    rw [List.map_cons, List.nodup_cons]
    refine ⟨?_, h.nodupI.sublist ((List.filter_sublist _).map Prod.fst)⟩
    intro hmem
    obtain ⟨c, hc, hc1⟩ := List.mem_map.1 hmem
    have := h.fresh.order c ((hfilt c).1 hc).1
    rw [hc1] at this
    exact absurd this (lt_irrefl _)
  · intro x j hx
    change mapFind (mapSet s.m_lookupTable k s.nodes) x = some j at hx
    show (j, x) ∈ (s.nodes, k) :: _
    rw [mapFind_set] at hx
    by_cases hxk : x = k
    · simp only [hxk, if_true, Option.some.injEq] at hx
      rw [hxk, ← hx]; exact List.mem_cons_self _ _
    · simp only [hxk, if_false] at hx
      exact List.mem_cons_of_mem _ ((hfilt (j, x)).2 ⟨h.cellOf x j hx, hxk⟩)
  · intro j v hv
    change (j, v) ∈ (s.nodes, k) :: _ at hv
    show mapFind (mapSet s.m_lookupTable k s.nodes) v = some j
    rw [mapFind_set]
    rw [List.mem_cons] at hv
    rcases hv with hv | hv
    · have hj : j = s.nodes := congrArg Prod.fst hv
      have hvk : v = k := congrArg Prod.snd hv
      rw [hvk, hj, if_pos rfl]
    · obtain ⟨hv1, hv2⟩ := (hfilt (j, v)).1 hv
      have hvk : v ≠ k := hv2
      rw [if_neg hvk]
      exact h.ofCell j v hv1
  · show (mapSet s.m_lookupTable k s.nodes).length =
      ((s.nodes, k) :: s.m_elementSequence.filter (fun c => decide (c.1 ≠ it))).length
    rw [length_mapSet_of_some _ _ _ _ h.nodupL hk, List.length_cons,
      length_filter_node _ h.nodupI it k hcell]
    exact h.sizeEq
  · show ((((s.nodes, k) :: s.m_elementSequence.filter (fun c => decide (c.1 ≠ it))).length :
      Nat) : Int) ≤ s.m_cacheSize
    rw [List.length_cons, length_filter_node _ h.nodupI it k hcell]
    exact h.sizeLe
/-- Dropping one cell of the list together with the index entry of the key it holds. -/
theorem recInv_remove (s : SmartCacheImpl) (h : RecInv s) (a b : StdList Int)
    (cell : Nat × Int) (ho : s.m_elementSequence = a ++ cell :: b) :
    RecInv
      { s with
        m_elementSequence := a ++ b
        m_lookupTable := mapErase s.m_lookupTable cell.2 } ∧
    (a ++ b).length + 1 = s.m_elementSequence.length := by
  have hcell : cell ∈ s.m_elementSequence := by rw [ho]; simp
  have hsub : ∀ c, c ∈ a ++ b → c ∈ s.m_elementSequence := by
    intro c hc
    rw [ho]
    rw [List.mem_append] at hc ⊢
    rcases hc with hc | hc
    · exact Or.inl hc
    · exact Or.inr (List.mem_cons_of_mem _ hc)
  have hnd : (a ++ cell :: b).Nodup := by
    rw [← ho]; exact List.Nodup.of_map Prod.fst h.nodupI
  have hnotin : cell ∉ a ++ b := by
    have h1 := List.nodup_middle.1 hnd
    rw [List.nodup_cons] at h1
    exact h1.1
  have hkey : mapFind s.m_lookupTable cell.2 = some cell.1 := h.ofCell cell.1 cell.2 hcell
  have hne : ∀ c, c ∈ a ++ b → c.2 ≠ cell.2 := by
    intro c hc h2
    have h3 := h.ofCell c.1 c.2 (hsub c hc)
    rw [h2, hkey] at h3
    have : cell = c := Prod.ext (Option.some.inj h3) h2.symm
    rw [this] at hnotin
    exact hnotin hc
  have hlen : (a ++ b).length + 1 = s.m_elementSequence.length := by
    rw [ho]; simp; omega
  refine ⟨⟨⟨?_, ?_⟩, ?_, ?_, ?_, ?_, ?_, ?_⟩, hlen⟩
  · intro x j hx
    change mapFind (mapErase s.m_lookupTable cell.2) x = some j at hx
    rw [mapFind_erase] at hx
    by_cases hxc : x = cell.2
    · simp [hxc] at hx
    · simp only [hxc, if_false] at hx
      exact h.fresh.index x j hx
  · intro c hc
    exact h.fresh.order c (hsub c hc)
  · exact nodup_mapErase _ _ h.nodupL
  · show ((a ++ b).map Prod.fst).Nodup
    have h1 := h.nodupI
    rw [ho] at h1
    refine h1.sublist (List.Sublist.map Prod.fst ?_)
    exact List.Sublist.append (List.Sublist.refl a) (List.sublist_cons_self cell b)
  · intro x j hx
    change mapFind (mapErase s.m_lookupTable cell.2) x = some j at hx
    show (j, x) ∈ a ++ b
    rw [mapFind_erase] at hx
    by_cases hxc : x = cell.2
    · simp [hxc] at hx
    · simp only [hxc, if_false] at hx
      have h1 := h.cellOf x j hx
      rw [ho, List.mem_append, List.mem_cons] at h1
      rw [List.mem_append]
      rcases h1 with h1 | h1 | h1
      · exact Or.inl h1
      · exact absurd (congrArg Prod.snd h1) hxc
      · exact Or.inr h1
  · intro j v hv
    change (j, v) ∈ a ++ b at hv
    show mapFind (mapErase s.m_lookupTable cell.2) v = some j
    rw [mapFind_erase, if_neg (hne (j, v) hv)]
    exact h.ofCell j v (hsub _ hv)
  · show (mapErase s.m_lookupTable cell.2).length = (a ++ b).length
    have h1 := length_mapErase_of_some _ _ _ h.nodupL hkey
    have h2 := h.sizeEq
    omega
  · show (((a ++ b).length : Nat) : Int) ≤ s.m_cacheSize
    have := h.sizeLe
    omega

/-- The insertion of a key that is not in the index, with room left. -/
theorem recInv_insert (s : SmartCacheImpl) (h : RecInv s) (k : Int)
    (hk : mapFind s.m_lookupTable k = none)
    (hlt : (s.m_elementSequence.length : Int) < s.m_cacheSize) :
    RecInv
      { s with
        m_elementSequence := (s.nodes, k) :: s.m_elementSequence
        m_lookupTable := mapEmplace s.m_lookupTable k s.nodes
        nodes := s.nodes + 1 } := by
  have hsh := rec_insert_shape s k k s.m_elementSequence s.m_lookupTable hk h.fresh.index
    h.fresh.order
  have hem := mapEmplace_of_none s.m_lookupTable k s.nodes hk
  have hnotin : ∀ c, c ∈ s.m_elementSequence → c.2 ≠ k := by
    intro c hc h2
    have := h.ofCell c.1 c.2 hc
    rw [h2, hk] at this
    cases this
  refine ⟨hsh.1, ?_, ?_, ?_, ?_, ?_, ?_⟩
  · show ((mapEmplace s.m_lookupTable k s.nodes).map Prod.fst).Nodup
    rw [hem, List.map_cons, List.nodup_cons]
    exact ⟨(mapFind_eq_none _ _).1 hk, h.nodupL⟩
  · show (((s.nodes, k) :: s.m_elementSequence).map Prod.fst).Nodup
    rw [List.map_cons, List.nodup_cons]
    refine ⟨?_, h.nodupI⟩
    intro hmem
    obtain ⟨c, hc, hc1⟩ := List.mem_map.1 hmem
    have := h.fresh.order c hc
    rw [hc1] at this
    exact absurd this (lt_irrefl _)
  · intro x j hx
    change mapFind (mapEmplace s.m_lookupTable k s.nodes) x = some j at hx
    show (j, x) ∈ (s.nodes, k) :: s.m_elementSequence
    rw [hem, mapFind_cons] at hx
    by_cases hxk : k = x
    · simp only [hxk, if_true, Option.some.injEq] at hx
      rw [← hx, ← hxk]; exact List.mem_cons_self _ _
    · simp only [hxk, if_false] at hx
      exact List.mem_cons_of_mem _ (h.cellOf x j hx)
  · intro j v hv
    change (j, v) ∈ (s.nodes, k) :: s.m_elementSequence at hv
    show mapFind (mapEmplace s.m_lookupTable k s.nodes) v = some j
    rw [hem, mapFind_cons]
    rw [List.mem_cons] at hv
    rcases hv with hv | hv
    · have hj : j = s.nodes := congrArg Prod.fst hv
      have hvk : v = k := congrArg Prod.snd hv
      rw [hvk, hj]; simp
    · have hvk : k ≠ v := fun h2 => hnotin _ hv h2.symm
      simp only [hvk, if_false]
      exact h.ofCell j v hv
  · show (mapEmplace s.m_lookupTable k s.nodes).length =
      ((s.nodes, k) :: s.m_elementSequence).length
    rw [hem, List.length_cons, List.length_cons, h.sizeEq]
  · show ((((s.nodes, k) :: s.m_elementSequence).length : Nat) : Int) ≤ s.m_cacheSize
    rw [List.length_cons]
    push_cast
    omega
theorem listDeref_mem {α : Type} (l : StdList α) (it : Nat) (w : α)
    (hd : listDeref l it = some w) : (it, w) ∈ l := by
  induction l with
  | nil => simp [listDeref] at hd
  | cons c l ih =>
    unfold listDeref at hd
    by_cases hc : c.1 = it
    · simp only [hc, if_true, Option.some.injEq] at hd
      have : c = (it, w) := Prod.ext hc hd
      rw [this]; exact List.mem_cons_self _ _
    · simp only [hc, if_false] at hd
      exact List.mem_cons_of_mem _ (ih hd)

theorem values_promote (s : SmartCacheImpl) (h : RecInv s) (k : Int) (it : Nat)
    (hk : mapFind s.m_lookupTable k = some it) :
    (s.m_elementSequence.filter (fun c => decide (c.1 ≠ it))).map Prod.snd =
      s.values.filter (fun x => decide (x ≠ k)) := by
  have hcell := h.cellOf k it hk
  unfold SmartCacheImpl.values
  rw [List.filter_map]
  congr 1
  apply List.filter_congr
  intro c hc
  simp only [Function.comp, decide_eq_decide]
  constructor
  · intro hn h2
    apply hn
    have h3 := h.ofCell c.1 c.2 hc
    rw [h2, hk] at h3
    exact (Option.some.inj h3).symm
  · intro hn h2
    apply hn
    have hc2 : (it, c.2) ∈ s.m_elementSequence := by rw [← h2]; exact hc
    exact cell_unique _ h.nodupI it c.2 k hc2 hcell

theorem rec_listErase_promote (s : SmartCacheImpl) (h : RecInv s) (k v : Int) (it : Nat)
    (hk : mapFind s.m_lookupTable k = some it) :
    listErase ((s.nodes, v) :: s.m_elementSequence) it =
      some ((s.nodes, v) :: s.m_elementSequence.filter (fun c => decide (c.1 ≠ it))) := by
  have hcell := h.cellOf k it hk
  have hit := h.fresh.index k it hk
  rw [listErase_of_mem _ it k (List.mem_cons_of_mem _ hcell),
    List.filter_cons_of_pos (by simp; omega)]

theorem rec_Get_absent (cfg : ComponentConfig) (s : SmartCacheImpl) (k : Int)
    (hpol : cfg.EvictionPolicy ≠ CacheEvictionPolicy.LeastFrequentlyUsed)
    (hk : mapFind s.m_lookupTable k = none) :
    SmartCacheImpl.Get cfg s k =
      Outcome.ok (none, s, (SmartCacheImpl.Contains cfg s k).2) := by
  unfold SmartCacheImpl.Get
  rw [if_neg hpol]
  simp [SmartCacheImpl.Contains, hpol, hk]

theorem rec_Get_resident (cfg : ComponentConfig) (s : SmartCacheImpl) (k : Int) (it : Nat)
    (hpol : cfg.EvictionPolicy ≠ CacheEvictionPolicy.LeastFrequentlyUsed) (h : RecInv s)
    (hk : mapFind s.m_lookupTable k = some it) :
    ∃ s1, SmartCacheImpl.Get cfg s k =
        Outcome.ok (some k, s1, (SmartCacheImpl.Contains cfg s k).2) ∧
      RecInv s1 ∧ s1.m_cacheSize = s.m_cacheSize ∧
      s1.values = k :: s.values.filter (fun x => decide (x ≠ k)) := by
  have hcell := h.cellOf k it hk
  have hderef : listDeref s.m_elementSequence it = some k := by
    cases hd : listDeref s.m_elementSequence it with
    | none =>
      exact absurd (List.mem_map_of_mem Prod.fst hcell) ((listDeref_eq_none _ _).1 hd)
    | some w =>
      have hw : (it, w) ∈ s.m_elementSequence := listDeref_mem _ it w hd
      rw [cell_unique _ h.nodupI it w k hw hcell]
  refine ⟨_, ?_, recInv_promote s h k it hk, rfl, ?_⟩
  · unfold SmartCacheImpl.Get
    rw [if_neg hpol]
    simp [SmartCacheImpl.Contains, hpol, hk, hderef, rec_listErase_promote s h k k it hk]
  · show ((s.nodes, k) :: s.m_elementSequence.filter (fun c => decide (c.1 ≠ it))).map
      Prod.snd = _
    rw [List.map_cons, values_promote s h k it hk]

theorem rec_Push_resident (cfg : ComponentConfig) (s : SmartCacheImpl) (k : Int) (it : Nat)
    (hpol : cfg.EvictionPolicy ≠ CacheEvictionPolicy.LeastFrequentlyUsed) (h : RecInv s)
    (hk : mapFind s.m_lookupTable k = some it) :
    ∃ s1, SmartCacheImpl.Push cfg s k k = Outcome.ok s1 ∧
      RecInv s1 ∧ s1.m_cacheSize = s.m_cacheSize ∧
      s1.values = k :: s.values.filter (fun x => decide (x ≠ k)) := by
  refine ⟨_, ?_, recInv_promote s h k it hk, rfl, ?_⟩
  · unfold SmartCacheImpl.Push
    rw [if_neg hpol, hk]
    dsimp only
    rw [rec_listErase_promote s h k k it hk]
  · show ((s.nodes, k) :: s.m_elementSequence.filter (fun c => decide (c.1 ≠ it))).map
      Prod.snd = _
    rw [List.map_cons, values_promote s h k it hk]

theorem rec_Push_absent (cfg : ComponentConfig) (s : SmartCacheImpl) (k : Int)
    (hpol : cfg.EvictionPolicy = CacheEvictionPolicy.LeastRecentlyUsed ∨
      cfg.EvictionPolicy = CacheEvictionPolicy.MostRecentlyUsed)
    (h : RecInv s) (hcap : 1 ≤ s.m_cacheSize) (hk : mapFind s.m_lookupTable k = none) :
    ∃ s1, SmartCacheImpl.Push cfg s k k = Outcome.ok s1 ∧
      RecInv s1 ∧ s1.m_cacheSize = s.m_cacheSize ∧
      s1.values = k ::
        (if (s.m_elementSequence.length : Int) = s.m_cacheSize then
          (if cfg.EvictionPolicy = CacheEvictionPolicy.LeastRecentlyUsed then s.values.dropLast
           else s.values.tail)
         else s.values) := by
  have hnl : cfg.EvictionPolicy ≠ CacheEvictionPolicy.LeastFrequentlyUsed := by
    rcases hpol with hp | hp <;> rw [hp] <;> decide
  have herase : ∀ y, mapFind (mapErase s.m_lookupTable y) k = none := by
    intro y
    rw [mapFind_erase, hk]; simp
  unfold SmartCacheImpl.Push
  rw [if_neg hnl, hk]
  dsimp only
  by_cases hfull : (s.m_elementSequence.length : Int) = s.m_cacheSize
  · rw [if_pos hfull, if_pos hfull]
    by_cases hlru : cfg.EvictionPolicy = CacheEvictionPolicy.LeastRecentlyUsed
    · rw [if_pos hlru, if_pos hlru]
      cases hl : s.m_elementSequence.getLast? with
      | none =>
        rw [List.getLast?_eq_none_iff] at hl
        rw [hl] at hfull
        simp at hfull
        omega
      | some cell =>
        dsimp only
        have hsplit : s.m_elementSequence.dropLast ++ [cell] = s.m_elementSequence :=
          List.dropLast_append_getLast? cell hl
        obtain ⟨hinv, hlen⟩ := recInv_remove s h s.m_elementSequence.dropLast [] cell
          hsplit.symm
        rw [List.append_nil] at hinv hlen
        have hins := recInv_insert _ hinv k (herase cell.2)
          (by show ((s.m_elementSequence.dropLast.length : Nat) : Int) < s.m_cacheSize; omega)
        refine ⟨_, rfl, hins, rfl, ?_⟩
        show ((s.nodes, k) :: s.m_elementSequence.dropLast).map Prod.snd = _
        rw [List.map_cons, List.map_dropLast]
        rfl
    · rw [if_neg hlru, if_neg hlru]
      have hmru : cfg.EvictionPolicy = CacheEvictionPolicy.MostRecentlyUsed := by
        rcases hpol with hp | hp
        · exact absurd hp hlru
        · exact hp
      rw [if_pos hmru]
      cases hl : s.m_elementSequence with
      | nil =>
        rw [hl] at hfull
        simp at hfull
        omega
      | cons cell rest =>
        dsimp only
        obtain ⟨hinv, hlen⟩ := recInv_remove s h [] rest cell (by rw [hl]; rfl)
        rw [List.nil_append] at hinv hlen
        have hins := recInv_insert _ hinv k (herase cell.2)
          (by show ((rest.length : Nat) : Int) < s.m_cacheSize; omega)
        refine ⟨_, rfl, hins, rfl, ?_⟩
        show ((s.nodes, k) :: rest).map Prod.snd = _
        rw [List.map_cons]
        simp [SmartCacheImpl.values, hl]
  · rw [if_neg hfull, if_neg hfull]
    have hlt : (s.m_elementSequence.length : Int) < s.m_cacheSize :=
      lt_of_le_of_ne h.sizeLe hfull
    exact ⟨_, rfl, recInv_insert s h k hk hlt, rfl, rfl⟩
/-- A `Get` hit through an iterator that designates an element, under a policy other than
LFU: the value is returned, a copy is put at the front in a fresh node, the old cell is
erased, and the index entry of the key is set to the new node; the other cells keep their
order and the other index entries are untouched. -/
theorem rec_Get_live (cfg : ComponentConfig) (s : SmartCacheImpl) (k v : Int) (it : Nat)
    (hpol : cfg.EvictionPolicy ≠ CacheEvictionPolicy.LeastFrequentlyUsed) (hf : RecFresh s)
    (hk : mapFind s.m_lookupTable k = some it)
    (hd : listDeref s.m_elementSequence it = some v) :
    SmartCacheImpl.Get cfg s k =
      Outcome.ok
        (some v,
         { s with
           m_elementSequence :=
             (s.nodes, v) :: s.m_elementSequence.filter (fun c => decide (c.1 ≠ it))
           m_lookupTable := mapSet s.m_lookupTable k s.nodes
           nodes := s.nodes + 1 },
         (SmartCacheImpl.Contains cfg s k).2) := by
  have hit := hf.index k it hk
  have he : listErase ((s.nodes, v) :: s.m_elementSequence) it =
      some ((s.nodes, v) :: s.m_elementSequence.filter (fun c => decide (c.1 ≠ it))) := by
    rw [listErase_of_mem _ it v (List.mem_cons_of_mem _ (listDeref_mem _ it v hd)),
      List.filter_cons_of_pos (by simp; omega)]
  unfold SmartCacheImpl.Get
  rw [if_neg hpol]
  simp [SmartCacheImpl.Contains, hpol, hk, hd, he]

/-- C13, evaluated at the failing input: policy LRU, capacity 1, after
`push(1,10); push(2,20)` key 1 is resident (`Contains` answers true; the eviction erased
key 10 from the index, not key 1), its iterator designates no element of the list, and
`Get(1)` dereferences it: the behaviour is undefined, no value is returned. -/
theorem get_resident_key_dead_iterator :
    run (demoStart .LeastRecentlyUsed 1) [Call.push 1 10, Call.push 2 20] =
      Outcome.ok (stateAfter (demoStart .LeastRecentlyUsed 1) [Call.push 1 10, Call.push 2 20]) ∧
    (SmartCacheImpl.Contains (demoConfig .LeastRecentlyUsed 1)
      (stateAfter (demoStart .LeastRecentlyUsed 1) [Call.push 1 10, Call.push 2 20]).1 1).1 =
      true ∧
    (stateAfter (demoStart .LeastRecentlyUsed 1)
      [Call.push 1 10, Call.push 2 20]).1.m_elementSequence = [(1, 20)] ∧
    mapFind (stateAfter (demoStart .LeastRecentlyUsed 1)
      [Call.push 1 10, Call.push 2 20]).1.m_lookupTable 1 = some 0 ∧
    SmartCacheImpl.Get (demoConfig .LeastRecentlyUsed 1)
      (stateAfter (demoStart .LeastRecentlyUsed 1) [Call.push 1 10, Call.push 2 20]).1 1 =
      Outcome.undefined := by
  decide

/-! ## Frequencies count hits -/

theorem resident_iff_frequency {hist : List Call} {s : LFUSmartCacheImpl} (h : LFUInv hist s)
    (x : Int) : (mapFind s.m_lookupTable x).isSome = true ↔ s.frequency x ≠ none := by
  rw [frequency_of_entries]
  constructor
  · intro h1 h2
    have h3 : mapFind s.m_elementSequence x = none := by
      cases hm : mapFind s.m_elementSequence x with
      | none => rfl
      | some e => rw [hm] at h2; cases h2
    rw [(h.core.keysEq x).2 h3] at h1
    cases h1
  · intro h1
    cases hm : mapFind s.m_lookupTable x with
    | none =>
      rw [(h.core.keysEq x).1 hm] at h1
      exact absurd rfl h1
    | some it => rfl

/-- What a hit does to the entries of the frequency store: the `Update` of a resident key
moves its frequency to the next `int` and leaves every other entry and every other index
entry. -/
theorem lfu_hit_frame {hist : List Call} {s : LFUSmartCacheImpl} (h : LFUInv hist s)
    (cfg : ComponentConfig) (k v : Int) (it : Nat)
    (hk : mapFind s.m_lookupTable k = some it) :
    (∃ r s1 cfg1, LFUSmartCacheImpl.Get cfg s k = some (r, s1, cfg1) ∧
      s1.frequency k = (s.frequency k).map int32Succ ∧
      ∀ x, x ≠ k → mapFind s1.m_elementSequence x = mapFind s.m_elementSequence x ∧
        mapFind s1.m_lookupTable x = mapFind s.m_lookupTable x) ∧
    (∃ s1, LFUSmartCacheImpl.Push s k v = some s1 ∧
      s1.frequency k = (s.frequency k).map int32Succ ∧
      ∀ x, x ≠ k → mapFind s1.m_elementSequence x = mapFind s.m_elementSequence x ∧
        mapFind s1.m_lookupTable x = mapFind s.m_lookupTable x) := by
  obtain ⟨s2, w, f, he, hU, _, hE, hL, _⟩ :=
    lfuInv_update h (Call.get k) k it hk (touches_get k)
  have he1 : mapFind s2.m_elementSequence k = some (w, int32Succ f) := by
    rw [hE, mapFind_set]; simp
  have hfk : s.frequency k = some f := by rw [frequency_of_entries, he]; rfl
  refine ⟨⟨some w, s2, (LFUSmartCacheImpl.Contains cfg s k).2, ?_, ?_, ?_⟩,
    ⟨{ s2 with m_elementSequence := mapSet s2.m_elementSequence k (v, int32Succ f) }, ?_, ?_, ?_⟩⟩
  · unfold LFUSmartCacheImpl.Get
    simp [LFUSmartCacheImpl.Contains, hk, hU, mapAt_of_some _ _ _ _ he1]
  · rw [hfk, frequency_of_entries, he1]; rfl
  · intro x hx
    rw [hE, hL, mapFind_set, mapFind_set, if_neg hx, if_neg hx]
    exact ⟨rfl, rfl⟩
  · unfold LFUSmartCacheImpl.Push
    simp only [hk, hU, mapAt_of_some _ _ _ _ he1]
  · rw [hfk, frequency_of_entries]
    show (mapFind (mapSet s2.m_elementSequence k (v, int32Succ f)) k).map Prod.snd = _
    rw [mapFind_set, if_pos rfl]; rfl
  · intro x hx
    show mapFind (mapSet s2.m_elementSequence k (v, int32Succ f)) x = _ ∧
      mapFind s2.m_lookupTable x = _
    rw [mapFind_set, if_neg hx, hE, hL, mapFind_set, mapFind_set, if_neg hx, if_neg hx]
    exact ⟨rfl, rfl⟩

theorem lfu_frequency_le {hist : List Call} {s : LFUSmartCacheImpl} (h : LFUInv hist s)
    (hlen : (hist.length : Int) ≤ 2147483647) (x f : Int) (hf : s.frequency x = some f) :
    1 ≤ f ∧ f ≤ (hist.length : Int) := by
  rw [frequency_of_entries] at hf
  cases hm : mapFind s.m_elementSequence x with
  | none => rw [hm] at hf; cases hf
  | some e =>
    rw [hm] at hf
    have hfx : e.2 = f := Option.some.inj hf
    cases hl : mapFind s.m_lookupTable x with
    | none => rw [(h.core.keysEq x).1 hl] at hm; cases hm
    | some it =>
      obtain ⟨w, g, hw, hmem⟩ := h.core.cellOf x it hl
      rw [hm] at hw
      have hg : e.2 = g := congrArg Prod.snd (Option.some.inj hw)
      have := (h.exact hlen).range g it x hmem
      omega

theorem hits_count_run {C : Int} (hC : 1 ≤ C) (key : Int) (calls : List Call) :
    ∀ (hist : List Call) (sys : SmartCacheImpl × ComponentConfig) (acc : Option Nat),
      LFUSys C hist sys →
      (hist.length : Int) + calls.length ≤ 2147483647 →
      sys.1.lfu.frequency key = acc.map (fun n => 1 + (n : Int)) →
      ∃ sys1, run sys calls = Outcome.ok sys1 ∧
        sys1.1.lfu.frequency key =
          (hitsSinceInsertion key sys calls acc).map (fun n => 1 + (n : Int)) := by
  induction calls with
  | nil =>
    intro hist sys acc _ _ hacc
    exact ⟨sys, rfl, hacc⟩
  | cons c cs ih =>
    intro hist sys acc h hlen hacc
    rw [List.length_cons] at hlen
    push_cast at hlen
    obtain ⟨r, hr, hsys⟩ := lfuSys_step h hC c
    have hfr := lfuSys_step_frequency h hC c r hr key
    have hres : ∀ (t : SmartCacheImpl × ComponentConfig) (hs : List Call), LFUSys C hs t →
        (t.1.resident t.2 key = true ↔ t.1.lfu.frequency key ≠ none) := by
      intro t hs ht
      rw [resident_lfu _ _ _ ht.policy]
      exact resident_iff_frequency ht.inv key
    have hres0 := hres sys hist h
    have hres1 := hres r.2 _ hsys
    have hacc1 : r.2.1.lfu.frequency key =
        (if c.touches key then
          (if sys.1.resident sys.2 key then acc.map (fun n => n + 1)
           else if r.2.1.resident r.2.2 key then some 0
           else none)
         else if r.2.1.resident r.2.2 key then acc
         else none).map (fun n => 1 + (n : Int)) := by
      cases ht : c.touches key with
      | true =>
        simp only [if_true]
        rcases hfr.2 ht with ⟨h1, h2⟩ | ⟨h1, h2⟩ | ⟨f, h1, h2⟩
        · have hn0 : ¬ sys.1.resident sys.2 key = true := by rw [hres0, h1]; simp
          have hn1 : ¬ r.2.1.resident r.2.2 key = true := by rw [hres1, h2]; simp
          rw [if_neg hn0, if_neg hn1, h2]; rfl
        · have hn0 : ¬ sys.1.resident sys.2 key = true := by rw [hres0, h1]; simp
          have hn1 : r.2.1.resident r.2.2 key = true := by rw [hres1, h2]; simp
          rw [if_neg hn0, if_pos hn1, h2]; rfl
        · have hn0 : sys.1.resident sys.2 key = true := by rw [hres0, h1]; simp
          rw [if_pos hn0, h2]
          rw [h1] at hacc
          cases acc with
          | none => cases hacc
          | some n =>
            have hacc2 : f = 1 + (n : Int) := Option.some.inj hacc
            have hfle := lfu_frequency_le h.inv (by omega) key f h1
            show some (int32Succ f) = some (1 + ((n + 1 : Nat) : Int))
            rw [int32Succ_of_lt f (by omega), hacc2]
            push_cast
            congr 1
      | false =>
        simp only [Bool.false_eq_true, if_false]
        by_cases hn1 : r.2.1.resident r.2.2 key = true
        · rw [if_pos hn1]
          rcases hfr.1 ht with h1 | h1
          · rw [h1]; exact hacc
          · exact absurd h1 (hres1.1 hn1)
        · rw [if_neg hn1]
          have : r.2.1.lfu.frequency key = none := by
            by_contra h2
            exact hn1 (hres1.2 h2)
          rw [this]; rfl
    obtain ⟨sys1, hrun, hfin⟩ := ih _ r.2 _ hsys
      (by rw [List.length_append]; push_cast; simp only [List.length_singleton, Nat.cast_one]
          omega) hacc1
    refine ⟨sys1, ?_, ?_⟩
    · simp only [run, hr]; exact hrun
    · simp only [hitsSinceInsertion, hr]; exact hfin

/-- Frequencies count hits while no counter has overflowed: under policy LFU with capacity
at least 1, after every sequence of fewer than `INT_MAX` contains/get/push calls that
follows `Reconfigure` (every call returns): the frequency
recorded for a key is 1 plus the number of its `get` hits and `push` updates since its most
recent insertion (`hitsSinceInsertion`), and no frequency is recorded while it is not
resident; a `get` or `push` of a resident key `k` returns, raises the frequency of `k` by
exactly one and leaves every other key's entry (value and frequency) and residency; and a
`contains` call returns and leaves the cache as it was. -/
theorem lfu_frequency_counts_hits
    (cfg : ComponentConfig) (s0 : SmartCacheImpl) (calls : List Call)
    (hpol : cfg.EvictionPolicy = CacheEvictionPolicy.LeastFrequentlyUsed)
    (hcap : 1 ≤ cfg.CacheSize) (hlen : (calls.length : Int) < 2147483647) :
    ∃ sys, run (SmartCacheImpl.Reconfigure cfg s0, cfg) calls = Outcome.ok sys ∧
      (∀ k, sys.1.lfu.frequency k =
        (hitsSinceInsertion k (SmartCacheImpl.Reconfigure cfg s0, cfg) calls none).map
          (fun n => 1 + (n : Int))) ∧
      (∀ k c, sys.1.resident sys.2 k = true → c.touches k = true →
        ∃ r, step sys c = Outcome.ok r ∧
          r.2.1.lfu.frequency k = (sys.1.lfu.frequency k).map (fun f => f + 1) ∧
          ∀ x, x ≠ k →
            mapFind r.2.1.lfu.m_elementSequence x = mapFind sys.1.lfu.m_elementSequence x ∧
            r.2.1.resident r.2.2 x = sys.1.resident sys.2 x) ∧
      (∀ k, ∃ r, step sys (Call.contains k) = Outcome.ok r ∧ r.2.1 = sys.1) := by
  have hstart := lfuSys_reconfigure cfg s0 hpol (by omega)
  obtain ⟨sys, hrun, hsys⟩ := lfuSys_run hcap calls [] _ hstart
  have hp := hsys.policy
  have hsucc : ∀ k, (sys.1.lfu.frequency k).map int32Succ =
      (sys.1.lfu.frequency k).map (fun f => f + 1) := by
    intro k
    cases hfk : sys.1.lfu.frequency k with
    | none => rfl
    | some f =>
      have hfle := lfu_frequency_le hsys.inv (by simp only [List.nil_append]; omega) k f hfk
      simp only [List.nil_append] at hfle
      show some (int32Succ f) = some (f + 1)
      rw [int32Succ_of_lt f (by omega)]
  refine ⟨sys, hrun, ?_, ?_, ?_⟩
  · intro k
    have h0 : (SmartCacheImpl.Reconfigure cfg s0, cfg).1.lfu.frequency k =
        (none : Option Nat).map (fun n => 1 + (n : Int)) := by
      simp [SmartCacheImpl.Reconfigure, hpol, LFUSmartCacheImpl.Reconfigure,
        LFUSmartCacheImpl.frequency, mapFind]
    obtain ⟨sys1, hrun1, hf⟩ := hits_count_run hcap k calls [] _ none hstart
      (by simp only [List.length_nil, Nat.cast_zero]; omega) h0
    rw [hrun] at hrun1
    rw [Outcome.ok.inj hrun1]
    exact hf
  · intro k c hres ht
    rw [resident_lfu _ _ _ hp] at hres
    cases hk : mapFind sys.1.lfu.m_lookupTable k with
    | none => rw [hk] at hres; cases hres
    | some it =>
      cases c with
      | contains key => simp [Call.touches] at ht
      | get key =>
        have hkey : k = key := (touches_get key k).1 ht
        subst hkey
        obtain ⟨⟨r0, s1, cfg1, hG, hf0, hx⟩, _⟩ := lfu_hit_frame hsys.inv sys.2 k 0 it hk
        have hf := hf0.trans (hsucc k)
        have hS : step sys (Call.get k) =
            Outcome.ok (Reply.element r0, { sys.1 with lfu := s1 }, cfg1) := by
          simp [step, SmartCacheImpl.Get, hp, hG]
        have hp1 : cfg1.EvictionPolicy = CacheEvictionPolicy.LeastFrequentlyUsed := by
          rw [(step_keeps_settings sys _ _ hS).1]; exact hp
        refine ⟨_, hS, hf, ?_⟩
        intro x hxk
        refine ⟨(hx x hxk).1, ?_⟩
        rw [resident_lfu _ _ _ hp, resident_lfu _ _ _ hp1]
        show (mapFind s1.m_lookupTable x).isSome = _
        rw [(hx x hxk).2]
      | push key value =>
        have hkey : k = key := (touches_push key value k).1 ht
        subst hkey
        obtain ⟨_, s1, hP, hf0, hx⟩ := lfu_hit_frame hsys.inv sys.2 k value it hk
        have hf := hf0.trans (hsucc k)
        have hS : step sys (Call.push k value) =
            Outcome.ok (Reply.done, { sys.1 with lfu := s1 }, sys.2) := by
          simp [step, SmartCacheImpl.Push, hp, hP]
        refine ⟨_, hS, hf, ?_⟩
        intro x hxk
        refine ⟨(hx x hxk).1, ?_⟩
        rw [resident_lfu _ _ _ hp, resident_lfu _ _ _ hp]
        show (mapFind s1.m_lookupTable x).isSome = _
        rw [(hx x hxk).2]
  · intro k
    exact ⟨_, rfl, rfl⟩

/-- The count of hits at scenario 3 of the specification (capacity 3): after
`push(1); push(2); push(3); get(1); get(1); get(2)` the frequencies are 1 -> 3, 2 -> 2,
3 -> 1, the hit counts are 2, 1, 0, and `min_frequency` is 1. -/
theorem lfu_frequency_witness :
    (∃ sys, run (SmartCacheImpl.Reconfigure (demoConfig .LeastFrequentlyUsed 3)
          (demoCache .LeastFrequentlyUsed 3), demoConfig .LeastFrequentlyUsed 3) lfuScenario =
        Outcome.ok sys ∧
      (∀ k, sys.1.lfu.frequency k =
        (hitsSinceInsertion k (SmartCacheImpl.Reconfigure (demoConfig .LeastFrequentlyUsed 3)
          (demoCache .LeastFrequentlyUsed 3), demoConfig .LeastFrequentlyUsed 3) lfuScenario
          none).map (fun n => 1 + (n : Int))) ∧
      (∀ k c, sys.1.resident sys.2 k = true → c.touches k = true →
        ∃ r, step sys c = Outcome.ok r ∧
          r.2.1.lfu.frequency k = (sys.1.lfu.frequency k).map (fun f => f + 1) ∧
          ∀ x, x ≠ k →
            mapFind r.2.1.lfu.m_elementSequence x = mapFind sys.1.lfu.m_elementSequence x ∧
            r.2.1.resident r.2.2 x = sys.1.resident sys.2 x) ∧
      (∀ k, ∃ r, step sys (Call.contains k) = Outcome.ok r ∧ r.2.1 = sys.1)) ∧
    [1, 2, 3, 4].map (stateAfter (demoStart .LeastFrequentlyUsed 3) lfuScenario).1.lfu.frequency =
      [some 3, some 2, some 1, none] ∧
    [1, 2, 3, 4].map (fun k => hitsSinceInsertion k (demoStart .LeastFrequentlyUsed 3)
      lfuScenario none) = [some 2, some 1, some 0, none] ∧
    (stateAfter (demoStart .LeastFrequentlyUsed 3) lfuScenario).1.lfu.min_frequency = 1 :=
  ⟨lfu_frequency_counts_hits (demoConfig .LeastFrequentlyUsed 3)
     (demoCache .LeastFrequentlyUsed 3) lfuScenario rfl (by decide) (by decide),
   by decide, by decide, by decide⟩

/-- What `Contains` reads and leaves: for every policy and every cache state, `Contains`
returns true exactly when the
key is in the index (`m_lookupTable`) of the store the policy selects, the cache after the
call is the cache before it (list and index of the recency store, the three maps,
`min_frequency` and all other fields of the frequency store), and the telemetry channel
has grown by the one message of the probe. -/
theorem contains_is_pure_read (sys : SmartCacheImpl × ComponentConfig) (k : Int) :
    step sys (Call.contains k) =
      Outcome.ok
        (Reply.isInCache
          (mapFind
            (if sys.2.EvictionPolicy = CacheEvictionPolicy.LeastFrequentlyUsed
             then sys.1.lfu.m_lookupTable else sys.1.m_lookupTable) k).isSome,
         sys.1,
         sys.2.SendTelemetryMessage
           { ConfigId := sys.2.ConfigId, Key := k,
             IsInCache :=
               (mapFind
                 (if sys.2.EvictionPolicy = CacheEvictionPolicy.LeastFrequentlyUsed
                  then sys.1.lfu.m_lookupTable else sys.1.m_lookupTable) k).isSome }) := by
  by_cases hpol : sys.2.EvictionPolicy = CacheEvictionPolicy.LeastFrequentlyUsed
  · simp [step, SmartCacheImpl.Contains, hpol, LFUSmartCacheImpl.Contains]
  · simp [step, SmartCacheImpl.Contains, hpol]

/-- The watermark while no counter has overflowed: under policy LFU with capacity at least
1, after every call of every sequence of at most `INT_MAX`
contains/get/push calls that follows `Reconfigure` (every call returns): when the
frequency store holds an entry, the list `m_KeySequence[min_frequency]` is not empty, the
list of every smaller frequency is empty, some resident key has frequency `min_frequency`
and no key has a smaller one. -/
theorem lfu_min_frequency_is_smallest
    (cfg : ComponentConfig) (s0 : SmartCacheImpl) (calls : List Call) (n : Nat)
    (hpol : cfg.EvictionPolicy = CacheEvictionPolicy.LeastFrequentlyUsed)
    (hcap : 1 ≤ cfg.CacheSize) (hlen : (calls.length : Int) ≤ 2147483647) :
    ∃ sys, run (SmartCacheImpl.Reconfigure cfg s0, cfg) (calls.take n) = Outcome.ok sys ∧
      (sys.1.lfu.m_elementSequence ≠ [] →
        sys.1.lfu.bucket sys.1.lfu.min_frequency ≠ [] ∧
        (∀ f, f < sys.1.lfu.min_frequency → sys.1.lfu.bucket f = []) ∧
        (∃ x, sys.1.resident sys.2 x = true ∧
          sys.1.lfu.frequency x = some sys.1.lfu.min_frequency) ∧
        (∀ x fx, sys.1.lfu.frequency x = some fx → sys.1.lfu.min_frequency ≤ fx)) := by
  obtain ⟨sys, hrun, hsys⟩ :=
    lfuSys_run hcap (calls.take n) [] _ (lfuSys_reconfigure cfg s0 hpol (by omega))
  refine ⟨sys, hrun, ?_⟩
  intro hne
  have hinv := hsys.inv
  have hlt : sys.1.lfu.m_lookupTable ≠ [] := by
    intro h0
    have h1 := hinv.core.sizeEq
    rw [h0] at h1
    exact hne (List.length_eq_zero.1 h1)
  have hmin1 := hinv.minOk hlt
  have hlen2 : (([] ++ calls.take n).length : Int) ≤ 2147483647 := by
    have h1 := List.length_take_le' n calls
    have h2 : ((calls.take n).length : Int) ≤ (calls.length : Int) := by exact_mod_cast h1
    simp only [List.nil_append]
    omega
  have hmin2 := (hinv.exact hlen2).lower hlt
  refine ⟨hmin1, hmin2, ?_, ?_⟩
  · cases hb : sys.1.lfu.bucket sys.1.lfu.min_frequency with
    | nil => exact absurd hb hmin1
    | cons c rest =>
      have hc : (c.1, c.2) ∈ sys.1.lfu.bucket sys.1.lfu.min_frequency := by
        rw [hb]; exact List.mem_cons_self _ _
      obtain ⟨h1, ⟨v, h2⟩⟩ := hinv.core.ofCell _ c.1 c.2 hc
      refine ⟨c.2, ?_, ?_⟩
      · rw [resident_lfu _ _ _ hsys.policy, h1]; rfl
      · rw [frequency_of_entries, h2]; rfl
  · intro x fx hx
    rw [frequency_of_entries] at hx
    cases hm : mapFind sys.1.lfu.m_elementSequence x with
    | none => rw [hm] at hx; cases hx
    | some e =>
      rw [hm] at hx
      have hfx : e.2 = fx := Option.some.inj hx
      cases hl : mapFind sys.1.lfu.m_lookupTable x with
      | none => rw [(hinv.core.keysEq x).1 hl] at hm; cases hm
      | some it =>
        obtain ⟨w, f, hw, hmem⟩ := hinv.core.cellOf x it hl
        rw [hm] at hw
        have hf : e.2 = f := congrArg Prod.snd (Option.some.inj hw)
        by_contra hlt2
        have := hmin2 f (by omega)
        rw [this] at hmem
        simp at hmem

/-- The watermark at scenario 3 of the specification, after its six calls and after
the evicting push: `min_frequency` is 1 and key 3, then key 4, has that frequency. -/
theorem lfu_min_frequency_witness :
    (∃ sys, run (SmartCacheImpl.Reconfigure (demoConfig .LeastFrequentlyUsed 3)
          (demoCache .LeastFrequentlyUsed 3), demoConfig .LeastFrequentlyUsed 3)
          ((lfuScenario ++ [Call.push 4 40]).take 6) = Outcome.ok sys ∧
      (sys.1.lfu.m_elementSequence ≠ [] →
        sys.1.lfu.bucket sys.1.lfu.min_frequency ≠ [] ∧
        (∀ f, f < sys.1.lfu.min_frequency → sys.1.lfu.bucket f = []) ∧
        (∃ x, sys.1.resident sys.2 x = true ∧
          sys.1.lfu.frequency x = some sys.1.lfu.min_frequency) ∧
        (∀ x fx, sys.1.lfu.frequency x = some fx → sys.1.lfu.min_frequency ≤ fx))) ∧
    (stateAfter (demoStart .LeastFrequentlyUsed 3) lfuScenario).1.lfu.min_frequency = 1 ∧
    (stateAfter (demoStart .LeastFrequentlyUsed 3) lfuScenario).1.lfu.frequency 3 = some 1 ∧
    (stateAfter (demoStart .LeastFrequentlyUsed 3)
      (lfuScenario ++ [Call.push 4 40])).1.lfu.min_frequency = 1 ∧
    (stateAfter (demoStart .LeastFrequentlyUsed 3)
      (lfuScenario ++ [Call.push 4 40])).1.lfu.frequency 4 = some 1 :=
  ⟨lfu_min_frequency_is_smallest (demoConfig .LeastFrequentlyUsed 3)
     (demoCache .LeastFrequentlyUsed 3) (lfuScenario ++ [Call.push 4 40]) 6 rfl (by decide)
     (by decide),
   by decide, by decide, by decide, by decide⟩

/-! ## The sizes of the frequency lists -/

theorem listsTotal_mapErase (m : List (Int × StdList Int)) (f : Int)
    (h : (m.map Prod.fst).Nodup) :
    listsTotal (mapErase m f) + (mapAt m f []).length = listsTotal m := by
  induction m with
  | nil => simp [listsTotal, mapErase, mapAt, mapFind]
  | cons e m ih =>
    rw [List.map_cons, List.nodup_cons] at h
    by_cases he : e.1 = f
    · have hnone : mapFind m f = none := by
        rw [mapFind_eq_none, ← he]; exact h.1
      have h1 : mapErase (e :: m) f = m := by
        have h2 := mapErase_of_none m f hnone
        unfold mapErase at h2 ⊢
        rw [List.filter_cons_of_neg (by simpa using he), h2]
      rw [h1]
      simp [listsTotal, mapAt, mapFind, he]
      omega
    · have h1 : mapErase (e :: m) f = e :: mapErase m f := by
        unfold mapErase
        rw [List.filter_cons_of_pos (by simpa using he)]
      have h2 : mapAt (e :: m) f [] = mapAt m f [] := by
        simp [mapAt, mapFind, he]
      rw [h1, h2]
      have := ih h.2
      simp only [listsTotal, List.map_cons, List.sum_cons] at this ⊢
      omega

theorem listsTotal_mapSet (m : List (Int × StdList Int)) (f : Int) (l : StdList Int)
    (h : (m.map Prod.fst).Nodup) :
    listsTotal (mapSet m f l) + (mapAt m f []).length = listsTotal m + l.length := by
  have := listsTotal_mapErase m f h
  unfold mapSet
  simp only [listsTotal, List.map_cons, List.sum_cons] at this ⊢
  omega

theorem lfu_bucket_nodup_ids {hist : List Call} {s : LFUSmartCacheImpl} (h : LFUCore hist s)
    (f : Int) : ((s.bucket f).map Prod.fst).Nodup := by
  rw [List.Nodup, List.pairwise_map]
  refine List.Pairwise.imp_of_mem ?_ (h.sorted f)
  intro a b ha hb hab h2
  have h3 := (h.ofCell f a.1 a.2 ha).1
  have h4 := (h.ofCell f b.1 b.2 hb).1
  rw [h2] at h3
  have := h.inj a.2 b.2 b.1 h3 h4
  rw [this] at hab
  exact absurd hab (lt_irrefl _)

theorem lfu_Update_keys (s : LFUSmartCacheImpl) (k : Int) (it : Nat) (v f : Int)
    (hk : mapFind s.m_lookupTable k = some it)
    (he : mapFind s.m_elementSequence k = some (v, f))
    (hm : (it, k) ∈ s.bucket f) :
    ∃ s1, LFUSmartCacheImpl.Update s k = some s1 ∧
      s1.m_KeySequence =
        mapSet (mapSet s.m_KeySequence f ((s.bucket f).filter (fun c => decide (c.1 ≠ it))))
          (int32Succ f) ((s.nodes, k) :: s.bucket (int32Succ f)) ∧
      s1.m_elementSequence = mapSet s.m_elementSequence k (v, int32Succ f) := by
  have hne : int32Succ f ≠ f := int32Succ_ne f
  unfold LFUSmartCacheImpl.Update
  simp only [hk, mapAt_of_some _ _ _ _ he, listErase_of_mem _ _ _ hm]
  refine ⟨_, rfl, ?_, rfl⟩
  show mapSet _ (int32Succ f) ((s.nodes, k) :: mapAt (mapSet s.m_KeySequence f _) (int32Succ f) []) = _
  rw [mapAt_set, if_neg hne]
  rfl

theorem lfuTotal_update {hist : List Call} {s : LFUSmartCacheImpl} (h : LFUInv hist s)
    (ht : LFUTotal s) (k : Int) (s1 : LFUSmartCacheImpl)
    (hU : LFUSmartCacheImpl.Update s k = some s1) : LFUTotal s1 := by
  cases hk : mapFind s.m_lookupTable k with
  | none =>
    unfold LFUSmartCacheImpl.Update at hU
    rw [hk] at hU
    cases hU
  | some it =>
    obtain ⟨v, f, he, hm⟩ := h.core.cellOf k it hk
    obtain ⟨s2, hU2, hK, hE⟩ := lfu_Update_keys s k it v f hk he hm
    rw [hU] at hU2
    have hs : s1 = s2 := Option.some.inj hU2
    rw [hs]
    have hne : int32Succ f ≠ f := int32Succ_ne f
    have hn1 := nodup_mapSet s.m_KeySequence f
      ((s.bucket f).filter (fun c => decide (c.1 ≠ it))) ht.nodupK
    constructor
    · rw [hK]; exact nodup_mapSet _ _ _ hn1
    · rw [hK, hE, length_mapSet_of_some _ _ _ _ h.core.nodupE he]
      have t1 := listsTotal_mapSet s.m_KeySequence f
        ((s.bucket f).filter (fun c => decide (c.1 ≠ it))) ht.nodupK
      have t2 := listsTotal_mapSet
        (mapSet s.m_KeySequence f ((s.bucket f).filter (fun c => decide (c.1 ≠ it))))
        (int32Succ f) ((s.nodes, k) :: s.bucket (int32Succ f)) hn1
      rw [mapAt_set, if_neg hne] at t2
      have t3 := length_filter_node (s.bucket f) (lfu_bucket_nodup_ids h.core f) it k hm
      have t4 := ht.total
      have t5 : (mapAt s.m_KeySequence f []).length = (s.bucket f).length := rfl
      have t6 : (mapAt s.m_KeySequence (int32Succ f) []).length = (s.bucket (int32Succ f)).length := rfl
      simp only [List.length_cons] at t2
      omega

theorem lfu_evict_eq (s : LFUSmartCacheImpl) (cell : Nat × Int)
    (hfull : (s.m_lookupTable.length : Int) = s.m_cacheSize)
    (hl : (s.bucket s.min_frequency).getLast? = some cell) :
    LFUSmartCacheImpl.evict s = some
      { s with
        m_KeySequence :=
          mapSet s.m_KeySequence s.min_frequency (s.bucket s.min_frequency).dropLast
        m_lookupTable := mapErase s.m_lookupTable cell.2
        m_elementSequence := mapErase s.m_elementSequence cell.2 } := by
  unfold LFUSmartCacheImpl.evict
  rw [if_pos hfull, hl]

theorem lfuTotal_evict {hist : List Call} {s : LFUSmartCacheImpl} (h : LFUInv hist s)
    (ht : LFUTotal s) (s1 : LFUSmartCacheImpl)
    (hev : LFUSmartCacheImpl.evict s = some s1) : LFUTotal s1 := by
  by_cases hfull : (s.m_lookupTable.length : Int) = s.m_cacheSize
  · cases hl : (s.bucket s.min_frequency).getLast? with
    | none =>
      unfold LFUSmartCacheImpl.evict at hev
      rw [if_pos hfull, hl] at hev
      cases hev
    | some cell =>
      rw [lfu_evict_eq s cell hfull hl] at hev
      rw [← Option.some.inj hev]
      have hcell : cell ∈ s.bucket s.min_frequency := List.mem_of_getLast?_eq_some hl
      obtain ⟨_, ⟨vv, hve⟩⟩ := h.core.ofCell _ cell.1 cell.2 hcell
      constructor
      · exact nodup_mapSet _ _ _ ht.nodupK
      · show listsTotal (mapSet s.m_KeySequence s.min_frequency
          (s.bucket s.min_frequency).dropLast) = (mapErase s.m_elementSequence cell.2).length
        have t1 := listsTotal_mapSet s.m_KeySequence s.min_frequency
          (s.bucket s.min_frequency).dropLast ht.nodupK
        have t2 := length_mapErase_of_some _ _ _ h.core.nodupE hve
        have t3 : (mapAt s.m_KeySequence s.min_frequency []).length =
            (s.bucket s.min_frequency).length := rfl
        have t4 : 0 < (s.bucket s.min_frequency).length := List.length_pos_of_mem hcell
        have t5 := ht.total
        rw [List.length_dropLast] at t1
        omega
  · rw [lfu_evict_of_ne s hfull] at hev
    rw [← Option.some.inj hev]
    exact ht

theorem lfuTotal_push {hist : List Call} {s : LFUSmartCacheImpl} (h : LFUInv hist s)
    (ht : LFUTotal s) (k v : Int) (s1 : LFUSmartCacheImpl)
    (hP : LFUSmartCacheImpl.Push s k v = some s1) : LFUTotal s1 := by
  unfold LFUSmartCacheImpl.Push at hP
  cases hk : mapFind s.m_lookupTable k with
  | none =>
    rw [hk] at hP
    dsimp only at hP
    cases hev : LFUSmartCacheImpl.evict s with
    | none => rw [hev] at hP; cases hP
    | some s2 =>
      rw [hev] at hP
      dsimp only at hP
      rw [← Option.some.inj hP]
      have ht2 := lfuTotal_evict h ht s2 hev
      have hk2 : mapFind s2.m_elementSequence k = none := by
        have hke : mapFind s.m_elementSequence k = none := (h.core.keysEq k).1 hk
        by_cases hfull : (s.m_lookupTable.length : Int) = s.m_cacheSize
        · cases hl : (s.bucket s.min_frequency).getLast? with
          | none =>
            unfold LFUSmartCacheImpl.evict at hev
            rw [if_pos hfull, hl] at hev
            cases hev
          | some cell =>
            rw [lfu_evict_eq s cell hfull hl] at hev
            rw [← Option.some.inj hev]
            show mapFind (mapErase s.m_elementSequence cell.2) k = none
            rw [mapFind_erase, hke]; simp
        · rw [lfu_evict_of_ne s hfull] at hev
          rw [← Option.some.inj hev]
          exact hke
      constructor
      · exact nodup_mapSet _ _ _ ht2.nodupK
      · show listsTotal (mapSet s2.m_KeySequence 1 ((s2.nodes, k) :: s2.bucket 1)) =
          (mapSet s2.m_elementSequence k (v, 1)).length
        have t1 := listsTotal_mapSet s2.m_KeySequence 1 ((s2.nodes, k) :: s2.bucket 1)
          ht2.nodupK
        have t2 := length_mapSet_of_none s2.m_elementSequence k (v, 1) hk2
        have t3 : (mapAt s2.m_KeySequence 1 []).length = (s2.bucket 1).length := rfl
        have t4 := ht2.total
        simp only [List.length_cons] at t1
        omega
  | some it =>
    rw [hk] at hP
    dsimp only at hP
    cases hU : LFUSmartCacheImpl.Update s k with
    | none => rw [hU] at hP; cases hP
    | some s2 =>
      rw [hU] at hP
      dsimp only at hP
      rw [← Option.some.inj hP]
      have ht2 := lfuTotal_update h ht k s2 hU
      obtain ⟨s3, w, f, he, hU3, hinv, hE, _, _⟩ :=
        lfuInv_update h (Call.push k v) k it hk (touches_push k v)
      rw [hU] at hU3
      have hs : s2 = s3 := Option.some.inj hU3
      have he1 : mapFind s2.m_elementSequence k = some (w, int32Succ f) := by
        rw [hs, hE, mapFind_set]; simp
      constructor
      · exact ht2.nodupK
      · show listsTotal s2.m_KeySequence = (mapSet s2.m_elementSequence k _).length
        rw [length_mapSet_of_some _ _ _ _ (by rw [hs]; exact hinv.core.nodupE) he1]
        exact ht2.total
theorem lfuTotal_step {C : Int} {hist : List Call} {sys : SmartCacheImpl × ComponentConfig}
    (h : LFUSys C hist sys) (hC : 1 ≤ C) (ht : LFUTotal sys.1.lfu) (c : Call)
    (r : Reply × SmartCacheImpl × ComponentConfig) (hr : step sys c = Outcome.ok r) :
    LFUTotal r.2.1.lfu := by
  have hpol := h.policy
  cases c with
  | contains key =>
    simp only [step] at hr
    rw [← Outcome.ok.inj hr]
    exact ht
  | get key =>
    obtain ⟨r0, s1, cfg1, hG, _⟩ := lfuInv_get h.inv sys.2 key
    have hS : step sys (Call.get key) =
        Outcome.ok (Reply.element r0, { sys.1 with lfu := s1 }, cfg1) := by
      simp [step, SmartCacheImpl.Get, hpol, hG]
    rw [hS] at hr
    rw [← Outcome.ok.inj hr]
    show LFUTotal s1
    unfold LFUSmartCacheImpl.Get at hG
    by_cases hc : (LFUSmartCacheImpl.Contains sys.2 sys.1.lfu key).1 = false
    · rw [if_pos hc] at hG
      have h2 := Option.some.inj hG
      have h3 : sys.1.lfu = s1 := congrArg (fun t => t.2.1) h2
      rw [← h3]; exact ht
    · rw [if_neg hc] at hG
      cases hU : LFUSmartCacheImpl.Update sys.1.lfu key with
      | none => rw [hU] at hG; cases hG
      | some s2 =>
        rw [hU] at hG
        have h2 := Option.some.inj hG
        have h3 : s2 = s1 := congrArg (fun t => t.2.1) h2
        rw [← h3]
        exact lfuTotal_update h.inv ht key s2 hU
  | push key value =>
    obtain ⟨s1, hP, _⟩ := lfuInv_push h.inv (by rw [h.cap]; exact hC) key value
    have hS : step sys (Call.push key value) =
        Outcome.ok (Reply.done, { sys.1 with lfu := s1 }, sys.2) := by
      simp [step, SmartCacheImpl.Push, hpol, hP]
    rw [hS] at hr
    rw [← Outcome.ok.inj hr]
    exact lfuTotal_push h.inv ht key value s1 hP

theorem lfuTotal_run {C : Int} (hC : 1 ≤ C) (calls : List Call) :
    ∀ (hist : List Call) (sys : SmartCacheImpl × ComponentConfig), LFUSys C hist sys →
      LFUTotal sys.1.lfu →
      ∃ sys1, run sys calls = Outcome.ok sys1 ∧ LFUSys C (hist ++ calls) sys1 ∧
        LFUTotal sys1.1.lfu := by
  induction calls with
  | nil =>
    intro hist sys h ht
    exact ⟨sys, rfl, by simpa using h, ht⟩
  | cons c cs ih =>
    intro hist sys h ht
    obtain ⟨r, hr, hsys⟩ := lfuSys_step h hC c
    obtain ⟨sys1, hrun, hinv, ht1⟩ := ih (hist ++ [c]) r.2 hsys (lfuTotal_step h hC ht c r hr)
    refine ⟨sys1, ?_, by simpa using hinv, ht1⟩
    simp only [run, hr]
    exact hrun

theorem listDeref_of_mem {α : Type} (l : StdList α) (h : (l.map Prod.fst).Nodup) (it : Nat)
    (x : α) (hm : (it, x) ∈ l) : listDeref l it = some x := by
  cases hd : listDeref l it with
  | none => exact absurd (List.mem_map_of_mem Prod.fst hm) ((listDeref_eq_none _ _).1 hd)
  | some w => rw [cell_unique l h it w x (listDeref_mem l it w hd) hm]

/-- C17: under policy LFU with capacity at least 1, after every call of every sequence of
contains/get/push calls that follows `Reconfigure` (every call returns), the three maps of
the frequency store agree: a key is in `m_elementSequence` exactly when it is in
`m_lookupTable`, exactly when some frequency list holds it; the iterator of a resident key
designates that key in the list of its recorded frequency, its cell occurs once in that
list and no other list holds the key; the sizes of the frequency lists sum to the number
of entries, which is the number of index entries. -/
theorem lfu_indices_agree
    (cfg : ComponentConfig) (s0 : SmartCacheImpl) (calls : List Call) (n : Nat)
    (hpol : cfg.EvictionPolicy = CacheEvictionPolicy.LeastFrequentlyUsed)
    (hcap : 1 ≤ cfg.CacheSize) :
    ∃ sys, run (SmartCacheImpl.Reconfigure cfg s0, cfg) (calls.take n) = Outcome.ok sys ∧
      (∀ x, (mapFind sys.1.lfu.m_elementSequence x ≠ none ↔
          mapFind sys.1.lfu.m_lookupTable x ≠ none) ∧
        (mapFind sys.1.lfu.m_lookupTable x ≠ none ↔
          ∃ f it, (it, x) ∈ sys.1.lfu.bucket f)) ∧
      (∀ x it v f, mapFind sys.1.lfu.m_lookupTable x = some it →
        mapFind sys.1.lfu.m_elementSequence x = some (v, f) →
        listDeref (sys.1.lfu.bucket f) it = some x ∧
        (sys.1.lfu.bucket f).countP (fun c => decide (c = (it, x))) = 1 ∧
        ∀ g c, c ∈ sys.1.lfu.bucket g → c.2 = x → g = f ∧ c = (it, x)) ∧
      listsTotal sys.1.lfu.m_KeySequence = sys.1.lfu.m_elementSequence.length ∧
      sys.1.lfu.m_elementSequence.length = sys.1.lfu.m_lookupTable.length := by
  have hstart := lfuSys_reconfigure cfg s0 hpol (by omega)
  have ht0 : LFUTotal (SmartCacheImpl.Reconfigure cfg s0, cfg).1.lfu := by
    constructor
    · simp [SmartCacheImpl.Reconfigure, hpol, LFUSmartCacheImpl.Reconfigure]
    · simp [SmartCacheImpl.Reconfigure, hpol, LFUSmartCacheImpl.Reconfigure, listsTotal]
  obtain ⟨sys, hrun, hsys, ht⟩ := lfuTotal_run hcap (calls.take n) [] _ hstart ht0
  have hcore := hsys.inv.core
  refine ⟨sys, hrun, ?_, ?_, ht.total, hcore.sizeEq⟩
  · intro x
    refine ⟨?_, ?_⟩
    · rw [not_iff_not]
      exact (hcore.keysEq x).symm
    · constructor
      · intro hx
        cases hl : mapFind sys.1.lfu.m_lookupTable x with
        | none => exact absurd hl hx
        | some it =>
          obtain ⟨v, f, _, hm⟩ := hcore.cellOf x it hl
          exact ⟨f, it, hm⟩
      · rintro ⟨f, it, hm⟩ h0
        rw [(hcore.ofCell f it x hm).1] at h0
        cases h0
  · intro x it v f hl he
    obtain ⟨v2, f2, he2, hm⟩ := hcore.cellOf x it hl
    rw [he] at he2
    have hf : f = f2 := congrArg Prod.snd (Option.some.inj he2)
    rw [← hf] at hm
    have hnd := lfu_bucket_nodup_ids hcore f
    refine ⟨listDeref_of_mem _ hnd it x hm,
      List.count_eq_one_of_mem (List.Nodup.of_map Prod.fst hnd) hm, ?_⟩
    intro g c hc hcx
    obtain ⟨h1, ⟨w, h2⟩⟩ := hcore.ofCell g c.1 c.2 hc
    rw [hcx] at h1 h2
    rw [hl] at h1
    rw [he] at h2
    have hg : f = g := congrArg Prod.snd (Option.some.inj h2)
    exact ⟨hg.symm, Prod.ext (Option.some.inj h1).symm hcx⟩

/-- The theorem of C17 at scenario 3 of the specification after its six calls, where the
frequency map is `1 -> [3], 2 -> [2], 3 -> [1]` and the three sizes are 3. -/
theorem lfu_indices_witness :
    (∃ sys, run (SmartCacheImpl.Reconfigure (demoConfig .LeastFrequentlyUsed 3)
          (demoCache .LeastFrequentlyUsed 3), demoConfig .LeastFrequentlyUsed 3)
          (lfuScenario.take 6) = Outcome.ok sys ∧
      (∀ x, (mapFind sys.1.lfu.m_elementSequence x ≠ none ↔
          mapFind sys.1.lfu.m_lookupTable x ≠ none) ∧
        (mapFind sys.1.lfu.m_lookupTable x ≠ none ↔
          ∃ f it, (it, x) ∈ sys.1.lfu.bucket f)) ∧
      (∀ x it v f, mapFind sys.1.lfu.m_lookupTable x = some it →
        mapFind sys.1.lfu.m_elementSequence x = some (v, f) →
        listDeref (sys.1.lfu.bucket f) it = some x ∧
        (sys.1.lfu.bucket f).countP (fun c => decide (c = (it, x))) = 1 ∧
        ∀ g c, c ∈ sys.1.lfu.bucket g → c.2 = x → g = f ∧ c = (it, x)) ∧
      listsTotal sys.1.lfu.m_KeySequence = sys.1.lfu.m_elementSequence.length ∧
      sys.1.lfu.m_elementSequence.length = sys.1.lfu.m_lookupTable.length) ∧
    [1, 2, 3].map (fun f => ((stateAfter (demoStart .LeastFrequentlyUsed 3)
      lfuScenario).1.lfu.bucket f).map Prod.snd) = [[3], [2], [1]] ∧
    listsTotal (stateAfter (demoStart .LeastFrequentlyUsed 3) lfuScenario).1.lfu.m_KeySequence =
      3 ∧
    (stateAfter (demoStart .LeastFrequentlyUsed 3) lfuScenario).1.lfu.m_elementSequence.length =
      3 ∧
    (stateAfter (demoStart .LeastFrequentlyUsed 3) lfuScenario).1.lfu.m_lookupTable.length = 3 :=
  ⟨lfu_indices_agree (demoConfig .LeastFrequentlyUsed 3)
     (demoCache .LeastFrequentlyUsed 3) lfuScenario 6 rfl (by decide),
   by decide, by decide, by decide, by decide⟩

theorem not_lfu_of_recency (p : CacheEvictionPolicy)
    (h : p = CacheEvictionPolicy.LeastRecentlyUsed ∨ p = CacheEvictionPolicy.MostRecentlyUsed) :
    p ≠ CacheEvictionPolicy.LeastFrequentlyUsed := by
  rcases h with h | h <;> rw [h] <;> decide

theorem resident_rec (cfg : ComponentConfig) (s : SmartCacheImpl) (x : Int)
    (hpol : cfg.EvictionPolicy ≠ CacheEvictionPolicy.LeastFrequentlyUsed) :
    s.resident cfg x = (mapFind s.m_lookupTable x).isSome := by
  simp [SmartCacheImpl.resident, SmartCacheImpl.Contains, hpol]

theorem resident_iff_value (cfg : ComponentConfig) (s : SmartCacheImpl) (x : Int)
    (hpol : cfg.EvictionPolicy ≠ CacheEvictionPolicy.LeastFrequentlyUsed) (h : RecInv s) :
    s.resident cfg x = true ↔ x ∈ s.values := by
  rw [resident_rec cfg s x hpol, ← recInv_resident s h x]
  cases mapFind s.m_lookupTable x <;> simp

theorem recSys_reconfigure (cfg : ComponentConfig) (s0 : SmartCacheImpl)
    (hpol : cfg.EvictionPolicy = CacheEvictionPolicy.LeastRecentlyUsed ∨
      cfg.EvictionPolicy = CacheEvictionPolicy.MostRecentlyUsed)
    (hC : 0 ≤ cfg.CacheSize) :
    RecSys cfg.CacheSize (SmartCacheImpl.Reconfigure cfg s0, cfg) := by
  have hnl := not_lfu_of_recency _ hpol
  refine ⟨hpol, ?_, recInv_reconfigure cfg s0 hnl hC⟩
  simp [SmartCacheImpl.Reconfigure, hnl]

theorem recSys_step {C : Int} {sys : SmartCacheImpl × ComponentConfig} (h : RecSys C sys)
    (hC : 1 ≤ C) (c : Call) (hc : c.keyed) :
    ∃ r, step sys c = Outcome.ok r ∧ RecSys C r.2 := by
  have hnl := not_lfu_of_recency _ h.policy
  cases c with
  | contains key =>
    refine ⟨_, rfl, ?_, h.cap, h.inv⟩
    show (SmartCacheImpl.Contains sys.2 sys.1 key).2.EvictionPolicy = _ ∨ _
    rw [Contains_config]
    exact h.policy
  | get key =>
    have hpc : (SmartCacheImpl.Contains sys.2 sys.1 key).2.EvictionPolicy =
        sys.2.EvictionPolicy := by rw [Contains_config]; rfl
    cases hk : mapFind sys.1.m_lookupTable key with
    | none =>
      have hG := rec_Get_absent sys.2 sys.1 key hnl hk
      refine ⟨(Reply.element none, sys.1, (SmartCacheImpl.Contains sys.2 sys.1 key).2),
        by simp [step, hG], ?_, h.cap, h.inv⟩
      show (SmartCacheImpl.Contains sys.2 sys.1 key).2.EvictionPolicy = _ ∨ _
      rw [hpc]; exact h.policy
    | some it =>
      obtain ⟨s1, hG, hinv, hcs, _⟩ := rec_Get_resident sys.2 sys.1 key it hnl h.inv hk
      refine ⟨(Reply.element (some key), s1, (SmartCacheImpl.Contains sys.2 sys.1 key).2),
        by simp [step, hG], ?_, hcs.trans h.cap, hinv⟩
      show (SmartCacheImpl.Contains sys.2 sys.1 key).2.EvictionPolicy = _ ∨ _
      rw [hpc]; exact h.policy
  | push key value =>
    have hv : value = key := hc
    subst hv
    cases hk : mapFind sys.1.m_lookupTable value with
    | none =>
      obtain ⟨s1, hP, hinv, hcs, _⟩ :=
        rec_Push_absent sys.2 sys.1 value h.policy h.inv (by rw [h.cap]; exact hC) hk
      exact ⟨(Reply.done, s1, sys.2), by simp [step, hP], h.policy, hcs.trans h.cap, hinv⟩
    | some it =>
      obtain ⟨s1, hP, hinv, hcs, _⟩ := rec_Push_resident sys.2 sys.1 value it hnl h.inv hk
      exact ⟨(Reply.done, s1, sys.2), by simp [step, hP], h.policy, hcs.trans h.cap, hinv⟩

theorem recSys_run {C : Int} (hC : 1 ≤ C) (calls : List Call) :
    ∀ (sys : SmartCacheImpl × ComponentConfig), RecSys C sys → (∀ c, c ∈ calls → c.keyed) →
      ∃ sys1, run sys calls = Outcome.ok sys1 ∧ RecSys C sys1 := by
  induction calls with
  | nil =>
    intro sys h _
    exact ⟨sys, rfl, h⟩
  | cons c cs ih =>
    intro sys h hk
    obtain ⟨r, hr, hsys⟩ := recSys_step h hC c (hk c (List.mem_cons_self _ _))
    obtain ⟨sys1, hrun, hinv⟩ := ih r.2 hsys (fun d hd => hk d (List.mem_cons_of_mem _ hd))
    refine ⟨sys1, ?_, hinv⟩
    simp only [run, hr]
    exact hrun

theorem mem_dropLast_of_nodup {α : Type} (l : List α) (a x : α) (hn : l.Nodup)
    (hl : l.getLast? = some a) : x ∈ l.dropLast ↔ x ∈ l ∧ x ≠ a := by
  have hsplit : l.dropLast ++ [a] = l := List.dropLast_append_getLast? a hl
  rw [← hsplit] at hn
  have hdis := (List.nodup_append.1 hn).2.2
  constructor
  · intro hx
    refine ⟨List.mem_of_mem_dropLast hx, fun h2 => ?_⟩
    exact hdis hx (by rw [h2]; exact List.mem_singleton_self a)
  · rintro ⟨hx, hne⟩
    rw [← hsplit, List.mem_append, List.mem_singleton] at hx
    rcases hx with hx | hx
    · exact hx
    · exact absurd hx hne

theorem mem_tail_of_nodup {α : Type} (l : List α) (a x : α) (hn : l.Nodup)
    (hl : l.head? = some a) : x ∈ l.tail ↔ x ∈ l ∧ x ≠ a := by
  cases l with
  | nil => simp at hl
  | cons b rest =>
    simp only [List.head?_cons, Option.some.injEq] at hl
    rw [List.nodup_cons] at hn
    rw [hl] at hn
    simp only [List.tail_cons, List.mem_cons, hl]
    constructor
    · intro hx
      exact ⟨Or.inr hx, fun h2 => hn.1 (h2 ▸ hx)⟩
    · rintro ⟨hx | hx, hne⟩
      · exact absurd hx hne
      · exact hx
/-- C18: under policy LRU or MRU with capacity at least 1, when every `push` of the
sequence stores a value equal to its key, after every call of every sequence of
contains/get/push calls that follows `Reconfigure` (every call returns): `Contains` is
true exactly for the values the list holds, these are distinct and at most `CacheSize`
many, index and list have the same size; and a `Push(k, k)` of a key that is not resident
on a full list returns, drops the back entry (LRU) or the front entry (MRU) of the list
and removes exactly the key of that entry from the index: afterwards the resident keys
are the former ones without that key, plus `k`. -/
theorem recency_index_matches_order
    (cfg : ComponentConfig) (s0 : SmartCacheImpl) (calls : List Call) (n : Nat)
    (hpol : cfg.EvictionPolicy = CacheEvictionPolicy.LeastRecentlyUsed ∨
      cfg.EvictionPolicy = CacheEvictionPolicy.MostRecentlyUsed)
    (hcap : 1 ≤ cfg.CacheSize)
    (hkeyed : ∀ c, c ∈ calls → c.keyed) :
    ∃ sys, run (SmartCacheImpl.Reconfigure cfg s0, cfg) (calls.take n) = Outcome.ok sys ∧
      (∀ x, sys.1.resident sys.2 x = true ↔ x ∈ sys.1.values) ∧
      sys.1.values.Nodup ∧
      (sys.1.values.length : Int) ≤ cfg.CacheSize ∧
      sys.1.m_lookupTable.length = sys.1.m_elementSequence.length ∧
      (∀ k, sys.1.resident sys.2 k = false →
        (sys.1.m_elementSequence.length : Int) = cfg.CacheSize →
        ∃ victim s1,
          (if cfg.EvictionPolicy = CacheEvictionPolicy.LeastRecentlyUsed
           then sys.1.values.getLast? else sys.1.values.head?) = some victim ∧
          SmartCacheImpl.Push sys.2 sys.1 k k = Outcome.ok s1 ∧
          s1.values = k ::
            (if cfg.EvictionPolicy = CacheEvictionPolicy.LeastRecentlyUsed
             then sys.1.values.dropLast else sys.1.values.tail) ∧
          (∀ x, s1.resident sys.2 x = true ↔
            (sys.1.resident sys.2 x = true ∧ x ≠ victim) ∨ x = k)) := by
  obtain ⟨sys, hrun, hsys⟩ := recSys_run hcap (calls.take n) _
    (recSys_reconfigure cfg s0 hpol (by omega))
    (fun c hc => hkeyed c (List.mem_of_mem_take hc))
  have hset := (run_keeps_settings _ _ sys hrun).1
  have hset2 : sys.2.EvictionPolicy = cfg.EvictionPolicy := hset
  have hnl := not_lfu_of_recency _ hsys.policy
  have hval := recInv_values_nodup sys.1 hsys.inv
  have hlen : sys.1.values.length = sys.1.m_elementSequence.length := by
    simp [SmartCacheImpl.values]
  refine ⟨sys, hrun, fun x => resident_iff_value sys.2 sys.1 x hnl hsys.inv, hval, ?_,
    hsys.inv.sizeEq, ?_⟩
  · rw [hlen, ← hsys.cap]; exact hsys.inv.sizeLe
  · intro k hk hfull
    have hk0 : mapFind sys.1.m_lookupTable k = none := by
      rw [resident_rec _ _ _ hnl] at hk
      cases hm : mapFind sys.1.m_lookupTable k with
      | none => rfl
      | some j => rw [hm] at hk; cases hk
    have hfull2 : (sys.1.m_elementSequence.length : Int) = sys.1.m_cacheSize := by
      rw [hsys.cap]; exact hfull
    obtain ⟨s1, hP, hinv1, _, hv1⟩ :=
      rec_Push_absent sys.2 sys.1 k hsys.policy hsys.inv (by rw [hsys.cap]; exact hcap) hk0
    rw [if_pos hfull2, hset2] at hv1
    have hne : sys.1.values ≠ [] := by
      intro h0
      rw [h0] at hlen
      rw [← hlen] at hfull
      simp at hfull
      omega
    have hres1 : ∀ x, s1.resident sys.2 x = true ↔ x ∈ s1.values :=
      fun x => resident_iff_value sys.2 s1 x hnl hinv1
    have hres0 : ∀ x, sys.1.resident sys.2 x = true ↔ x ∈ sys.1.values :=
      fun x => resident_iff_value sys.2 sys.1 x hnl hsys.inv
    by_cases hlru : cfg.EvictionPolicy = CacheEvictionPolicy.LeastRecentlyUsed
    · rw [if_pos hlru] at hv1
      simp only [if_pos hlru]
      cases hl : sys.1.values.getLast? with
      | none => exact absurd (List.getLast?_eq_none_iff.1 hl) hne
      | some victim =>
        refine ⟨victim, s1, rfl, hP, hv1, ?_⟩
        intro x
        rw [hres1, hres0, hv1, List.mem_cons, mem_dropLast_of_nodup _ victim x hval hl]
        constructor
        · rintro (h1 | h1)
          · exact Or.inr h1
          · exact Or.inl h1
        · rintro (h1 | h1)
          · exact Or.inr h1
          · exact Or.inl h1
    · rw [if_neg hlru] at hv1
      simp only [if_neg hlru]
      cases hl : sys.1.values.head? with
      | none => exact absurd (List.head?_eq_none_iff.1 hl) hne
      | some victim =>
        refine ⟨victim, s1, rfl, hP, hv1, ?_⟩
        intro x
        rw [hres1, hres0, hv1, List.mem_cons, mem_tail_of_nodup _ victim x hval hl]
        constructor
        · rintro (h1 | h1)
          · exact Or.inr h1
          · exact Or.inl h1
        · rintro (h1 | h1)
          · exact Or.inr h1
          · exact Or.inl h1

/-- The theorem of C18 at scenarios 1 and 2 of the specification with values equal to
keys (capacity 3): after `push(1,1); push(2,2); push(3,3); get(1)` the list holds 1, 3, 2;
`push(4,4)` then leaves 4, 1, 3 under LRU (key 2 evicted) and 4, 3, 2 under MRU (key 1
evicted), and `Contains` is true for exactly those keys. -/
theorem recency_index_witness :
    (∃ sys, run (SmartCacheImpl.Reconfigure (demoConfig .LeastRecentlyUsed 3)
          (demoCache .LeastRecentlyUsed 3), demoConfig .LeastRecentlyUsed 3)
          ([Call.push 1 1, Call.push 2 2, Call.push 3 3, Call.get 1].take 4) =
        Outcome.ok sys ∧
      (∀ x, sys.1.resident sys.2 x = true ↔ x ∈ sys.1.values) ∧
      sys.1.values.Nodup ∧
      (sys.1.values.length : Int) ≤ (demoConfig .LeastRecentlyUsed 3).CacheSize ∧
      sys.1.m_lookupTable.length = sys.1.m_elementSequence.length ∧
      (∀ k, sys.1.resident sys.2 k = false →
        (sys.1.m_elementSequence.length : Int) = (demoConfig .LeastRecentlyUsed 3).CacheSize →
        ∃ victim s1,
          (if (demoConfig .LeastRecentlyUsed 3).EvictionPolicy =
              CacheEvictionPolicy.LeastRecentlyUsed
           then sys.1.values.getLast? else sys.1.values.head?) = some victim ∧
          SmartCacheImpl.Push sys.2 sys.1 k k = Outcome.ok s1 ∧
          s1.values = k ::
            (if (demoConfig .LeastRecentlyUsed 3).EvictionPolicy =
                CacheEvictionPolicy.LeastRecentlyUsed
             then sys.1.values.dropLast else sys.1.values.tail) ∧
          (∀ x, s1.resident sys.2 x = true ↔
            (sys.1.resident sys.2 x = true ∧ x ≠ victim) ∨ x = k))) ∧
    (stateAfter (demoStart .LeastRecentlyUsed 3)
      [Call.push 1 1, Call.push 2 2, Call.push 3 3, Call.get 1]).1.values = [1, 3, 2] ∧
    (stateAfter (demoStart .LeastRecentlyUsed 3)
      [Call.push 1 1, Call.push 2 2, Call.push 3 3, Call.get 1, Call.push 4 4]).1.values =
      [4, 1, 3] ∧
    residentKeys (stateAfter (demoStart .LeastRecentlyUsed 3)
      [Call.push 1 1, Call.push 2 2, Call.push 3 3, Call.get 1, Call.push 4 4])
      [1, 2, 3, 4] = [1, 3, 4] ∧
    (stateAfter (demoStart .MostRecentlyUsed 3)
      [Call.push 1 1, Call.push 2 2, Call.push 3 3, Call.get 1, Call.push 4 4]).1.values =
      [4, 3, 2] ∧
    residentKeys (stateAfter (demoStart .MostRecentlyUsed 3)
      [Call.push 1 1, Call.push 2 2, Call.push 3 3, Call.get 1, Call.push 4 4])
      [1, 2, 3, 4] = [2, 3, 4] :=
  ⟨recency_index_matches_order (demoConfig .LeastRecentlyUsed 3)
     (demoCache .LeastRecentlyUsed 3)
     [Call.push 1 1, Call.push 2 2, Call.push 3 3, Call.get 1] 4 (Or.inl rfl) (by decide)
     (by
       intro c hc
       simp only [List.mem_cons, List.mem_singleton, List.not_mem_nil, or_false] at hc
       rcases hc with h | h | h | h <;> rw [h] <;> simp [Call.keyed]),
   by decide, by decide, by decide, by decide, by decide⟩

/-! ## The cyclical workload under LRU -/

theorem take_append_take {α : Type} (x y : List α) :
    ∀ c d : Nat, c ≤ d → (x ++ y.take d).take c = (x ++ y).take c := by
  induction x with
  | nil =>
    intro c d hcd
    simp only [List.nil_append, List.take_take]
    rw [Nat.min_eq_left hcd]
  | cons h x ih =>
    intro c d hcd
    cases c with
    | zero => simp
    | succ c =>
      simp only [List.cons_append, List.take_succ_cons]
      rw [ih c d (by omega)]

theorem take_cons_dropLast {α : Type} (l : List α) (a : α) (C : Nat) (hC : 1 ≤ C)
    (hl : l.length = C) : a :: l.dropLast = (a :: l).take C := by
  obtain ⟨c, rfl⟩ : ∃ c, C = c + 1 := ⟨C - 1, by omega⟩
  rw [List.take_succ_cons, List.dropLast_eq_take, hl]
  rfl

/-- One iteration of the workload loop on a key that is not resident, under LRU with
values equal to keys: the `Get` misses, the `Push` inserts the key at the front and keeps
the `C` most recent values. -/
theorem workloadBody_miss {C : Nat} {sys : SmartCacheImpl × ComponentConfig}
    (h : RecSys (C : Int) sys) (hC : 1 ≤ C)
    (hlru : sys.2.EvictionPolicy = CacheEvictionPolicy.LeastRecentlyUsed) (i : Int)
    (hi : i ∉ sys.1.values) :
    ∃ sys1, workloadBody sys i = Outcome.ok sys1 ∧ RecSys (C : Int) sys1 ∧
      sys1.2.EvictionPolicy = CacheEvictionPolicy.LeastRecentlyUsed ∧
      sys1.1.values = (i :: sys.1.values).take C ∧
      sys1.2.telemetry = sys.2.telemetry ++ [missMessage sys.2 i] ∧
      sys1.2.ConfigId = sys.2.ConfigId := by
  have hnl := not_lfu_of_recency _ h.policy
  have hk : mapFind sys.1.m_lookupTable i = none := by
    by_contra h0
    exact hi ((recInv_resident sys.1 h.inv i).1 h0)
  have hG := rec_Get_absent sys.2 sys.1 i hnl hk
  have hcfg : (SmartCacheImpl.Contains sys.2 sys.1 i).2 =
      sys.2.SendTelemetryMessage (missMessage sys.2 i) := by
    rw [Contains_config]
    simp [SmartCacheImpl.Contains, hnl, hk, missMessage]
  have hpol2 : (SmartCacheImpl.Contains sys.2 sys.1 i).2.EvictionPolicy =
      CacheEvictionPolicy.LeastRecentlyUsed := by rw [hcfg]; exact hlru
  obtain ⟨s1, hP, hinv, hcs, hv⟩ := rec_Push_absent
    (SmartCacheImpl.Contains sys.2 sys.1 i).2 sys.1 i (Or.inl hpol2) h.inv
    (by rw [h.cap]; exact_mod_cast hC) hk
  refine ⟨(s1, (SmartCacheImpl.Contains sys.2 sys.1 i).2), ?_, ⟨Or.inl hpol2, hcs.trans h.cap,
    hinv⟩, hpol2, ?_, ?_, ?_⟩
  · simp only [workloadBody, hG, hP]
  · show s1.values = _
    rw [hv, if_pos hpol2]
    have hlen : sys.1.values.length = sys.1.m_elementSequence.length := by
      simp [SmartCacheImpl.values]
    by_cases hfull : (sys.1.m_elementSequence.length : Int) = sys.1.m_cacheSize
    · rw [if_pos hfull]
      have : sys.1.values.length = C := by
        rw [h.cap] at hfull
        rw [hlen]
        exact_mod_cast hfull
      exact take_cons_dropLast _ i C hC this
    · rw [if_neg hfull]
      have hle := h.inv.sizeLe
      rw [h.cap] at hle hfull
      have : (i :: sys.1.values).length ≤ C := by
        rw [List.length_cons, hlen]
        have h1 : sys.1.m_elementSequence.length ≤ C := by exact_mod_cast hle
        have h2 : sys.1.m_elementSequence.length ≠ C := by
          intro h3; apply hfull; rw [h3]
        omega
      rw [List.take_of_length_le this]
  · show (SmartCacheImpl.Contains sys.2 sys.1 i).2.telemetry = _
    rw [hcfg]; rfl
  · show (SmartCacheImpl.Contains sys.2 sys.1 i).2.ConfigId = _
    rw [hcfg]; rfl

/-- The workload loop over keys each of which differs from the `C` keys pushed last
before it: every `Get` misses and the list ends with the `C` keys pushed last. -/
theorem workloadLoop_all_miss {C : Nat} (hC : 1 ≤ C) (keys : List Int) :
    ∀ (sys : SmartCacheImpl × ComponentConfig), RecSys (C : Int) sys →
      sys.2.EvictionPolicy = CacheEvictionPolicy.LeastRecentlyUsed →
      (∀ a i b, keys = a ++ i :: b → i ∉ (a.reverse ++ sys.1.values).take C) →
      ∃ sys1, workloadLoop sys keys = Outcome.ok sys1 ∧ RecSys (C : Int) sys1 ∧
        sys1.2.EvictionPolicy = CacheEvictionPolicy.LeastRecentlyUsed ∧
        sys1.1.values = (keys.reverse ++ sys.1.values).take C ∧
        sys1.2.telemetry = sys.2.telemetry ++ keys.map (missMessage sys.2) ∧
        sys1.2.ConfigId = sys.2.ConfigId := by
  induction keys with
  | nil =>
    intro sys h hlru _
    refine ⟨sys, rfl, h, hlru, ?_, by simp, rfl⟩
    have hle := h.inv.sizeLe
    rw [h.cap] at hle
    have hlen : sys.1.values.length = sys.1.m_elementSequence.length := by
      simp [SmartCacheImpl.values]
    have : sys.1.values.length ≤ C := by rw [hlen]; exact_mod_cast hle
    simp only [List.reverse_nil, List.nil_append]
    rw [List.take_of_length_le this]
  | cons i rest ih =>
    intro sys h hlru hsplit
    have hle := h.inv.sizeLe
    rw [h.cap] at hle
    have hlen : sys.1.values.length = sys.1.m_elementSequence.length := by
      simp [SmartCacheImpl.values]
    have hvl : sys.1.values.length ≤ C := by rw [hlen]; exact_mod_cast hle
    have hi : i ∉ sys.1.values := by
      have := hsplit [] i rest rfl
      simp only [List.reverse_nil, List.nil_append] at this
      rw [List.take_of_length_le hvl] at this
      exact this
    obtain ⟨sys1, hb, hsys1, hlru1, hv1, ht1, hid1⟩ := workloadBody_miss h hC hlru i hi
    have hsplit1 : ∀ a j b, rest = a ++ j :: b →
        j ∉ (a.reverse ++ sys1.1.values).take C := by
      intro a j b hab
      have := hsplit (i :: a) j b (by rw [hab]; rfl)
      rw [hv1, take_append_take _ _ C C (le_refl _)]
      simpa using this
    obtain ⟨sys2, hl2, hsys2, hlru2, hv2, ht2, hid2⟩ := ih sys1 hsys1 hlru1 hsplit1
    refine ⟨sys2, ?_, hsys2, hlru2, ?_, ?_, hid2.trans hid1⟩
    · simp only [workloadLoop, hb]; exact hl2
    · rw [hv2, hv1, take_append_take _ _ C C (le_refl _)]
      simp
    · rw [ht2, ht1]
      have hm : missMessage sys1.2 = missMessage sys.2 := by
        funext x
        simp [missMessage, hid1]
      rw [hm]
      simp
theorem mem_take_reverse_map_range (f : Nat → Int) (x : Int) (M : Nat) :
    ∀ k : Nat, x ∈ (((List.range M).map f).reverse).take k ↔
      ∃ j, M - k ≤ j ∧ j < M ∧ x = f j := by
  induction M with
  | zero => intro k; simp
  | succ M ih =>
    intro k
    rw [List.range_succ, List.map_append, List.reverse_append]
    cases k with
    | zero => simp; intro j hj; omega
    | succ k =>
      simp only [List.map_cons, List.map_nil, List.reverse_cons, List.reverse_nil,
        List.nil_append, List.singleton_append, List.take_succ_cons, List.mem_cons, ih k]
      constructor
      · rintro (h | ⟨j, h1, h2, h3⟩)
        · exact ⟨M, by omega, by omega, h⟩
        · exact ⟨j, by omega, by omega, h3⟩
      · rintro ⟨j, h1, h2, h3⟩
        by_cases hj : j = M
        · left; rw [h3, hj]
        · right; exact ⟨j, by omega, by omega, h3⟩

theorem split_map_range (f : Nat → Int) (M : Nat) (a b : List Int) (i : Int)
    (h : (List.range M).map f = a ++ i :: b) :
    a = (List.range a.length).map f ∧ i = f a.length := by
  have hlen : M = a.length + (b.length + 1) := by
    have := congrArg List.length h
    simpa using this
  rw [hlen, List.range_add, List.map_append] at h
  have h1 := List.append_inj h (by simp)
  refine ⟨h1.1.symm, ?_⟩
  have h2 := h1.2
  rw [List.range_succ_eq_map] at h2
  simp only [List.map_cons, List.map_map] at h2
  have h3 := (List.cons.inj h2).1
  simpa using h3.symm

theorem cycKey_ne (P C j m : Nat) (hCP : C < P) (hjm : j < m) (hm : m ≤ j + C) :
    cycKey P j ≠ cycKey P m := by
  intro h
  unfold cycKey at h
  have h1 : j % P = m % P := by
    have : ((j % P : Nat) : Int) = ((m % P : Nat) : Int) := by omega
    exact_mod_cast this
  have h2 : (m - j) % P = 0 := Nat.sub_mod_eq_zero_of_mod_eq h1.symm
  have h3 : P ∣ m - j := Nat.dvd_of_mod_eq_zero h2
  have h4 := Nat.le_of_dvd (by omega) h3
  omega

theorem workloadLoop_append (a b : List Int) :
    ∀ sys : SmartCacheImpl × ComponentConfig,
      workloadLoop sys (a ++ b) =
        match workloadLoop sys a with
        | Outcome.ok m => workloadLoop m b
        | Outcome.thrown s => Outcome.thrown s
        | Outcome.undefined => Outcome.undefined := by
  induction a with
  | nil => intro sys; rfl
  | cons i rest ih =>
    intro sys
    simp only [List.cons_append, workloadLoop]
    cases workloadBody sys i with
    | ok r => exact ih r
    | thrown s => rfl
    | undefined => rfl

theorem cyclicalKeys_eq (n : Nat) :
    cyclicalKeys n = (List.range (n - 1)).map (cycKey (n - 1)) := by
  unfold cyclicalKeys
  apply List.map_congr_left
  intro j hj
  rw [List.mem_range] at hj
  unfold cycKey
  rw [Nat.mod_eq_of_lt hj]

theorem allKeys_eq (n : Nat) : ∀ t : Nat,
    (List.replicate t (cyclicalKeys n)).flatten =
      (List.range (t * (n - 1))).map (cycKey (n - 1)) := by
  intro t
  induction t with
  | zero => simp
  | succ t ih =>
    rw [List.replicate_succ, List.flatten_cons, ih, cyclicalKeys_eq]
    have h1 : (t + 1) * (n - 1) = (n - 1) + t * (n - 1) := by ring
    rw [h1, List.range_add, List.map_append, List.map_map]
    congr 1
    apply List.map_congr_left
    intro j _
    simp [cycKey, Function.comp]

theorem consecutiveRuns_of_loop (n : Nat) (hn : n ≤ 2147483647) : ∀ (t : Nat)
    (sys sysEnd : SmartCacheImpl × ComponentConfig),
    workloadLoop sys (List.replicate t (cyclicalKeys n)).flatten = Outcome.ok sysEnd →
    consecutiveRuns n t sys = Outcome.ok (List.replicate t 1, sysEnd) := by
  intro t
  induction t with
  | zero =>
    intro sys sysEnd h
    simp only [List.replicate_zero, List.flatten_nil, workloadLoop] at h
    rw [← Outcome.ok.inj h]
    rfl
  | succ t ih =>
    intro sys sysEnd h
    rw [List.replicate_succ, List.flatten_cons, workloadLoop_append] at h
    cases h1 : workloadLoop sys (cyclicalKeys n) with
    | ok m =>
      rw [h1] at h
      have hrest := ih m sysEnd h
      have hcw : CyclicalWorkload n sys = Outcome.ok (1, m) := by
        unfold CyclicalWorkload
        rw [if_neg (by omega), h1]
      simp only [consecutiveRuns, hcw, hrest, List.replicate_succ]
    | thrown s => rw [h1] at h; cases h
    | undefined => rw [h1] at h; cases h
/-- C19: under policy LRU with capacity `C` and sequence number `n`, `1 ≤ C < n - 1` and
`n` in the range of `int32_t`, starting from the cache `Reconfigure` leaves: any number of
consecutive runs of `CyclicalWorkload(n)` return, each returning 1; the telemetry channel
receives one message per `Get`, in loop order, every one a miss (so every `Get(i)` of
every run returns `nullptr` and the loop body goes on to `Push(i, i)`); and after one or
more runs `Contains` is true exactly for the keys `n - C, ..., n - 1`. -/
theorem cyclical_workload_always_misses
    (cfg : ComponentConfig) (s0 : SmartCacheImpl) (C n runs : Nat)
    (hpol : cfg.EvictionPolicy = CacheEvictionPolicy.LeastRecentlyUsed)
    (hsize : cfg.CacheSize = (C : Int)) (hC : 1 ≤ C) (hCn : C + 1 < n)
    (hn : n ≤ 2147483647) :
    ∃ sysEnd,
      consecutiveRuns n runs (SmartCacheImpl.Reconfigure cfg s0, cfg) =
        Outcome.ok (List.replicate runs 1, sysEnd) ∧
      sysEnd.2.telemetry =
        cfg.telemetry ++ ((List.replicate runs (cyclicalKeys n)).flatten).map (missMessage cfg) ∧
      (1 ≤ runs → ∀ x, sysEnd.1.resident sysEnd.2 x = true ↔
        ((n : Int) - C ≤ x ∧ x ≤ (n : Int) - 1)) := by
  have hsys0 : RecSys (C : Int) (SmartCacheImpl.Reconfigure cfg s0, cfg) := by
    have := recSys_reconfigure cfg s0 (Or.inl hpol) (by rw [hsize]; exact_mod_cast Nat.zero_le C)
    rw [hsize] at this
    exact this
  have hv0 : (SmartCacheImpl.Reconfigure cfg s0, cfg).1.values = [] := by
    simp [SmartCacheImpl.values, SmartCacheImpl.Reconfigure, hpol]
  have hkeys := allKeys_eq n runs
  have hCP : C < n - 1 := by omega
  have hsplit : ∀ a i b, (List.replicate runs (cyclicalKeys n)).flatten = a ++ i :: b →
      i ∉ (a.reverse ++ (SmartCacheImpl.Reconfigure cfg s0, cfg).1.values).take C := by
    intro a i b hab
    rw [hkeys] at hab
    obtain ⟨ha, hi⟩ := split_map_range _ _ a b i hab
    rw [hv0, List.append_nil, ha, mem_take_reverse_map_range]
    rintro ⟨j, h1, h2, h3⟩
    rw [hi] at h3
    exact cycKey_ne (n - 1) C j a.length hCP h2 (by omega) h3.symm
  obtain ⟨sysEnd, hloop, hsysEnd, hlru, hval, htel, _⟩ :=
    workloadLoop_all_miss hC _ _ hsys0 hpol hsplit
  refine ⟨sysEnd, consecutiveRuns_of_loop n hn runs _ sysEnd hloop, htel, ?_⟩
  intro hruns x
  have hnl := not_lfu_of_recency _ hsysEnd.policy
  rw [resident_iff_value sysEnd.2 sysEnd.1 x hnl hsysEnd.inv, hval, hv0, List.append_nil,
    hkeys, mem_take_reverse_map_range]
  obtain ⟨t, rfl⟩ : ∃ t, runs = t + 1 := ⟨runs - 1, by omega⟩
  obtain ⟨P, hP⟩ : ∃ P, n - 1 = P := ⟨n - 1, rfl⟩
  rw [hP] at hCP ⊢
  have hnP : (n : Int) = (P : Int) + 1 := by omega
  have hmul : (t + 1) * P = t * P + P := by ring
  rw [hmul]
  have hmodr : ∀ r, r < P → (r + t * P) % P = r := by
    intro r hr
    rw [Nat.add_mul_mod_self_right, Nat.mod_eq_of_lt hr]
  obtain ⟨T, hT⟩ : ∃ T, T = t * P := ⟨_, rfl⟩
  rw [← hT] at hmodr ⊢
  constructor
  · rintro ⟨j, h1, h2, h3⟩
    have hmod : j % P = j - T := by
      have h4 := hmodr (j - T) (by omega)
      have h5 : j - T + T = j := by omega
      rw [h5] at h4
      exact h4
    rw [h3]
    unfold cycKey
    rw [hmod]
    omega
  · rintro ⟨h1, h2⟩
    refine ⟨(x - 1).toNat + T, by omega, by omega, ?_⟩
    unfold cycKey
    rw [hmodr _ (by omega)]
    omega
/-- The theorem of C19 at capacity 2 and sequence number 5 for two consecutive runs: both
runs return 1, the eight probes (keys 1, 2, 3, 4 twice) all miss, and the list ends up
holding the keys 4 and 3. -/
theorem cyclical_workload_witness :
    (∃ sysEnd,
      consecutiveRuns 5 2 (SmartCacheImpl.Reconfigure (demoConfig .LeastRecentlyUsed 2)
          (demoCache .LeastRecentlyUsed 2), demoConfig .LeastRecentlyUsed 2) =
        Outcome.ok (List.replicate 2 1, sysEnd) ∧
      sysEnd.2.telemetry =
        (demoConfig .LeastRecentlyUsed 2).telemetry ++
          ((List.replicate 2 (cyclicalKeys 5)).flatten).map
            (missMessage (demoConfig .LeastRecentlyUsed 2)) ∧
      (1 ≤ 2 → ∀ x, sysEnd.1.resident sysEnd.2 x = true ↔
        (((5 : Nat) : Int) - ((2 : Nat) : Int) ≤ x ∧ x ≤ ((5 : Nat) : Int) - 1))) ∧
    consecutiveRuns 5 2 (demoStart .LeastRecentlyUsed 2) =
      Outcome.ok (afterRuns 5 2 (demoStart .LeastRecentlyUsed 2)) ∧
    (afterRuns 5 2 (demoStart .LeastRecentlyUsed 2)).1 = [1, 1] ∧
    (afterRuns 5 2 (demoStart .LeastRecentlyUsed 2)).2.1.values = [4, 3] ∧
    (afterRuns 5 2 (demoStart .LeastRecentlyUsed 2)).2.2.telemetry.map
      (fun m => (m.Key, m.IsInCache)) =
        [(1, false), (2, false), (3, false), (4, false),
         (1, false), (2, false), (3, false), (4, false)] :=
  ⟨cyclical_workload_always_misses (demoConfig .LeastRecentlyUsed 2)
     (demoCache .LeastRecentlyUsed 2) 2 5 2 rfl rfl (by decide) (by decide) (by decide),
   by decide, by decide, by decide, by decide⟩

/-! ## A stale `min_frequency` after `Reconfigure` -/

theorem lfuStep_total {hist : List Call} {s : LFUSmartCacheImpl} (h : LFUInv hist s)
    (hcap : 1 ≤ s.m_cacheSize) (cfg : ComponentConfig) (c : Call) :
    ∃ r, lfuStep (s, cfg) c = some r ∧ LFUInv (hist ++ [c]) r.2.1 ∧
      r.2.1.m_cacheSize = s.m_cacheSize := by
  cases c with
  | contains key =>
    exact ⟨_, rfl,
      lfuInv_extend h (Call.contains key) (fun x hx => by simp [Call.touches] at hx), rfl⟩
  | get key =>
    obtain ⟨r, s1, cfg1, hG, hinv, hcs, _, _, _⟩ := lfuInv_get h cfg key
    exact ⟨(Reply.element r, s1, cfg1), by simp [lfuStep, hG], hinv, hcs⟩
  | push key value =>
    obtain ⟨s1, hP, hinv, hcs, _, _⟩ := lfuInv_push h hcap key value
    exact ⟨(Reply.done, s1, cfg), by simp [lfuStep, hP], hinv, hcs⟩

theorem lfuTrace_total (calls : List Call) :
    ∀ (hist : List Call) (s : LFUSmartCacheImpl) (cfg : ComponentConfig), LFUInv hist s →
      1 ≤ s.m_cacheSize → ∃ t, lfuTrace (s, cfg) calls = some t ∧ t.length = calls.length := by
  induction calls with
  | nil => intro hist s cfg _ _; exact ⟨[], rfl, rfl⟩
  | cons c cs ih =>
    intro hist s cfg h hcap
    obtain ⟨r, hr, hinv, hcs⟩ := lfuStep_total h hcap cfg c
    obtain ⟨t, ht, hlen⟩ := ih (hist ++ [c]) r.2.1 r.2.2 hinv (by rw [hcs]; exact hcap)
    refine ⟨{ reply := r.1, evicted := s.evictedBy c, store := r.2.1, config := r.2.2 } :: t,
      ?_, by simp [hlen]⟩
    simp only [lfuTrace, hr]
    rw [show r.2 = (r.2.1, r.2.2) from rfl, ht]

theorem lfuStep_stale (cfg : ComponentConfig) (a b : LFUSmartCacheImpl) (c : Call)
    (h : StaleMin a b) (rb : Reply × LFUSmartCacheImpl × ComponentConfig)
    (hb : lfuStep (b, cfg) c = some rb) :
    ∃ a1, lfuStep (a, cfg) c = some (rb.1, a1, rb.2.2) ∧ StaleMin a1 rb.2.1 ∧
      a.evictedBy c = b.evictedBy c := by
  rcases h with rfl | ⟨hl, hcap, m, rfl⟩
  · exact ⟨rb.2.1, hb, Or.inl rfl, rfl⟩
  · have hfind : ∀ k, mapFind b.m_lookupTable k = none := by
      intro k; rw [hl]; rfl
    have hne : ¬ ((b.m_lookupTable.length : Int) = b.m_cacheSize) := by
      rw [hl]; simp only [List.length_nil, Nat.cast_zero]; omega
    cases c with
    | contains key =>
      have hrb : rb = (Reply.isInCache (LFUSmartCacheImpl.Contains cfg b key).1, b,
          (LFUSmartCacheImpl.Contains cfg b key).2) := (Option.some.inj hb).symm
      subst hrb
      exact ⟨_, rfl, Or.inr ⟨hl, hcap, m, rfl⟩, rfl⟩
    | get key =>
      have hG : ∀ s : LFUSmartCacheImpl, s.m_lookupTable = b.m_lookupTable →
          lfuStep (s, cfg) (Call.get key) =
            some (Reply.element none, s, (LFUSmartCacheImpl.Contains cfg b key).2) := by
        intro s hs
        simp [lfuStep, LFUSmartCacheImpl.Get, LFUSmartCacheImpl.Contains, hs, hfind]
      rw [hG b rfl] at hb
      have hrb := (Option.some.inj hb).symm
      subst hrb
      exact ⟨_, hG _ rfl, Or.inr ⟨hl, hcap, m, rfl⟩, rfl⟩
    | push key value =>
      have hP : ∀ s : LFUSmartCacheImpl, s.m_lookupTable = b.m_lookupTable →
          s.m_cacheSize = b.m_cacheSize → s.m_KeySequence = b.m_KeySequence →
          s.m_elementSequence = b.m_elementSequence → s.nodes = b.nodes →
          lfuStep (s, cfg) (Call.push key value) =
            some (Reply.done,
              { m_KeySequence := mapSet b.m_KeySequence 1 ((b.nodes, key) :: b.bucket 1)
                m_elementSequence := mapSet b.m_elementSequence key (value, 1)
                m_lookupTable := mapSet b.m_lookupTable key b.nodes
                m_cacheSize := b.m_cacheSize
                min_frequency := 1
                nodes := b.nodes + 1 }, cfg) := by
        intro s h1 h2 h3 h4 h5
        simp [lfuStep, LFUSmartCacheImpl.Push, LFUSmartCacheImpl.evict,
          LFUSmartCacheImpl.bucket, h1, h2, h3, h4, h5, hfind, hne]
      rw [hP b rfl rfl rfl rfl rfl] at hb
      have hrb := (Option.some.inj hb).symm
      subst hrb
      refine ⟨_, hP _ rfl rfl rfl rfl rfl, Or.inl rfl, ?_⟩
      simp [LFUSmartCacheImpl.evictedBy, hfind, hne]

theorem lfuTrace_stale (calls : List Call) :
    ∀ (a b : LFUSmartCacheImpl) (cfg : ComponentConfig) (tb : List LFUEvent),
      StaleMin a b → lfuTrace (b, cfg) calls = some tb →
      ∃ ta, lfuTrace (a, cfg) calls = some ta ∧ List.Forall₂ LFUEvent.agrees ta tb := by
  induction calls with
  | nil =>
    intro a b cfg tb _ hb
    have : tb = [] := (Option.some.inj hb).symm
    subst this
    exact ⟨[], rfl, List.Forall₂.nil⟩
  | cons c cs ih =>
    intro a b cfg tb h hb
    cases hsb : lfuStep (b, cfg) c with
    | none => simp [lfuTrace, hsb] at hb
    | some rb =>
      obtain ⟨a1, hsa, hR, hev⟩ := lfuStep_stale cfg a b c h rb hsb
      cases htb : lfuTrace (rb.2.1, rb.2.2) cs with
      | none =>
        simp only [lfuTrace, hsb] at hb
        rw [show rb.2 = (rb.2.1, rb.2.2) from rfl, htb] at hb
        exact absurd hb (by simp)
      | some t =>
        simp only [lfuTrace, hsb] at hb
        rw [show rb.2 = (rb.2.1, rb.2.2) from rfl, htb] at hb
        have htb2 := (Option.some.inj hb).symm
        subst htb2
        obtain ⟨ta, hta, hF⟩ := ih a1 rb.2.1 rb.2.2 t hR htb
        refine ⟨{ reply := rb.1, evicted := a.evictedBy c, store := a1, config := rb.2.2 } :: ta,
          ?_, List.Forall₂.cons ?_ hF⟩
        · simp only [lfuTrace, hsa, hta]
        · refine ⟨rfl, hev, ?_, ?_, ?_, rfl⟩
          all_goals
            rcases hR with h1 | ⟨_, _, m, h1⟩
            · rw [h1]
            · rw [h1]

/-- C20: `LFUSmartCacheImpl::Reconfigure` leaves `min_frequency` as it was, and with a
capacity of at least 1 the stale value is never observed.  Take any Frequency Store `s` and
any two values `m1`, `m2` of its `min_frequency`; run `Reconfigure` on both stores under the
same configuration object and then the same calls.  Both sequences of calls return, and call
by call they give the same return value, evict the same key, and leave the same resident
keys, the same values and frequencies, the same frequency lists and the same telemetry. -/
theorem lfu_stale_min_frequency_unobservable
    (cfg : ComponentConfig) (s : LFUSmartCacheImpl) (m1 m2 : Int) (calls : List Call)
    (hcap : 1 ≤ cfg.CacheSize) :
    (LFUSmartCacheImpl.Reconfigure cfg { s with min_frequency := m1 }).min_frequency = m1 ∧
    (LFUSmartCacheImpl.Reconfigure cfg { s with min_frequency := m2 }).min_frequency = m2 ∧
    ∃ t1 t2,
      lfuTrace (LFUSmartCacheImpl.Reconfigure cfg { s with min_frequency := m1 }, cfg) calls =
        some t1 ∧
      lfuTrace (LFUSmartCacheImpl.Reconfigure cfg { s with min_frequency := m2 }, cfg) calls =
        some t2 ∧
      t1.length = calls.length ∧
      List.Forall₂ LFUEvent.agrees t1 t2 := by
  refine ⟨rfl, rfl, ?_⟩
  have hinv : LFUInv [] (LFUSmartCacheImpl.Reconfigure cfg { s with min_frequency := m2 }) :=
    LFUInv_Reconfigure cfg _ (by omega)
  obtain ⟨t2, ht2, hlen⟩ := lfuTrace_total calls [] _ cfg hinv hcap
  have hR : StaleMin (LFUSmartCacheImpl.Reconfigure cfg { s with min_frequency := m1 })
      (LFUSmartCacheImpl.Reconfigure cfg { s with min_frequency := m2 }) :=
    Or.inr ⟨rfl, hcap, m1, rfl⟩
  obtain ⟨t1, ht1, hF⟩ := lfuTrace_stale calls _ _ cfg t2 hR ht2
  exact ⟨t1, t2, ht1, ht2, hF.length_eq.trans hlen, hF⟩

/-- The theorem at capacity 2 with stale values 7 and -3: the three keys pushed after a
probe and a miss evict key 2 at the last push in both stores, although `min_frequency`
still differs after the first two calls. -/
theorem lfu_stale_min_frequency_witness :
    ((LFUSmartCacheImpl.Reconfigure (demoConfig .LeastFrequentlyUsed 2)
        { (demoCache .LeastFrequentlyUsed 2).lfu with min_frequency := 7 }).min_frequency = 7 ∧
     (LFUSmartCacheImpl.Reconfigure (demoConfig .LeastFrequentlyUsed 2)
        { (demoCache .LeastFrequentlyUsed 2).lfu with min_frequency := -3 }).min_frequency = -3 ∧
     ∃ t1 t2,
      lfuTrace (LFUSmartCacheImpl.Reconfigure (demoConfig .LeastFrequentlyUsed 2)
        { (demoCache .LeastFrequentlyUsed 2).lfu with min_frequency := 7 },
        demoConfig .LeastFrequentlyUsed 2) staleScenario = some t1 ∧
      lfuTrace (LFUSmartCacheImpl.Reconfigure (demoConfig .LeastFrequentlyUsed 2)
        { (demoCache .LeastFrequentlyUsed 2).lfu with min_frequency := -3 },
        demoConfig .LeastFrequentlyUsed 2) staleScenario = some t2 ∧
      t1.length = staleScenario.length ∧
      List.Forall₂ LFUEvent.agrees t1 t2) ∧
    (eventsAfterReconfigure (demoConfig .LeastFrequentlyUsed 2)
        (demoCache .LeastFrequentlyUsed 2).lfu 7 staleScenario).map
      (fun e => (e.reply, e.evicted, e.store.min_frequency)) =
      [(Reply.isInCache false, none, 7), (Reply.element none, none, 7),
       (Reply.done, none, 1), (Reply.done, none, 1), (Reply.element (some 10), none, 1),
       (Reply.done, some 2, 1)] ∧
    (eventsAfterReconfigure (demoConfig .LeastFrequentlyUsed 2)
        (demoCache .LeastFrequentlyUsed 2).lfu (-3) staleScenario).map
      (fun e => (e.reply, e.evicted, e.store.min_frequency)) =
      [(Reply.isInCache false, none, -3), (Reply.element none, none, -3),
       (Reply.done, none, 1), (Reply.done, none, 1), (Reply.element (some 10), none, 1),
       (Reply.done, some 2, 1)] :=
  ⟨lfu_stale_min_frequency_unobservable (demoConfig .LeastFrequentlyUsed 2)
     (demoCache .LeastFrequentlyUsed 2).lfu 7 (-3) staleScenario (by decide),
   by decide, by decide⟩

/-! ## A frequency at `INT_MAX` -/

theorem hitsSinceInsertion_append (key : Int) (a b : List Call) :
    ∀ (sys sysA : SmartCacheImpl × ComponentConfig) (acc : Option Nat),
      run sys a = Outcome.ok sysA →
      hitsSinceInsertion key sys (a ++ b) acc =
        hitsSinceInsertion key sysA b (hitsSinceInsertion key sys a acc) := by
  induction a with
  | nil =>
    intro sys sysA acc h
    have : sys = sysA := Outcome.ok.inj h
    rw [this]; rfl
  | cons c cs ih =>
    intro sys sysA acc h
    cases hs : step sys c with
    | ok r =>
      simp only [run, hs] at h
      simp only [List.cons_append, hitsSinceInsertion, hs]
      exact ih r.2 sysA _ h
    | thrown s => simp only [run, hs] at h; cases h
    | undefined => simp only [run, hs] at h; cases h

theorem hotState_get (cfg : ComponentConfig) (s : LFUSmartCacheImpl) (f : Int) (it : Nat)
    (h : HotState f it s) (hf : int32Succ f ≠ 1) :
    ∃ s1, LFUSmartCacheImpl.Get cfg s 1 =
        some (some 10, s1, (LFUSmartCacheImpl.Contains cfg s 1).2) ∧
      HotState (int32Succ f) s.nodes s1 := by
  have hk : mapFind s.m_lookupTable 1 = some it := by rw [h.lookup]; rfl
  have he : mapFind s.m_elementSequence 1 = some (10, f) := by rw [h.entries]; rfl
  have hm : (it, (1 : Int)) ∈ s.bucket f := by rw [h.hotList]; exact List.mem_singleton_self _
  obtain ⟨s1, hU, hb, hE, hL, hC, hM, _⟩ := lfu_Update_spec s 1 it 10 f hk he hm
  have hne := int32Succ_ne f
  have he1 : mapFind s1.m_elementSequence 1 = some (10, int32Succ f) := by
    rw [hE, mapFind_set]; simp
  refine ⟨s1, ?_, ⟨?_, ?_, ?_, ?_, ?_, ?_, ?_, hf⟩⟩
  · unfold LFUSmartCacheImpl.Get
    simp [LFUSmartCacheImpl.Contains, hk, hU, mapAt_of_some _ _ _ _ he1]
  · rw [hL, h.lookup]; rfl
  · rw [hE, h.entries]; rfl
  · rw [hb, if_pos rfl, h.others _ hf hne]
  · rw [hb, if_neg (fun h1 => hf h1.symm), if_neg (fun h1 => h.hot h1.symm), h.coldList]
  · intro g hg1 hg2
    rw [hb, if_neg hg2]
    by_cases hgf : g = f
    · rw [if_pos hgf, h.hotList]; simp
    · rw [if_neg hgf]; exact h.others g hg1 hgf
  · rw [hM, if_neg (fun h1 => h.hot (h1.1.trans h.min)), h.min]
  · rw [hC, h.cap]

theorem hotState_step (sys : SmartCacheImpl × ComponentConfig) (f : Int) (it : Nat)
    (hpol : sys.2.EvictionPolicy = CacheEvictionPolicy.LeastFrequentlyUsed)
    (h : HotState f it sys.1.lfu) (hf : int32Succ f ≠ 1) :
    ∃ r, step sys (Call.get 1) = Outcome.ok r ∧
      r.2.2.EvictionPolicy = CacheEvictionPolicy.LeastFrequentlyUsed ∧
      HotState (int32Succ f) sys.1.lfu.nodes r.2.1.lfu ∧
      sys.1.resident sys.2 1 = true := by
  obtain ⟨s1, hG, h1⟩ := hotState_get sys.2 sys.1.lfu f it h hf
  have hS : step sys (Call.get 1) =
      Outcome.ok (Reply.element (some 10), { sys.1 with lfu := s1 },
        (LFUSmartCacheImpl.Contains sys.2 sys.1.lfu 1).2) := by
    simp [step, SmartCacheImpl.Get, hpol, hG]
  refine ⟨_, hS, ?_, h1, ?_⟩
  · exact hpol
  · rw [resident_lfu _ _ _ hpol, h.lookup]; rfl

theorem hotState_gets (n : Nat) :
    ∀ (sys : SmartCacheImpl × ComponentConfig) (f : Int) (it : Nat),
      sys.2.EvictionPolicy = CacheEvictionPolicy.LeastFrequentlyUsed →
      HotState f it sys.1.lfu → 2 ≤ f → f + (n : Int) ≤ 2147483647 →
      ∃ sys1 it1, run sys (List.replicate n (Call.get 1)) = Outcome.ok sys1 ∧
        sys1.2.EvictionPolicy = CacheEvictionPolicy.LeastFrequentlyUsed ∧
        HotState (f + (n : Int)) it1 sys1.1.lfu ∧
        ∀ acc : Nat, hitsSinceInsertion 1 sys (List.replicate n (Call.get 1)) (some acc) =
          some (acc + n) := by
  induction n with
  | zero =>
    intro sys f it hpol h _ _
    exact ⟨sys, it, rfl, hpol, by simpa using h, fun acc => rfl⟩
  | succ n ih =>
    intro sys f it hpol h h2 hle
    push_cast at hle
    have hs : int32Succ f = f + 1 := int32Succ_of_lt f (by omega)
    obtain ⟨r, hr, hp1, h1, hres⟩ := hotState_step sys f it hpol h (by rw [hs]; omega)
    rw [hs] at h1
    obtain ⟨sys1, it1, hrun, hp2, h3, hhits⟩ := ih r.2 (f + 1) _ hp1 h1 (by omega) (by omega)
    refine ⟨sys1, it1, ?_, hp2, ?_, ?_⟩
    · rw [List.replicate_succ]
      simp only [run, hr]
      exact hrun
    · have : f + ((n + 1 : Nat) : Int) = f + 1 + (n : Int) := by push_cast; ring
      rw [this]; exact h3
    · intro acc
      rw [List.replicate_succ]
      simp only [hitsSinceInsertion, hr, Call.touches, decide_True, if_true, hres, Option.map_some']
      rw [hhits (acc + 1)]
      congr 1
      omega

/-- The state after two insertions at capacity 2 and `INT_MAX` hits on key 1: every call
returns, key 1 is recorded at frequency `INT_MIN`, key 2 at frequency 1, `min_frequency` is
1, and key 1 was hit `INT_MAX` times since its insertion. -/
theorem hotState_overflow (n : Nat) (hn : (n : Int) = 2147483647) :
    ∃ sys it,
      run (demoStart .LeastFrequentlyUsed 2)
        (Call.push 1 10 :: Call.push 2 20 :: List.replicate n (Call.get 1)) = Outcome.ok sys ∧
      sys.2.EvictionPolicy = CacheEvictionPolicy.LeastFrequentlyUsed ∧
      sys.2.CacheSize = 2 ∧
      HotState (-2147483648) it sys.1.lfu ∧
      hitsSinceInsertion 1 (demoStart .LeastFrequentlyUsed 2)
        (Call.push 1 10 :: Call.push 2 20 :: List.replicate n (Call.get 1)) none = some n := by
  obtain ⟨m, rfl⟩ : ∃ m, n = m + 1 + 1 := ⟨n - 2, by omega⟩
  push_cast at hn
  have hlist : Call.push 1 10 :: Call.push 2 20 :: List.replicate (m + 1 + 1) (Call.get 1) =
      [Call.push 1 10, Call.push 2 20, Call.get 1] ++
        (List.replicate m (Call.get 1) ++ [Call.get 1]) := by
    rw [List.replicate_succ, ← List.replicate_succ']
    rfl
  have hpre : run (demoStart .LeastFrequentlyUsed 2)
      [Call.push 1 10, Call.push 2 20, Call.get 1] =
      Outcome.ok (stateAfter (demoStart .LeastFrequentlyUsed 2)
        [Call.push 1 10, Call.push 2 20, Call.get 1]) := by decide
  generalize hsys0 : stateAfter (demoStart .LeastFrequentlyUsed 2)
    [Call.push 1 10, Call.push 2 20, Call.get 1] = sys0 at hpre
  have hks : sys0.1.lfu.m_KeySequence = [(2, [(2, 1)]), (1, [(1, 2)])] := by
    rw [← hsys0]; decide
  have hpol0 : sys0.2.EvictionPolicy = CacheEvictionPolicy.LeastFrequentlyUsed := by
    rw [← hsys0]; decide
  have hsz0 : sys0.2.CacheSize = 2 := by rw [← hsys0]; decide
  have h0 : HotState 2 2 sys0.1.lfu := by
    refine ⟨?_, ?_, ?_, ?_, ?_, ?_, ?_, by decide⟩
    · rw [← hsys0]; decide
    · rw [← hsys0]; decide
    · rw [← hsys0]; decide
    · rw [← hsys0]; decide
    · intro g h1 h2
      simp [LFUSmartCacheImpl.bucket, mapAt, mapFind, hks, Ne.symm h1, Ne.symm h2]
    · rw [← hsys0]; decide
    · rw [← hsys0]; decide
  have hhit0 : hitsSinceInsertion 1 (demoStart .LeastFrequentlyUsed 2)
      [Call.push 1 10, Call.push 2 20, Call.get 1] none = some 1 := by decide
  obtain ⟨sys1, it1, hrun1, hp1, h1, hhits1⟩ :=
    hotState_gets m sys0 2 2 hpol0 h0 (by omega) (by omega)
  have hf1 : (2 : Int) + (m : Int) = 2147483647 := by omega
  rw [hf1] at h1
  obtain ⟨r, hr, hp2, h2, hres⟩ := hotState_step sys1 2147483647 it1 hp1 h1 (by decide)
  have hwrap : int32Succ 2147483647 = -2147483648 := by decide
  rw [hwrap] at h2
  have hrunAll : run sys0 (List.replicate m (Call.get 1) ++ [Call.get 1]) = Outcome.ok r.2 := by
    rw [run_append, hrun1]
    simp only [run, hr]
  have hsz : r.2.2.CacheSize = 2 := (run_keeps_settings _ sys0 r.2 hrunAll).2.1.trans hsz0
  refine ⟨r.2, _, ?_, hp2, hsz, h2, ?_⟩
  · rw [hlist, run_append, hpre]
    exact hrunAll
  · rw [hlist, hitsSinceInsertion_append 1 _ _ _ sys0 none hpre, hhit0,
      hitsSinceInsertion_append 1 _ _ sys0 sys1 (some 1) hrun1, hhits1 1]
    simp only [hitsSinceInsertion, hr, Call.touches, decide_True, if_true, hres,
      Option.map_some']
    congr 1
    omega

/-- C14, evaluated at the failing input: policy LFU, capacity 2, `push(1,10); push(2,20)`,
then `INT_MAX` times `get(1)`.  Every call returns and key 1, still resident, was hit
`INT_MAX` times since its insertion, so the claim gives it the frequency
`1 + INT_MAX = 2147483648`; the frequency recorded for key 1 is -2147483648, the `int`
having overflowed at the last hit. -/
theorem lfu_frequency_overflows_at_int_max :
    ∃ sys, run (demoStart .LeastFrequentlyUsed 2) overflowScenario = Outcome.ok sys ∧
      sys.1.resident sys.2 1 = true ∧
      hitsSinceInsertion 1 (demoStart .LeastFrequentlyUsed 2) overflowScenario none =
        some 2147483647 ∧
      sys.1.lfu.frequency 1 = some (-2147483648) := by
  obtain ⟨sys, it, hrun, hpol, _, h, hhits⟩ := hotState_overflow 2147483647 (by norm_num)
  refine ⟨sys, hrun, ?_, hhits, ?_⟩
  · rw [resident_lfu _ _ _ hpol, h.lookup]; rfl
  · rw [frequency_of_entries, h.entries]; rfl

/-- C16, evaluated at the failing input: policy LFU, capacity 2, `push(1,10); push(2,20)`,
then `INT_MAX` times `get(1)`.  Every call returns and the store holds two entries;
`min_frequency` is 1, yet the list of the smaller frequency -2147483648 is not empty: it
holds key 1, whose recorded frequency -2147483648 is below `min_frequency`. -/
theorem lfu_min_frequency_above_overflowed_list :
    ∃ sys, run (demoStart .LeastFrequentlyUsed 2) overflowScenario = Outcome.ok sys ∧
      sys.1.lfu.m_elementSequence ≠ [] ∧
      sys.1.lfu.min_frequency = 1 ∧
      sys.1.lfu.bucket (-2147483648) ≠ [] ∧
      (sys.1.lfu.bucket (-2147483648)).map Prod.snd = [1] ∧
      sys.1.resident sys.2 1 = true ∧
      sys.1.lfu.frequency 1 = some (-2147483648) := by
  obtain ⟨sys, it, hrun, hpol, _, h, _⟩ := hotState_overflow 2147483647 (by norm_num)
  refine ⟨sys, hrun, ?_, h.min, ?_, ?_, ?_, ?_⟩
  · rw [h.entries]; simp
  · rw [h.hotList]; simp
  · rw [h.hotList]; rfl
  · rw [resident_lfu _ _ _ hpol, h.lookup]; rfl
  · rw [frequency_of_entries, h.entries]; rfl

/-! ## Stale index entries seen through `Push` and `Contains` -/

/-- C12, evaluated at the failing input: policy LRU, capacity 1, the state reached by
`push(1,10); push(2,20)`, key 1 and any value `v`.  Both calls return and `Contains(1)` is
still true, but the iterator the index holds for key 1 designates the node the eviction
destroyed: `Push(1, v)` erases through it, which is undefined behaviour, and so is the
promotion `Get(1)` would perform.  Neither `push(1,v); push(1,v)` nor `push(1,v)` followed
by a promotion yields a state. -/
theorem push_twice_undefined_on_stale_key (v : Int) :
    run (demoStart .LeastRecentlyUsed 1) [Call.push 1 10, Call.push 2 20] =
      Outcome.ok (stateAfter (demoStart .LeastRecentlyUsed 1) [Call.push 1 10, Call.push 2 20]) ∧
    (stateAfter (demoStart .LeastRecentlyUsed 1)
      [Call.push 1 10, Call.push 2 20]).1.resident
        (stateAfter (demoStart .LeastRecentlyUsed 1) [Call.push 1 10, Call.push 2 20]).2 1 =
      true ∧
    run (demoStart .LeastRecentlyUsed 1)
      [Call.push 1 10, Call.push 2 20, Call.push 1 v] = Outcome.undefined ∧
    run (demoStart .LeastRecentlyUsed 1)
      [Call.push 1 10, Call.push 2 20, Call.push 1 v, Call.push 1 v] = Outcome.undefined ∧
    run (demoStart .LeastRecentlyUsed 1)
      [Call.push 1 10, Call.push 2 20, Call.push 1 v, Call.get 1] = Outcome.undefined ∧
    run (demoStart .MostRecentlyUsed 1)
      [Call.push 1 10, Call.push 2 20, Call.push 1 v, Call.push 1 v] = Outcome.undefined :=
  ⟨by decide, by decide, rfl, rfl, rfl, rfl⟩

/-- C15, evaluated at two failing inputs under policy LRU.  Capacity 3, after
`push(1,10); push(2,20); push(3,30); get(1); push(4,40)`: the entry of key 2 was evicted
(the Recency Store of the specification holds the keys 4, 1, 3), yet `Contains(2)` returns
true.  Capacity 2, after `push(1,2); push(2,5); push(3,9)`: the entry of key 1 was evicted
and the entry of key 2 is held (the list holds the values 9, 5; the store of the
specification holds the keys 3, 2), yet `Contains(1)` returns true and `Contains(2)`
returns false. -/
theorem contains_disagrees_with_residency :
    run (demoStart .LeastRecentlyUsed 3) recencyScenario =
      Outcome.ok (stateAfter (demoStart .LeastRecentlyUsed 3) recencyScenario) ∧
    (specRecencyRun true 3 [] recencyScenario).map Prod.fst = [4, 1, 3] ∧
    specResident (specRecencyRun true 3 [] recencyScenario) 2 = false ∧
    (SmartCacheImpl.Contains (stateAfter (demoStart .LeastRecentlyUsed 3) recencyScenario).2
      (stateAfter (demoStart .LeastRecentlyUsed 3) recencyScenario).1 2).1 = true ∧
    run (demoStart .LeastRecentlyUsed 2) crossScenario =
      Outcome.ok (stateAfter (demoStart .LeastRecentlyUsed 2) crossScenario) ∧
    (stateAfter (demoStart .LeastRecentlyUsed 2) crossScenario).1.values = [9, 5] ∧
    specRecencyRun true 2 [] crossScenario = [(3, 9), (2, 5)] ∧
    [1, 2, 3].map (specResident (specRecencyRun true 2 [] crossScenario)) =
      [false, true, true] ∧
    [1, 2, 3].map (fun k =>
      (SmartCacheImpl.Contains (stateAfter (demoStart .LeastRecentlyUsed 2) crossScenario).2
        (stateAfter (demoStart .LeastRecentlyUsed 2) crossScenario).1 k).1) =
      [true, false, true] := by
  decide

end SmartCache
